import Mathlib

set_option maxRecDepth 8000

/- Verification development for the Blender-to-Webots exporter
   (src/export_webots.py). Python strings are shallowly embedded as lists
   of characters; Python floats are modelled over the rationals; the
   stateful export run (identifier caches, emitted tags, the indentation
   counter of the text emitter) is modelled by explicit state passing. -/

abbrev PyStr := List Char

/-- The opening curly bracket character. -/
def lbrace : Char := Char.ofNat 123

/-- The closing curly bracket character. -/
def rbrace : Char := Char.ofNat 125

/-- Python str.isspace set for the characters occurring in this program
    (the default strip set of str.strip). -/
def pyIsSpace (c : Char) : Bool :=
  c == ' ' || c == '\t' || c == '\n' || c == '\x0b' || c == '\x0c' || c == '\r'

/-- Leading-whitespace removal (one side of str.strip). -/
def dropWS (s : PyStr) : PyStr := s.dropWhile pyIsSpace

/-- str.strip(): remove leading and trailing whitespace. -/
def pyStrip (s : PyStr) : PyStr := dropWS ((dropWS s.reverse).reverse)

/-- str.startswith. -/
def pyStartsWith : PyStr → PyStr → Bool
  | _, [] => true
  | [], _ :: _ => false
  | c :: r, p :: ps => c == p && pyStartsWith r ps

/-- str.endswith. -/
def pyEndsWith (s p : PyStr) : Bool := pyStartsWith s.reverse p.reverse

/-- Upper-case ASCII letter test, i.e. the regex [A-Z] used in slugify. -/
def isAZ (c : Char) : Bool := decide ('A' ≤ c) && decide (c ≤ 'Z')

/-- ASCII digit test. -/
def isDigitCh (c : Char) : Bool := decide ('0' ≤ c) && decide (c ≤ '9')

/-- One pass of Python s.replace(dd, d) where dd is a double underscore:
    leftmost, non-overlapping replacement of each double underscore by a
    single one. -/
def replaceDD : PyStr → PyStr
  | [] => []
  | [c] => [c]
  | c :: d :: r =>
    if c = '_' ∧ d = '_' then '_' :: replaceDD r else c :: replaceDD (d :: r)

/-- The Python test whether a double underscore occurs as a substring. -/
def hasDD : PyStr → Bool
  | [] => false
  | [_] => false
  | c :: d :: r => (c == '_' && d == '_') || hasDD (d :: r)

/-- The while-loop of slugify that repeatedly applies the double-underscore
    replacement until no double underscore is left.  The loop in the source
    is unbounded; each productive pass strictly shrinks the string, so a
    fuel of the initial length is enough (proved below). -/
def collapseLoop : Nat → PyStr → PyStr
  | 0, s => s
  | f + 1, s => if hasDD s then collapseLoop f (replaceDD s) else s

/-- slugify (src/export_webots.py lines 492-505): the identifier sanitizer.
    Empty input is replaced by the literal string none; the string is
    upper-cased (Char.toUpper matches Python str.upper on ASCII, and the
    following pass replaces every non-letter anyway); every character that
    does not match [A-Z] is replaced by an underscore; an underscore is
    prepended when the first character is no letter; double underscores are
    collapsed by the while-loop; one trailing underscore is stripped. -/
def slugify (s : PyStr) : PyStr :=
  let s1 := if s = [] then ("none").toList else s
  let s2 := s1.map Char.toUpper
  let s3 := s2.map (fun c => if isAZ c then c else '_')
  let s4 := if isAZ (s3.headD ' ') then s3 else '_' :: s3
  let s5 := collapseLoop s4.length s4
  if s5.getLastD ' ' = '_' then s5.dropLast else s5

/-- The regular expression of the claim for legal identifiers,
    caret A-Z bracket, then A-Z, digits or underscore, to the end. -/
def matchesIdRegex : PyStr → Bool
  | [] => false
  | c :: r => isAZ c && r.all (fun d => isAZ d || isDigitCh d || d == '_')

theorem replaceDD_length_le : ∀ s : PyStr, (replaceDD s).length ≤ s.length := by
  intro s
  induction s using replaceDD.induct with
  | case1 => simp [replaceDD]
  | case2 c => simp [replaceDD]
  | case3 c d r h ih =>
    simp only [replaceDD, if_pos h, List.length_cons]
    omega
  | case4 c d r h ih =>
    simp only [replaceDD, if_neg h, List.length_cons]
    exact Nat.succ_le_succ ih

theorem replaceDD_length_lt : ∀ s : PyStr, hasDD s = true → (replaceDD s).length < s.length := by
  intro s
  induction s using replaceDD.induct with
  | case1 => simp [hasDD]
  | case2 c => simp [hasDD]
  | case3 c d r h ih =>
    intro _
    simp only [replaceDD, if_pos h, List.length_cons]
    have := replaceDD_length_le r
    omega
  | case4 c d r h ih =>
    intro hdd
    have hdd2 : hasDD (d :: r) = true := by
      rcases r with _ | ⟨e, r⟩
      · simp only [hasDD, Bool.or_eq_true, Bool.and_eq_true, beq_iff_eq] at hdd
        tauto
      · simp only [hasDD, Bool.or_eq_true, Bool.and_eq_true, beq_iff_eq] at hdd ⊢
        tauto
    simp only [replaceDD, if_neg h, List.length_cons]
    exact Nat.succ_lt_succ (ih hdd2)

theorem collapseLoop_noDD : ∀ f s, s.length ≤ f → hasDD (collapseLoop f s) = false := by
  intro f
  induction f with
  | zero =>
    intro s hs
    have : s = [] := List.eq_nil_of_length_eq_zero (Nat.le_zero.mp hs)
    subst this; simp [collapseLoop, hasDD]
  | succ f ih =>
    intro s hs
    simp only [collapseLoop]
    by_cases h : hasDD s = true
    · rw [if_pos h]
      exact ih _ (by have := replaceDD_length_lt s h; omega)
    · rw [if_neg h]
      exact Bool.eq_false_iff.mpr h

theorem mem_replaceDD : ∀ s : PyStr, ∀ c ∈ replaceDD s, c ∈ s := by
  intro s
  induction s using replaceDD.induct with
  | case1 => simp [replaceDD]
  | case2 c => simp [replaceDD]
  | case3 c d r h ih =>
    intro x hx
    simp only [replaceDD, if_pos h, List.mem_cons] at hx
    rcases hx with hx | hx
    · simp [hx, h.1]
    · simp [List.mem_cons]
      tauto
  | case4 c d r h ih =>
    intro x hx
    simp only [replaceDD, if_neg h, List.mem_cons] at hx
    rcases hx with hx | hx
    · simp [hx]
    · have := ih x hx
      simp [List.mem_cons] at this ⊢
      tauto

theorem mem_collapseLoop : ∀ f s, ∀ c ∈ collapseLoop f s, c ∈ s := by
  intro f
  induction f with
  | zero => intro s c hc; simpa [collapseLoop] using hc
  | succ f ih =>
    intro s c hc
    simp only [collapseLoop] at hc
    by_cases h : hasDD s = true
    · rw [if_pos h] at hc
      exact mem_replaceDD s c (ih _ c hc)
    · rwa [if_neg h] at hc

theorem replaceDD_cons_of_ne : ∀ (c : Char) (r : PyStr), c ≠ '_' →
    replaceDD (c :: r) = c :: replaceDD r := by
  intro c r hc
  match r with
  | [] => simp [replaceDD]
  | d :: r' =>
    simp only [replaceDD]
    rw [if_neg (by intro h; exact hc h.1)]

theorem collapseLoop_cons_of_ne : ∀ f (c : Char) r, c ≠ '_' →
    ∃ r2, collapseLoop f (c :: r) = c :: r2 := by
  intro f
  induction f with
  | zero => intro c r _; exact ⟨r, rfl⟩
  | succ f ih =>
    intro c r hc
    simp only [collapseLoop]
    by_cases h : hasDD (c :: r) = true
    · rw [if_pos h, replaceDD_cons_of_ne c r hc]
      exact ih c _ hc
    · rw [if_neg h]
      exact ⟨r, rfl⟩

theorem hasDD_append_dd : ∀ v : PyStr, hasDD (v ++ ['_', '_']) = true := by
  intro v
  induction v with
  | nil => simp [hasDD]
  | cons c v ih =>
    cases v with
    | nil => simp [hasDD]
    | cons d v' =>
      show ((c == '_' && d == '_') || hasDD (d :: (v' ++ ['_', '_']))) = true
      have ih2 : hasDD (d :: (v' ++ ['_', '_'])) = true := ih
      rw [ih2]
      simp

/-- C2 counterexample helper fact: the input consisting of one underscore. -/
theorem slugify_underscore : slugify ((("_")).toList) = [] := by decide

theorem slugify_one_a : slugify ((("1a")).toList) = ['_', 'A'] := by decide

/-- C2 (counterexample): the claim is false.  On the input consisting of a
    digit followed by a letter, slugify returns a string starting with an
    underscore, which does not match the regex; on the input consisting of a
    single underscore, slugify returns the empty string (the NONE placeholder
    is substituted only for empty input, not when sanitization empties a
    non-empty input). -/
theorem c2_counterexample :
    matchesIdRegex (slugify ((("1a")).toList)) = false ∧
    slugify ((("_")).toList) = [] ∧ slugify ((("_")).toList) ≠ ("NONE").toList := by
  refine ⟨by decide, by decide, by decide⟩

theorem hasDD_append_left : ∀ u w : PyStr, hasDD u = true → hasDD (u ++ w) = true := by
  intro u
  induction u with
  | nil => simp [hasDD]
  | cons c u ih =>
    intro w h
    cases u with
    | nil => simp [hasDD] at h
    | cons d u' =>
      show ((c == '_' && d == '_') || hasDD (d :: (u' ++ w))) = true
      simp only [hasDD, Bool.or_eq_true] at h
      rcases h with h | h
      · simp [h]
      · have h2 : hasDD ((d :: u') ++ w) = true := ih w h
        simp only [List.cons_append] at h2
        simp [h2]

/-- C2 (amended): what slugify actually guarantees.  For every input, the
    output consists only of upper-case ASCII letters and underscores, has no
    double underscore and no trailing underscore; the NONE placeholder is
    produced exactly for the empty input; and whenever the first input
    character upper-cases to an ASCII letter the output is non-empty and
    matches the identifier regex.  (Inputs starting with a non-letter may
    yield a leading underscore or even the empty string, as the
    counterexample shows.) -/
theorem c2_amended (s : PyStr) :
    (∀ c ∈ slugify s, isAZ c = true ∨ c = '_')
  ∧ hasDD (slugify s) = false
  ∧ (slugify s).getLastD 'A' ≠ '_'
  ∧ (s = [] → slugify s = ("NONE").toList)
  ∧ (isAZ (Char.toUpper (s.headD '_')) = true →
      matchesIdRegex (slugify s) = true) := by
  -- names for the intermediate strings of the sanitizer pipeline
  have hpipe : slugify s =
      (let s1 := if s = [] then ("none").toList else s
       let s2 := s1.map Char.toUpper
       let s3 := s2.map (fun c => if isAZ c then c else '_')
       let s4 := if isAZ (s3.headD ' ') then s3 else '_' :: s3
       let s5 := collapseLoop s4.length s4
       if s5.getLastD ' ' = '_' then s5.dropLast else s5) := rfl
  set s1 := if s = [] then ("none").toList else s with hs1
  set s2 := s1.map Char.toUpper with hs2
  set s3 := s2.map (fun c => if isAZ c then c else '_') with hs3
  set s4 := if isAZ (s3.headD ' ') then s3 else '_' :: s3 with hs4
  set s5 := collapseLoop s4.length s4 with hs5
  have hres : slugify s = if s5.getLastD ' ' = '_' then s5.dropLast else s5 := hpipe
  -- characters of s3, s4, s5 are letters or underscores
  have h3 : ∀ c ∈ s3, isAZ c = true ∨ c = '_' := by
    intro c hc
    rw [hs3] at hc
    rcases List.mem_map.mp hc with ⟨d, _, hd⟩
    by_cases hAZ : isAZ d = true
    · left; rw [← hd]; simp [hAZ]
    · right; rw [← hd]; simp [hAZ]
  have h4 : ∀ c ∈ s4, isAZ c = true ∨ c = '_' := by
    intro c hc
    rw [hs4] at hc
    by_cases hh : isAZ (s3.headD ' ') = true
    · rw [if_pos hh] at hc; exact h3 c hc
    · rw [if_neg hh] at hc
      rcases List.mem_cons.mp hc with hc | hc
      · right; exact hc
      · exact h3 c hc
  have h5 : ∀ c ∈ s5, isAZ c = true ∨ c = '_' := fun c hc =>
    h4 c (mem_collapseLoop _ _ c hc)
  have h5dd : hasDD s5 = false := collapseLoop_noDD _ _ (Nat.le_refl _)
  -- the result is s5 or its dropLast
  have hsub : slugify s ⊆ s5 := by
    rw [hres]
    by_cases hl : s5.getLastD ' ' = '_'
    · rw [if_pos hl]; exact (List.dropLast_sublist s5).subset
    · rw [if_neg hl]; exact fun a ha => ha
  refine ⟨fun c hc => h5 c (hsub hc), ?_, ?_, ?_, ?_⟩
  · -- no double underscore in the result
    rw [hres]
    by_cases hl : s5.getLastD ' ' = '_'
    · rw [if_pos hl]
      rcases List.eq_nil_or_concat' s5 with h0 | ⟨u, b, hu⟩
      · simp [h0] at hl
      · rw [hu, List.dropLast_concat]
        by_contra hdd
        have hdd2 : hasDD u = true := Bool.not_eq_false _ |>.mp hdd
        have := hasDD_append_left u [b] hdd2
        rw [← hu] at this
        rw [this] at h5dd
        simp at h5dd
    · rw [if_neg hl]; exact h5dd
  · -- no trailing underscore in the result
    rw [hres]
    by_cases hl : s5.getLastD ' ' = '_'
    · rw [if_pos hl]
      rcases List.eq_nil_or_concat' s5 with h0 | ⟨u, b, hu⟩
      · simp [h0] at hl
      · rw [hu, List.dropLast_concat]
        rcases List.eq_nil_or_concat' u with h0 | ⟨v, c, hv⟩
        · subst h0; decide
        · rw [hv, List.getLastD_concat]
          intro hc
          subst hc
          have hb : b = '_' := by
            rw [hu, List.getLastD_concat] at hl; exact hl
          subst hb
          have : hasDD s5 = true := by
            rw [hu, hv, List.append_assoc]
            exact hasDD_append_dd v
          rw [this] at h5dd
          simp at h5dd
    · rw [if_neg hl]
      rcases List.eq_nil_or_concat' s5 with h0 | ⟨u, b, hu⟩
      · rw [h0]; decide
      · rw [hu, List.getLastD_concat]
        rw [hu, List.getLastD_concat] at hl
        exact hl
  · -- empty input gives the placeholder
    intro h0
    subst h0
    decide
  · -- inputs starting with a letter match the identifier regex
    intro hAZ
    cases s with
    | nil => exact absurd hAZ (by decide)
    | cons c r =>
      simp only [List.headD_cons] at hAZ
      have hne : (c :: r : PyStr) ≠ [] := by simp
      have h1 : s1 = c :: r := by rw [hs1, if_neg hne]
      have h2 : s2 = Char.toUpper c :: r.map Char.toUpper := by rw [hs2, h1]; rfl
      have h3' : s3 = Char.toUpper c ::
          (r.map Char.toUpper).map (fun d => if isAZ d then d else '_') := by
        rw [hs3, h2]
        simp [hAZ]
      have h4' : s4 = s3 := by
        rw [hs4, h3']
        simp [hAZ]
      have hcne : Char.toUpper c ≠ '_' := by
        intro hcu
        rw [hcu] at hAZ
        exact absurd hAZ (by decide)
      obtain ⟨r2, h5'⟩ := collapseLoop_cons_of_ne
        (Char.toUpper c ::
          (r.map Char.toUpper).map (fun d => if isAZ d then d else '_')).length
        (Char.toUpper c)
        ((r.map Char.toUpper).map (fun d => if isAZ d then d else '_')) hcne
      have h5'' : s5 = Char.toUpper c :: r2 := by
        rw [hs5, h4', h3']
        exact h5'
      have hform : ∃ t, slugify (c :: r) = Char.toUpper c :: t := by
        rw [hres]
        by_cases hl : s5.getLastD ' ' = '_'
        · rw [if_pos hl]
          rcases List.eq_nil_or_concat' s5 with h0 | ⟨u, b, hu⟩
          · simp [h0] at hl
          · rw [hu, List.dropLast_concat]
            rcases u with _ | ⟨u0, u'⟩
            · exfalso
              have hb : b = '_' := by
                rw [hu, List.getLastD_concat] at hl; exact hl
              rw [hu, hb] at h5''
              simp only [List.nil_append, List.cons.injEq] at h5''
              exact hcne h5''.1.symm
            · rw [hu] at h5''
              simp only [List.cons_append, List.cons.injEq] at h5''
              exact ⟨u', by rw [← h5''.1]⟩
        · rw [if_neg hl]
          exact ⟨r2, h5''⟩
      obtain ⟨t, ht⟩ := hform
      rw [ht]
      have hchars : ∀ d ∈ t, isAZ d = true ∨ d = '_' := by
        intro d hd
        have hmem : d ∈ slugify (c :: r) := by
          rw [ht]; exact List.mem_cons_of_mem _ hd
        exact h5 d (hsub hmem)
      simp only [matchesIdRegex, Bool.and_eq_true, List.all_eq_true]
      refine ⟨hAZ, fun d hd => ?_⟩
      rcases hchars d hd with h | h
      · simp [h]
      · simp [h]

/-- Witness for the amended C2 theorem: the regex guarantee at a concrete
    letter-headed input, and the placeholder for the empty input. -/
theorem c2_amended_witness :
    matchesIdRegex (slugify (("ab1")).toList) = true ∧
    slugify ([] : PyStr) = ("NONE").toList :=
  ⟨(c2_amended ((("ab1")).toList)).2.2.2.2 (by decide),
   (c2_amended ([] : PyStr)).2.2.2.1 rfl⟩

/-- Decimal digit character. -/
def digitChar (n : Nat) : Char := Char.ofNat (48 + n)

/-- Decimal digits of a natural number (fuel-based). -/
def natDigitsAux : Nat → Nat → PyStr
  | 0, _ => []
  | f + 1, n =>
    if n < 10 then [digitChar n] else natDigitsAux f (n / 10) ++ [digitChar (n % 10)]

def natDigits (n : Nat) : PyStr := natDigitsAux (n + 1) n

/-- Left-pad with zeros to width w. -/
def padZeros (w : Nat) (s : PyStr) : PyStr := List.replicate (w - s.length) '0' ++ s

/-- printf %03d of a non-negative count, as used by the disambiguation loop
    of the external unique_name helper. -/
def fmt03 (n : Nat) : PyStr := padZeros 3 (natDigits n)

/-- Executable exact rationals modelling Python float values: a numerator
    and a denominator that stays positive under the operations below.
    (Mathlib's Rat does not reduce inside the kernel, so the embedding
    carries its own arithmetic; Q.toRat maps a value into the mathematical
    rationals for specification-side statements.) -/
structure Q where
  num : ℤ
  den : ℤ

def Q.ofInt (n : ℤ) : Q := ⟨n, 1⟩

instance {n : Nat} : OfNat Q n := ⟨⟨(n : ℤ), 1⟩⟩

instance : Neg Q := ⟨fun a => ⟨-a.num, a.den⟩⟩

instance : Add Q := ⟨fun a b => ⟨a.num * b.den + b.num * a.den, a.den * b.den⟩⟩

instance : Sub Q := ⟨fun a b => ⟨a.num * b.den - b.num * a.den, a.den * b.den⟩⟩

instance : Mul Q := ⟨fun a b => ⟨a.num * b.num, a.den * b.den⟩⟩

/-- Restore a positive denominator after a division. -/
def Q.signfix (q : Q) : Q := if q.den < 0 then ⟨-q.num, -q.den⟩ else q

instance : Div Q := ⟨fun a b => Q.signfix ⟨a.num * b.den, a.den * b.num⟩⟩

/-- Numeric equality of two rationals with positive denominators. -/
def Q.beq (a b : Q) : Bool := a.num * b.den == b.num * a.den

/-- Numeric order of two rationals with positive denominators. -/
def Q.ble (a b : Q) : Bool := decide (a.num * b.den ≤ b.num * a.den)

def Q.blt (a b : Q) : Bool := decide (a.num * b.den < b.num * a.den)

/-- Python max of two values (the first one when equal). -/
def Q.qmax (a b : Q) : Q := if Q.ble b a then a else b

/-- Python min of two values (the first one when equal). -/
def Q.qmin (a b : Q) : Q := if Q.ble a b then a else b

def Q.floor (a : Q) : ℤ := a.num.fdiv a.den

def Q.ceil (a : Q) : ℤ := -((-a.num).fdiv a.den)

/-- Rounding to the nearest integer, half up; printf rendering of the
    binary doubles of the source agrees with this on every tie-free value
    appearing in the concrete scenes below. -/
def Q.round (a : Q) : ℤ := Q.floor (a + ⟨1, 2⟩)

/-- The value as a mathematical rational (for specification statements). -/
def Q.toRat (a : Q) : ℚ := (a.num : ℚ) / (a.den : ℚ)

/-- Python int() on a float value: truncation toward zero (the int() calls
    of nearly_equal). -/
def pyTrunc (q : Q) : ℤ := if Q.ble 0 q then Q.floor q else Q.ceil q

/-- nearly_equal (src/export_webots.py lines 508-509): a == b, or both
    values scaled by 10 to the sig_fig truncate to the same integer. -/
def nearly_equal (a b : Q) (sig_fig : ℕ := 5) : Bool :=
  Q.beq a b || pyTrunc (a * Q.ofInt (10 ^ sig_fig)) == pyTrunc (b * Q.ofInt (10 ^ sig_fig))

/-- printf fixed-point rendering of a value with p fraction digits (the
    %.6f / %.4f / %.3f patterns): sign, integer digits, point, padded
    fraction digits. -/
def fmtF (q : Q) (p : Nat) : PyStr :=
  let scaled : ℤ := Q.round (q * Q.ofInt (10 ^ p))
  let sign : PyStr := if scaled < 0 then ['-'] else []
  let m := scaled.natAbs
  sign ++ natDigits (m / 10 ^ p) ++
    (if p = 0 then [] else '.' :: padZeros p (natDigits (m % 10 ^ p)))

/-- Three blank-separated fixed-point numbers (%.pf %.pf %.pf). -/
def fmt3 (v : Q × Q × Q) (p : Nat) : PyStr :=
  fmtF v.1 p ++ ' ' :: fmtF v.2.1 p ++ ' ' :: fmtF v.2.2 p

/-- Four blank-separated fixed-point numbers (%.pf four times). -/
def fmt4 (v : Q × Q × Q × Q) (p : Nat) : PyStr :=
  fmtF v.1 p ++ ' ' :: fmtF v.2.1 p ++ ' ' :: fmtF v.2.2.1 p ++ ' ' :: fmtF v.2.2.2 p

/-- An image datablock: host identity key, name and stored file path. -/
structure Image where
  key : Nat
  name : PyStr
  filepath : PyStr
deriving DecidableEq

/-- A texture datablock: its type string and optional image. -/
structure TexData where
  ttype : PyStr
  image : Option Image
deriving DecidableEq

/-- A texture slot of a material (an mtex entry); holds an optional texture. -/
structure TexSlot where
  texture : Option TexData
deriving DecidableEq

/-- A material: the fields read by the geometry writer. -/
structure Material where
  diffuse_color : Q × Q × Q
  ambient : Q
  emit : Q
  use_face_texture : Bool
  texture_slots : List (Option TexSlot)

/-- A tessellated face: per-face material index, 3 or 4 vertex indices and
    the smooth flag. -/
structure Face where
  material_index : Nat
  vertices : List Nat
  use_smooth : Bool

/-- One entry of the active UV layer data: the per-face uv image and the
    per-corner uv coordinates. -/
structure FaceUV where
  image : Option Image
  uv : List (Q × Q)

/-- A mesh datablock.  tessfaces and polygons model the tessellation state;
    the host call mesh.update(calc_tessface=True) (line 164) recomputes
    tessfaces from the polygons, and for the triangle/quad meshes in scope
    tessellation is the identity, so the model copies polygons to
    tessfaces. -/
structure Mesh where
  key : Nat
  name : PyStr
  tessfaces : List Face
  polygons : List Face
  vertices : List (Q × Q × Q)
  materials : List (Option Material)
  uv_active : Option (List FaceUV)
  use_auto_smooth : Bool
  auto_smooth_angle : Q

/-- An object: host identity key, name, bounding box corners and dimensions
    (the fields read by the bounding-object writer, lines 135-141). -/
structure Obj where
  key : Nat
  name : PyStr
  bound_box : List (Q × Q × Q)
  dimensions : Q × Q × Q

/-- The world ambient color (scene.world). -/
structure World where
  ambient_color : Q × Q × Q

/-- The decomposition of a local matrix into translation, axis-angle
    rotation (axis x y z, then angle) and scale, as produced by the external
    mathutils decompose / to_axis_angle calls (lines 83-85); the exporter
    only consumes the decomposed values. -/
structure TRS where
  loc : Q × Q × Q
  rot : Q × Q × Q × Q
  sca : Q × Q × Q

/-- One override-table record (a user_data value): the declared Webots node
    type; the hingeJointParameters axis string (present per the override
    table schema, read only for HingeJoint overrides); optional motor and
    position-sensor names (the in-dict tests of lines 112, 117, 123). -/
structure NodeData where
  webotsType : PyStr
  axis : PyStr
  motorName : Option PyStr
  positionSensorName : Option PyStr
deriving DecidableEq

/-- Association-list lookup, modelling Python dict access.  The caches and
    the override table only ever insert fresh keys, so first match is exact. -/
def alookup {α β : Type} [DecidableEq α] : List (α × β) → α → Option β
  | [], _ => none
  | (k, v) :: r, a => if k = a then some v else alookup r a

/-- The collision loop of the external unique_name helper: candidates are
    base_001, base_002, and so on; at most values.length of them can be
    taken, so a fuel of values.length + 1 always suffices. -/
def disambigLoop (base : PyStr) (vals : List PyStr) : Nat → Nat → PyStr
  | 0, cnt => base ++ '_' :: fmt03 cnt
  | f + 1, cnt =>
    let cand := base ++ '_' :: fmt03 cnt
    if cand ∈ vals then disambigLoop base vals f (cnt + 1) else cand

/-- Modelled from the spec: the external helper
    bpy_extras.io_utils.unique_name (spec section 4.1: uniqueness is
    enforced by the caller appending a numeric disambiguator on collision),
    called in the source with clean_func=slugify, an underscore separator
    and no truncation.  Returns the cached identifier for a known key;
    otherwise sanitizes the name, disambiguates against already assigned
    values, and records the result. -/
def freshName (name : PyStr) (cache : List (Nat × PyStr)) : PyStr :=
  let base := slugify name
  let vals := cache.map (fun e => e.2)
  if base ∈ vals then disambigLoop base vals (vals.length + 1) 1 else base

/-- The caching shell of the external unique_name helper: return the cached
    identifier for a known key, otherwise assign and record a fresh one. -/
def unique_name (key : Nat) (name : PyStr) (cache : List (Nat × PyStr)) :
    PyStr × List (Nat × PyStr) :=
  match alookup cache key with
  | some n => (n, cache)
  | none =>
    let nm := freshName name cache
    (nm, cache ++ [(key, nm)])

/-- The text emitter state: the two closure variables of fw (lines 65-66)
    plus the file contents written so far. -/
structure FWState where
  indentation : ℤ
  isLastCharacterACariageReturn : Bool
  out : PyStr
deriving DecidableEq

/-- fw (lines 55-66): one indentation-tracking write.  A fragment whose
    stripped content starts with a closing bracket first decrements the
    indentation; if the previous fragment ended in a newline, two blanks per
    indentation level are written (none for negative levels, as in Python
    string repetition); the fragment follows; a fragment whose stripped
    content ends with an opening bracket then increments the indentation. -/
def fwStep (st : FWState) (line : PyStr) : FWState :=
  let strippedLine := pyStrip line
  let ind1 := if pyStartsWith strippedLine [rbrace] || pyStartsWith strippedLine [']']
    then st.indentation - 1 else st.indentation
  let out1 := if st.isLastCharacterACariageReturn
    then st.out ++ List.replicate (2 * ind1).toNat ' ' else st.out
  let out2 := out1 ++ line
  let ind2 := if pyEndsWith strippedLine [lbrace] || pyEndsWith strippedLine ['[']
    then ind1 + 1 else ind1
  ⟨ind2, pyEndsWith line ['\n'], out2⟩

/-- Run the text emitter over a list of fragments. -/
def runFW (st : FWState) (frags : List PyStr) : FWState := frags.foldl fwStep st

/-- The initial fw state (lines 65-66). -/
def fwInit : FWState := ⟨0, false, []⟩

/-- The caches of one export invocation (lines 36-38) and the tag flags
    reset by bpy.data.meshes.tag(False) / images.tag(False) at export start
    (modelled as the lists of tagged keys, initially empty). -/
structure ExpSt where
  uuid_cache_object : List (Nat × PyStr)
  uuid_cache_mesh : List (Nat × PyStr)
  uuid_cache_image : List (Nat × PyStr)
  taggedMeshes : List Nat
  taggedImages : List Nat
deriving DecidableEq

def expInit : ExpSt := ⟨[], [], [], [], []⟩

/-- clamp_color (lines 480-481) on a 3-component color. -/
def clamp_color (col : Q × Q × Q) : Q × Q × Q :=
  (Q.qmax (Q.qmin col.1 1) 0, Q.qmax (Q.qmin col.2.1 1) 0, Q.qmax (Q.qmin col.2.2 1) 0)

/-- Python max over a list (the bound_box corner coordinates; the host
    guarantees 8 corners, the empty-list default 0 is never read in the
    scenes considered). -/
def qmaxList (l : List Q) : Q := l.foldl Q.qmax (l.headD 0)

def qminList (l : List Q) : Q := l.foldl Q.qmin (l.headD 0)

/-- The boundingObject block of write_transform_begin (lines 133-144). -/
def boundingFrags (obj : Obj) : List PyStr :=
  let x := (⟨1, 2⟩ : Q) *
    (qmaxList (obj.bound_box.map (fun v => v.1)) + qminList (obj.bound_box.map (fun v => v.1)))
  let y := (⟨1, 2⟩ : Q) *
    (qmaxList (obj.bound_box.map (fun v => v.2.1)) + qminList (obj.bound_box.map (fun v => v.2.1)))
  let z := (⟨1, 2⟩ : Q) *
    (qmaxList (obj.bound_box.map (fun v => v.2.2)) + qminList (obj.bound_box.map (fun v => v.2.2)))
  [("boundingObject Transform \x7b\n").toList,
   ("translation ").toList ++ fmt3 (x, y, z) 6 ++ ['\n'],
   ("children [\n").toList,
   ("Box \x7b\n").toList,
   ("size ").toList ++ fmt3 obj.dimensions 6 ++ ['\n'],
   ("\x7d\n").toList,
   ("]\n").toList,
   ("\x7d\n").toList]

/-- The HingeJoint block of write_transform_begin (lines 105-124). -/
def hingeFrags (node_data : NodeData) (loc : Q × Q × Q) : List PyStr :=
  [("jointParameters HingeJointParameters \x7b\n").toList,
   ("anchor ").toList ++ fmt3 loc 6 ++ ['\n'],
   ("axis ").toList ++ node_data.axis ++ ['\n'],
   ("\x7d\n").toList,
   ("device [\n").toList] ++
  (match node_data.motorName with
   | some m =>
     [("RotationalMotor \x7b\n").toList,
      ("name \"").toList ++ m ++ ['"', '\n'],
      ("maxTorque 100000\n").toList,
      ("\x7d\n").toList]
   | none => []) ++
  (match node_data.positionSensorName with
   | some p2 =>
     [("PositionSensor \x7b\n").toList,
      ("name \"").toList ++ p2 ++ ['"', '\n'],
      ("\x7d\n").toList]
   | none => []) ++
  [("]\n").toList,
   ("endPoint Solid \x7b\n").toList] ++
  (match node_data.motorName with
   | some m => [("name \"").toList ++ m ++ ['"', '\n']]
   | none => [])

/-- The numeric identity test of lines 97-98: every translation component
    nearly equal to zero, the rotation angle nearly equal to zero, every
    scale component nearly equal to one. -/
def skipCond (trs : TRS) : Bool :=
  nearly_equal trs.loc.1 0 && nearly_equal trs.loc.2.1 0 && nearly_equal trs.loc.2.2 0 &&
  nearly_equal trs.rot.2.2.2 0 &&
  nearly_equal trs.sca.1 1 && nearly_equal trs.sca.2.1 1 && nearly_equal trs.sca.2.2 1

/-- write_transform_begin (lines 82-148).  Returns the fragments passed to
    fw and the returned pair (skipUselessTransform,
    supplementaryCurvyBracket). -/
def write_transform_begin (obj : Obj) (trs : TRS) (def_id : Option PyStr)
    (user_data : List (PyStr × NodeData)) : List PyStr × Bool × Bool :=
  let loc := trs.loc
  let rot := trs.rot
  let sca := trs.sca
  match (match def_id with
         | some d => (alookup user_data d).map (fun nd => (d, nd))
         | none => none) with
  | some (d, node_data) =>
    let hingeJoint := node_data.webotsType == ("HingeJoint").toList
    let exportPhysics := node_data.webotsType != ("Robot").toList
    let frags :=
      [("DEF ").toList ++ d ++ [' '],
       node_data.webotsType ++ (" \x7b\n").toList] ++
      (if hingeJoint then hingeFrags node_data loc else []) ++
      [("translation ").toList ++ fmt3 loc 6 ++ ['\n'],
       ("scale ").toList ++ fmt3 sca 6 ++ ['\n'],
       ("rotation ").toList ++ fmt4 rot 6 ++ ['\n']] ++
      (if exportPhysics then [("physics Physics \x7b\n").toList, ("\x7d\n").toList] else []) ++
      boundingFrags obj ++
      [("children [\n").toList]
    (frags, false, hingeJoint)
  | none =>
    if skipCond trs then
      ([], true, false)
    else
      ((match def_id with
        | some d => [("DEF ").toList ++ d ++ [' ']]
        | none => []) ++
       [("Transform \x7b\n").toList,
        ("translation ").toList ++ fmt3 loc 6 ++ ['\n'],
        ("scale ").toList ++ fmt3 sca 6 ++ ['\n'],
        ("rotation ").toList ++ fmt4 rot 6 ++ ['\n'],
        ("children [\n").toList], false, false)

/-- write_transform_end (lines 150-154). -/
def write_transform_end (supplementaryCurvyBracket : Bool) : List PyStr :=
  [("]\n").toList, ("\x7d\n").toList] ++
  (if supplementaryCurvyBracket then [("\x7d\n").toList] else [])

/-- xml.sax.saxutils.escape. -/
def pyEscape : PyStr → PyStr
  | [] => []
  | c :: r =>
    (if c = '&' then ("&amp;").toList
     else if c = '<' then ("&lt;").toList
     else if c = '>' then ("&gt;").toList else [c]) ++ pyEscape r

/-- os.path.basename for slash-separated paths. -/
def pyBasename (s : PyStr) : PyStr := (s.reverse.takeWhile (fun c => c ≠ '/')).reverse

/-- str.replace of backslashes by slashes (line 359). -/
def slashify (s : PyStr) : PyStr := s.map (fun c => if c = '\\' then '/' else c)

/-- The first-occurrence deduplication comprehension of line 360. -/
def dedupKeepFirst (l : List PyStr) : List PyStr :=
  l.foldl (fun acc f => if f ∈ acc then acc else acc ++ [f]) []

/-- Blank-separated join (str.join with one blank). -/
def joinBlank : List PyStr → PyStr
  | [] => []
  | [s] => s
  | s :: r => s ++ ' ' :: joinBlank r

/-- Modelled from the spec: bpy.path.abspath and
    bpy_extras.io_utils.path_reference are the external path-resolution
    service (spec sections 1 and 6); both are modelled as returning the
    stored path unchanged, and the copy_set side-channel is not modelled. -/
def path_reference (filepath : PyStr) : PyStr := filepath

/-- write_image_texture (lines 334-363). -/
def write_image_texture (image : Image) (path_mode : PyStr) (st : ExpSt) :
    List PyStr × ExpSt :=
  let r1 := unique_name image.key (("IM_").toList ++ image.name) st.uuid_cache_image
  let image_id := r1.1
  let st := { st with uuid_cache_image := r1.2 }
  if image.key ∈ st.taggedImages then
    ([("texture USE ").toList ++ image_id ++ ['\n']], st)
  else
    let st := { st with taggedImages := st.taggedImages ++ [image.key] }
    let filepath := image.filepath
    let filepath_full := path_reference filepath
    let filepath_ref := path_reference filepath_full
    let filepath_base := pyBasename filepath_full
    let images0 := [filepath_ref, filepath_base] ++
      (if path_mode ≠ ("RELATIVE").toList then [filepath_full] else [])
    let images1 := images0.map slashify
    let images2 := dedupKeepFirst images1
    let urlLine := ("url [ \"").toList ++
      joinBlank (images2.map (fun f => '"' :: (pyEscape f ++ ['"']))) ++ ("\" ]\n").toList
    ([("texture ").toList,
      ("DEF ").toList ++ image_id ++ [' '],
      ("ImageTexture \x7b\n").toList,
      urlLine,
      ("\x7d\n").toList], st)

/-- The object used by the concrete C4 statements. -/
def obj0 : Obj := ⟨1, ("A").toList, [], (0, 0, 0)⟩

/-- A transform whose only deviation from the identity is a scale first
    component at distance 1/200000 below one. -/
def trsNear1 : TRS := ⟨(0, 0, 0), (0, 0, 1, 0), (⟨199999, 200000⟩, 1, 1)⟩

/-- C4 (counterexample): the claim is false.  This transform has
    translation exactly zero, rotation angle exactly zero and every scale
    component within 1e-5 of one, and the node has no override entry, yet
    write_transform_begin does not skip: it returns the skipped flag false
    and emits a Transform wrapper, because nearly_equal compares truncated
    scaled integers (int(0.999995 * 1e5) = 99999 differs from 100000)
    rather than a distance of at most 1e-5. -/
theorem c4_counterexample :
    |(1 : ℚ) - Q.toRat ⟨199999, 200000⟩| < 1 / 100000 ∧
    trsNear1.sca.1 = ⟨199999, 200000⟩ ∧
    (write_transform_begin obj0 trsNear1 (some (("A_TRANSFORM").toList)) []).2.1 = false ∧
    (write_transform_begin obj0 trsNear1 (some (("A_TRANSFORM").toList)) []).1 ≠ [] := by
  refine ⟨?_, rfl, by decide, by decide⟩
  rw [Q.toRat]
  rw [show |(1 : ℚ) - (199999 : ℤ) / ((200000 : ℤ) : ℚ)| = |(1 : ℚ) / 200000| by norm_num]
  rw [abs_of_pos (by norm_num)]
  norm_num

/-- The sort-key image name: getattr(image, name, empty) of line 234 maps
    the absent image to the empty string. -/
def imgSortName : Option Image → PyStr
  | none => []
  | some im => im.name

/-- Lexicographic strict order on strings by character code (Python str
    comparison). -/
def pyStrLt : PyStr → PyStr → Bool
  | [], [] => false
  | [], _ :: _ => true
  | _ :: _, [] => false
  | a :: as, b :: bs => if a = b then pyStrLt as bs else decide (a < b)

/-- The sort order of line 234 on group items: material index ascending,
    then image name ascending. -/
def groupKeyLE (a b : (Nat × Option Image) × List Nat) : Bool :=
  if a.1.1 = b.1.1 then !(pyStrLt (imgSortName b.1.2) (imgSortName a.1.2))
  else decide (a.1.1 < b.1.1)

/-- Ordered insertion for the stable sort modelling list.sort of line 233. -/
def insertSorted (x : (Nat × Option Image) × List Nat) :
    List ((Nat × Option Image) × List Nat) → List ((Nat × Option Image) × List Nat)
  | [] => [x]
  | y :: r => if groupKeyLE x y then x :: y :: r else y :: insertSorted x r

/-- Python list.sort with the key of line 234: a stable sort by
    (material index, image name); insertion sort is stable, and C8 below
    proves the result does not depend on the presented order when image
    names are injective. -/
def sortGroups (l : List ((Nat × Option Image) × List Nat)) :
    List ((Nat × Option Image) × List Nat) :=
  l.foldr insertSorted []

/-- The dict lookup and append of line 230.  A missing key would be a
    Python KeyError (possible only for an out-of-range material index); the
    model leaves the groups unchanged in that case. -/
def appendToGroup (key : Nat × Option Image) (i : Nat) :
    List ((Nat × Option Image) × List Nat) → List ((Nat × Option Image) × List Nat)
  | [] => []
  | (k, v) :: r => if k = key then (k, v ++ [i]) :: r else (k, v) :: appendToGroup key i r

/-- face_groups building (lines 222-230): one empty bucket per pair of a
    material index and a unique face image, then each face index appended to
    its bucket. -/
def buildFaceGroups (nmat : Nat) (uniq : List (Option Image))
    (facePairs : List (Nat × Option Image)) : List ((Nat × Option Image) × List Nat) :=
  let init := (List.range nmat).flatMap
    (fun mi => uniq.map (fun img => ((mi, img), ([] : List Nat))))
  facePairs.enum.foldl (fun gs p => appendToGroup p.2 p.1 gs) init

/-- Python set(...) of a list: the model fixes first-occurrence order;
    CPython iterates a set in hash order, and C8 proves that the emitted
    groups do not depend on this order. -/
def pySet {α : Type} [DecidableEq α] (l : List α) : List α :=
  l.foldl (fun acc a => if a ∈ acc then acc else acc ++ [a]) []

/-- The texture-slot loop of lines 188-199: the first slot holding an IMAGE
    texture with an image set (the loop also records the slot and texture,
    which no later code reads). -/
def firstSlotImage : List (Option TexSlot) → Option Image
  | [] => none
  | none :: rest => firstSlotImage rest
  | some sl :: rest =>
    match sl.texture with
    | none => firstSlotImage rest
    | some tex =>
      if tex.ttype = ("IMAGE").toList then
        match tex.image with
        | some im => some im
        | none => firstSlotImage rest
      else firstSlotImage rest

/-- The texCoordIndex loop of lines 279-287 with its running corner
    counter j. -/
def texCoordIndexFrags (mfv : List (List Nat)) : List Nat → Nat → List PyStr
  | [], _ => []
  | i :: rest, j =>
    if (mfv.getD i []).length = 4 then
      (natDigits j ++ ' ' :: natDigits (j + 1) ++ ' ' :: natDigits (j + 2) ++ ' ' ::
        natDigits (j + 3) ++ (" -1 ").toList) :: texCoordIndexFrags mfv rest (j + 4)
    else
      (natDigits j ++ ' ' :: natDigits (j + 1) ++ ' ' :: natDigits (j + 2) ++
        (" -1 ").toList) :: texCoordIndexFrags mfv rest (j + 3)

/-- One coordIndex fragment (lines 292-297). -/
def coordIndexFrag (fv : List Nat) : PyStr :=
  if fv.length = 3 then
    natDigits (fv.getD 0 0) ++ ' ' :: natDigits (fv.getD 1 0) ++ ' ' ::
      natDigits (fv.getD 2 0) ++ (" -1 ").toList
  else
    natDigits (fv.getD 0 0) ++ ' ' :: natDigits (fv.getD 1 0) ++ ' ' ::
      natDigits (fv.getD 2 0) ++ ' ' :: natDigits (fv.getD 3 0) ++ (" -1 ").toList

/-- One pass of the shape-emitting loop of write_indexed_face_set
    (lines 239-330), folded over the sorted group items: for a non-empty
    face group, the Shape block with its appearance (texture and material),
    the IndexedFaceSet geometry with its index lists, the shared Coordinate
    definition on the first pass and its reuse afterwards, and the texture
    coordinates. -/
def shapeStep (world : Option World) (path_mode : PyStr) (mesh : Mesh)
    (mesh_materials : List (Option Material)) (mesh_faces : List Face)
    (mesh_faces_vertices : List (List Nat)) (uvData : List FaceUV)
    (is_uv : Bool) (mesh_id_coords : PyStr)
    (acc : List PyStr × Bool × ExpSt)
    (g : (Nat × Option Image) × List Nat) : List PyStr × Bool × ExpSt :=
  let material_index := g.1.1
  let image := g.1.2
  let face_group := g.2
  if !face_group.isEmpty then
    let material := mesh_materials.getD material_index none
    let is_smooth := face_group.any
      (fun i => (mesh_faces.getD i ⟨0, [], false⟩).use_smooth)
    let texPart : List PyStr × ExpSt :=
      match image with
      | some im => write_image_texture im path_mode acc.2.2
      | none => ([], acc.2.2)
    let matFrags : List PyStr :=
      match material with
      | some mat =>
        let diffuse := mat.diffuse_color
        let ambient : Q × Q × Q :=
          match world with
          | some w =>
            (mat.ambient * 2 * w.ambient_color.1,
             mat.ambient * 2 * w.ambient_color.2.1,
             mat.ambient * 2 * w.ambient_color.2.2)
          | none => (0, 0, 0)
        let emissive : Q × Q × Q :=
          ((diffuse.1 * mat.emit + ambient.1) / 2,
           (diffuse.2.1 * mat.emit + ambient.2.1) / 2,
           (diffuse.2.2 * mat.emit + ambient.2.2) / 2)
        [("baseColor ").toList ++ fmt3 (clamp_color diffuse) 3 ++ ['\n'],
         ("emissiveColor ").toList ++ fmt3 (clamp_color emissive) 3 ++ ['\n'],
         ("metalness 0\n").toList,
         ("roughness 0.5\n").toList]
      | none => []
    let creaseFrags : List PyStr :=
      if is_smooth then
        [("creaseAngle ").toList ++
          fmtF (if mesh.use_auto_smooth then mesh.auto_smooth_angle else 1) 4 ++ ['\n']]
      else []
    let texIdxFrags : List PyStr :=
      if is_uv then
        [("texCoordIndex [\n").toList] ++
        texCoordIndexFrags mesh_faces_vertices face_group 0 ++
        [['\n'], ("]\n").toList]
      else []
    let coordIdxFrags := [("coordIndex [\n").toList] ++
      face_group.map (fun i => coordIndexFrag (mesh_faces_vertices.getD i [])) ++
      [['\n'], ("]\n").toList]
    let coordFrags : List PyStr :=
      if acc.2.1 then
        [("coord USE ").toList ++ mesh_id_coords ++ ['\n']]
      else
        [("coord ").toList,
         ("DEF ").toList ++ mesh_id_coords ++ [' '],
         ("Coordinate \x7b\n").toList,
         ("point [\n").toList] ++
        mesh.vertices.map (fun v => fmt3 v 6 ++ [' ']) ++
        [['\n'], ("]\n").toList, ("\x7d\n").toList]
    let texPtFrags : List PyStr :=
      if is_uv then
        [("texCoord TextureCoordinate \x7b\n").toList,
         ("point [\n").toList] ++
        face_group.flatMap (fun i => ((uvData.getD i ⟨none, []⟩).uv).map
          (fun uv => fmtF uv.1 4 ++ ' ' :: fmtF uv.2 4 ++ [' '])) ++
        [['\n'], ("]\n").toList, ("\x7d\n").toList]
      else []
    let shapeFrags :=
      [("Shape \x7b\n").toList,
       ("appearance PBRAppearance \x7b\n").toList] ++
      texPart.1 ++ matFrags ++
      [("\x7d\n").toList,
       ("geometry IndexedFaceSet \x7b\n").toList] ++
      creaseFrags ++ texIdxFrags ++ coordIdxFrags ++ coordFrags ++ texPtFrags ++
      [("\x7d\n").toList, ("\x7d\n").toList]
    (acc.1 ++ shapeFrags, true, texPart.2)
  else acc

/-- write_indexed_face_set (lines 156-332). -/
def write_indexed_face_set (obj : Obj) (mesh : Mesh) (matrix : TRS)
    (world : Option World) (user_data : List (PyStr × NodeData))
    (path_mode : PyStr) (st : ExpSt) : List PyStr × ExpSt :=
  let r1 := unique_name obj.key (("OB_").toList ++ obj.name) st.uuid_cache_object
  let obj_id := r1.1
  let st := { st with uuid_cache_object := r1.2 }
  let r2 := unique_name mesh.key (("ME_").toList ++ mesh.name) st.uuid_cache_mesh
  let mesh_id := r2.1
  let st := { st with uuid_cache_mesh := r2.2 }
  let mesh_id_group := ("GROUP_").toList ++ mesh_id
  let mesh_id_coords := ("COORDS_").toList ++ mesh_id
  let mesh := if mesh.tessfaces.isEmpty && !mesh.polygons.isEmpty then
      { mesh with tessfaces := mesh.polygons } else mesh
  if mesh.tessfaces.isEmpty then ([], st)
  else
    let wtb := write_transform_begin obj matrix
      (some (obj_id ++ ("_IFS_TRANSFORM").toList)) user_data
    let skipUselessTransform := wtb.2.1
    let supplementaryCurvyBracket := wtb.2.2
    let body : List PyStr × ExpSt :=
      if mesh.key ∈ st.taggedMeshes then
        ([("USE ").toList ++ mesh_id_group ++ ['\n']], st)
      else
        let st := { st with taggedMeshes := st.taggedMeshes ++ [mesh.key] }
        let is_uv := mesh.uv_active.isSome
        let mesh_materials := if mesh.materials.isEmpty then [none] else mesh.materials
        let mesh_material_images := mesh_materials.map (fun m =>
          match m with
          | none => none
          | some mat => firstSlotImage mat.texture_slots)
        let mesh_materials_use_face_texture := mesh_materials.map (fun m =>
          match m with
          | none => true
          | some mat => mat.use_face_texture)
        let mesh_faces := mesh.tessfaces
        let mesh_faces_materials := mesh_faces.map (fun f => f.material_index)
        let mesh_faces_vertices := mesh_faces.map (fun f => f.vertices)
        let uvData := mesh.uv_active.getD []
        let imgBranch : List (Option Image) × List (Option Image) :=
          if is_uv && mesh_materials_use_face_texture.contains true then
            let mfi := uvData.enum.map (fun p =>
              if mesh_materials_use_face_texture.getD (mesh_faces_materials.getD p.1 0) true
              then p.2.image
              else mesh_material_images.getD (mesh_faces_materials.getD p.1 0) none)
            (mfi, pySet mfi)
          else if (pySet (mesh_material_images ++ [none])).length > 1 then
            let mfi := mesh_faces_materials.map (fun mi => mesh_material_images.getD mi none)
            (mfi, pySet mfi)
          else
            (mesh_faces.map (fun _ => none), [none])
        let mesh_faces_image := imgBranch.1
        let mesh_faces_image_unique := imgBranch.2
        let face_groups := buildFaceGroups mesh_materials.length mesh_faces_image_unique
          (mesh_faces_materials.zip mesh_faces_image)
        let face_groups_items := sortGroups face_groups
        let folded := face_groups_items.foldl
          (shapeStep world path_mode mesh mesh_materials mesh_faces
            mesh_faces_vertices uvData is_uv mesh_id_coords) ([], false, st)
        (folded.1, folded.2.2)
    let frags := wtb.1 ++ body.1 ++
      (if !skipUselessTransform then write_transform_end supplementaryCurvyBracket else [])
    (frags, body.2)

/-- One derived entry (the create_derived_objects loop of line 382): the
    derived object, its type, the evaluated mesh (obj.data, or the to_mesh
    result, or none), and its node-relative matrix of line 384 already
    decomposed by the external math library.  The mesh renaming of lines
    397-406 applies only to meshes newly created by to_mesh and the derived
    entries carry the final meshes. -/
structure DerivedEntry where
  obj : Obj
  otype : PyStr
  mesh : Option Mesh
  trs : TRS

/-- A scene node with the decomposed parent-relative (or global-matrix
    adjusted, line 380) transform and its derived entries. -/
structure SNode where
  obj : Obj
  trs : TRS
  derived : List DerivedEntry

/-- A hierarchy forest entry (obj_main, obj_children) as produced by
    build_hierarchy. -/
inductive HNode : Type where
  | mk : SNode → List HNode → HNode

/-- The derived-objects loop of lines 382-412: each mesh-like derived entry
    contributes one write_indexed_face_set call, other types are ignored. -/
def export_derived (user_data : List (PyStr × NodeData)) (world : Option World)
    (path_mode : PyStr) (st : ExpSt) : List DerivedEntry → List PyStr × ExpSt
  | [] => ([], st)
  | d :: rest =>
    let r : List PyStr × ExpSt :=
      if d.otype ∈ [("MESH").toList, ("CURVE").toList, ("SURFACE").toList, ("FONT").toList]
      then
        match d.mesh with
        | some me => write_indexed_face_set d.obj me d.trs world user_data path_mode st
        | none => ([], st)
      else ([], st)
    let r2 := export_derived user_data world path_mode r.2 rest
    (r.1 ++ r2.1, r2.2)

mutual

/-- export_object (lines 365-426): identifier for the main object, the
    transform wrapper, the derived meshes, the children, the closing
    fragments unless the wrapper was skipped.  The matrix inversions and
    multiplications of lines 371-384 are external mathutils calls; each
    node and derived entry carries its decomposed transform. -/
def export_object (user_data : List (PyStr × NodeData)) (world : Option World)
    (path_mode : PyStr) (st : ExpSt) : HNode → List PyStr × ExpSt
  | HNode.mk node children =>
    let r1 := unique_name node.obj.key node.obj.name st.uuid_cache_object
    let obj_main_id := r1.1
    let st := { st with uuid_cache_object := r1.2 }
    let wtb := write_transform_begin node.obj node.trs
      (some (obj_main_id ++ ("_TRANSFORM").toList)) user_data
    let skipUselessTransform := wtb.2.1
    let supplementaryCurvyBracket := wtb.2.2
    let der := export_derived user_data world path_mode st node.derived
    let childr := export_object_list user_data world path_mode der.2 children
    let frags := wtb.1 ++ der.1 ++ childr.1 ++
      (if !skipUselessTransform then write_transform_end supplementaryCurvyBracket else [])
    (frags, childr.2)

/-- The children recursion of lines 422-423. -/
def export_object_list (user_data : List (PyStr × NodeData)) (world : Option World)
    (path_mode : PyStr) (st : ExpSt) : List HNode → List PyStr × ExpSt
  | [] => ([], st)
  | h :: rest =>
    let r := export_object user_data world path_mode st h
    let r2 := export_object_list user_data world path_mode r.2 rest
    (r.1 ++ r2.1, r2.2)

end

/-- write_header (lines 68-80). -/
def write_header : List PyStr :=
  [("#VRML_SIM R2019a utf8\n").toList,
   ("WorldInfo \x7b\n").toList,
   ("basicTimeStep 8\n").toList,
   ("\x7d\n").toList,
   ("Viewpoint \x7b\n").toList,
   ("orientation -0.5 -0.852 -0.159 0.71\n").toList,
   ("position -3.6 2.0 5.4\n").toList,
   ("\x7d\n").toList,
   ("TexturedBackground \x7b\n").toList,
   ("\x7d\n").toList,
   ("TexturedBackgroundLight \x7b\n").toList,
   ("\x7d\n").toList]

/-- export_main (lines 428-449) over an already built hierarchy forest (the
    visibility and selection filtering of lines 436-439 and build_hierarchy
    are upstream of it): the header fragments followed by the recursive
    export of every root, starting from empty caches and untagged data. -/
def export_main (user_data : List (PyStr × NodeData)) (world : Option World)
    (path_mode : PyStr) (forest : List HNode) : List PyStr × ExpSt :=
  let r := export_object_list user_data world path_mode expInit forest
  (write_header ++ r.1, r.2)

/-- The text written by one full export run: the fragments of export_main
    processed by the fw emitter from its initial state. -/
def exportOut (user_data : List (PyStr × NodeData)) (world : Option World)
    (path_mode : PyStr) (forest : List HNode) : PyStr :=
  (runFW fwInit (export_main user_data world path_mode forest).1).out

/-- The environment that save reads (lines 460-473): whether the
    user_data_path argument is non-empty, whether os.path.isfile holds, and
    the result of json.load when attempted (none models a parse failure
    raising json.JSONDecodeError). -/
structure SaveEnv where
  user_data_path_nonempty : Bool
  isfile : Bool
  parsed : Option (List (PyStr × NodeData))

/-- save (lines 460-477): loads the override table only when the path is
    non-empty and names an existing file, then exports and returns FINISHED.
    A raised exception (unparsable json) aborts save; an absent file does
    not. -/
def save (env : SaveEnv) (world : Option World) (path_mode : PyStr)
    (forest : List HNode) : Except PyStr (PyStr × PyStr) :=
  if env.user_data_path_nonempty && env.isfile then
    match env.parsed with
    | none => Except.error (("json.decoder.JSONDecodeError").toList)
    | some user_data =>
      Except.ok ((("FINISHED")).toList, exportOut user_data world path_mode forest)
  else
    Except.ok ((("FINISHED")).toList, exportOut [] world path_mode forest)

/-- Number of occurrences of a non-empty pattern in a string (counted at
    every start position). -/
def countSubstr (s pat : PyStr) : Nat :=
  match s with
  | [] => 0
  | _ :: r => (if pyStartsWith s pat then 1 else 0) + countSubstr r pat

/-- The identity transform used by the concrete scenes. -/
def trsId : TRS := ⟨(0, 0, 0), (0, 0, 1, 0), (1, 1, 1)⟩

/-- A minimal shared mesh: one triangle, three vertices, no materials, no
    uv layer. -/
def meshCube : Mesh :=
  ⟨0, ("Cube").toList,
   [⟨0, [0, 1, 2], false⟩], [⟨0, [0, 1, 2], false⟩],
   [(0, 0, 0), (1, 0, 0), (0, 1, 0)],
   [], none, false, 1⟩

/-- A root node holding one derived mesh entry for meshCube. -/
def sharedNode (o : Obj) : HNode :=
  HNode.mk ⟨o, trsId, [⟨o, ("MESH").toList, some meshCube, trsId⟩]⟩ []

/-- Three sibling root objects sharing one mesh (selection mode filtering
    is upstream; these are the selected visible objects). -/
def sceneShared : List HNode :=
  [sharedNode obj0,
   sharedNode ⟨2, ("B").toList, [], (0, 0, 0)⟩,
   sharedNode ⟨3, ("C").toList, [], (0, 0, 0)⟩]

def outShared : PyStr := exportOut [] none (("AUTO")).toList sceneShared

/-- C1 (code bug): in a run with a shared mesh, the second and third
    encounters emit the reuse token USE GROUP_ME_CUBE, but no DEF of that
    identifier is ever written (the group-wrapper DEF of the original x3d
    exporter was dropped), so the reuse token refers to an identifier that
    was never defined, violating definition-before-use. -/
theorem c1_code_bug :
    countSubstr outShared (("USE GROUP_ME_CUBE").toList) = 2 ∧
    countSubstr outShared (("DEF GROUP_ME_CUBE").toList) = 0 ∧
    countSubstr outShared (("DEF ").toList) = 1 ∧
    countSubstr outShared (("DEF COORDS_ME_CUBE ").toList) = 1 := by
  refine ⟨by decide, by decide, by decide, by decide⟩

/-- C3: the shared mesh geometry is fully emitted exactly once (one
    Coordinate point-list definition, one shape, one coordIndex), and each
    of the two subsequent encounters emits exactly one short reuse token
    and no second definition. -/
theorem c3_mesh_dedup :
    countSubstr outShared (("Coordinate \x7b").toList) = 1 ∧
    countSubstr outShared (("DEF COORDS_ME_CUBE Coordinate \x7b").toList) = 1 ∧
    countSubstr outShared (("Shape \x7b").toList) = 1 ∧
    countSubstr outShared (("coordIndex").toList) = 1 ∧
    countSubstr outShared (("IndexedFaceSet").toList) = 1 ∧
    countSubstr outShared (("USE GROUP_ME_CUBE").toList) = 2 := by
  refine ⟨by decide, by decide, by decide, by decide, by decide, by decide⟩

/-- The single material of the C5 scene: diffuse color (0.8, 0.2, 0.4), no
    ambient, no emission, no texture slots. -/
def matRed : Material := ⟨(⟨4, 5⟩, ⟨1, 5⟩, ⟨2, 5⟩), 0, 0, true, []⟩

def cubeVerts : List (Q × Q × Q) :=
  [(1, 1, -1), (1, -1, -1), (-1, -1, -1), (-1, 1, -1),
   (1, 1, 1), (1, -1, 1), (-1, -1, 1), (-1, 1, 1)]

def cubeFaces : List Face :=
  [⟨0, [0, 1, 2, 3], false⟩, ⟨0, [4, 7, 6, 5], false⟩, ⟨0, [0, 4, 5, 1], false⟩,
   ⟨0, [1, 5, 6, 2], false⟩, ⟨0, [2, 6, 7, 3], false⟩, ⟨0, [4, 0, 3, 7], false⟩]

/-- The C5 cube mesh: six quads, eight vertices, one material, no texture,
    no uv layer. -/
def meshBody : Mesh :=
  ⟨10, ("Cube").toList, cubeFaces, cubeFaces, cubeVerts, [some matRed], none, false, 1⟩

def objBody : Obj :=
  ⟨11, ("Body").toList,
   [(-1, -1, -1), (-1, -1, 1), (-1, 1, -1), (-1, 1, 1),
    (1, -1, -1), (1, -1, 1), (1, 1, -1), (1, 1, 1)],
   (2, 2, 2)⟩

/-- The override table of the C5 scene: the node is declared a Robot (the
    specialized root type) with no joint fields. -/
def udRobot : List (PyStr × NodeData) :=
  [(("BODY_TRANSFORM").toList, ⟨("Robot").toList, ("0 1 0").toList, none, none⟩)]

/-- One cube mesh node with identity parent transform under the Robot
    override. -/
def sceneBody : List HNode :=
  [HNode.mk ⟨objBody, trsId, [⟨objBody, ("MESH").toList, some meshBody, trsId⟩]⟩ []]

def outBody : PyStr := exportOut udRobot none (("AUTO")).toList sceneBody

/-- C5 (counterexample): the claim is false on the code.  In the overridden
    single-cube scene the output contains a boundingObject sub-block even
    though none was declared (write_transform_begin always emits one when an
    override applies), and contains no physics sub-block (the code suppresses
    physics exactly for the Robot root type). -/
theorem c5_counterexample :
    countSubstr outBody (("boundingObject").toList) = 1 ∧
    countSubstr outBody (("physics Physics").toList) = 0 := by
  refine ⟨by decide, by decide⟩

/-- C5 (amended): in the overridden single-cube scene the output contains
    exactly one named definition block of the declared root type; no physics
    sub-block (the declared type is the designated no-physics root type
    Robot; any other overridden type would get an empty physics block); one
    boundingObject sub-block (always emitted when an override applies); and
    one shape block whose baseColor line renders the clamped diffuse color
    of the material. -/
theorem c5_amended :
    countSubstr outBody (("DEF BODY_TRANSFORM Robot \x7b").toList) = 1 ∧
    countSubstr outBody (("physics Physics").toList) = 0 ∧
    countSubstr outBody (("boundingObject Transform \x7b").toList) = 1 ∧
    countSubstr outBody (("Shape \x7b").toList) = 1 ∧
    countSubstr outBody (("baseColor 0.800 0.200 0.400").toList) = 1 ∧
    fmt3 (clamp_color matRed.diffuse_color) 3 = ("0.800 0.200 0.400").toList := by
  refine ⟨by decide, by decide, by decide, by decide, by decide, by decide⟩

/-- The save environment of the C7 counterexample: a non-empty path naming
    an existing file whose contents json.load cannot parse. -/
def envBad : SaveEnv := ⟨true, true, none⟩

/-- C7 (counterexample): the claim is false for an unparsable override
    table.  The isfile guard of line 471 only covers absence; json.load of a
    present but unparsable file raises, so save aborts with the exception
    instead of proceeding with an empty table and returning FINISHED. -/
theorem c7_counterexample :
    save envBad none (("AUTO")).toList sceneShared =
      Except.error (("json.decoder.JSONDecodeError").toList) := rfl

/-- C7 (amended): only absence is non-fatal.  Whenever the override path is
    empty or names no existing file, save proceeds with the empty table and
    returns FINISHED together with the export text; a present but unparsable
    file aborts the save (see the counterexample). -/
theorem c7_amended (env : SaveEnv) (world : Option World) (path_mode : PyStr)
    (forest : List HNode)
    (h : env.user_data_path_nonempty = false ∨ env.isfile = false) :
    save env world path_mode forest =
      Except.ok ((("FINISHED")).toList, exportOut [] world path_mode forest) := by
  rcases h with h | h <;> simp [save, h]

/-- Witness for the amended C7 theorem: an absent override file. -/
theorem c7_amended_witness :
    save ⟨true, false, none⟩ none (("AUTO")).toList [] =
      Except.ok ((("FINISHED")).toList, exportOut [] none (("AUTO")).toList []) :=
  c7_amended ⟨true, false, none⟩ none (("AUTO")).toList [] (Or.inr rfl)

/-- A faceless mesh (no tessellated faces and no polygons) named Cube. -/
def meshFaceless : Mesh :=
  ⟨5, ("Cube").toList, [], [], [], [], none, false, 1⟩

/-- A second, face-bearing mesh that shares the name Cube. -/
def meshCube6 : Mesh :=
  ⟨6, ("Cube").toList, [⟨0, [0, 1, 2], false⟩], [⟨0, [0, 1, 2], false⟩],
   [(0, 0, 0), (1, 0, 0), (0, 1, 0)], [], none, false, 1⟩

def objD : Obj := ⟨20, ("D").toList, [], (0, 0, 0)⟩

def objE : Obj := ⟨21, ("E").toList, [], (0, 0, 0)⟩

/-- C10: on a mesh with no tessellated faces, write_indexed_face_set writes
    nothing, yet both identifier caches are extended with freshly assigned
    identifiers for the object and the mesh (the unique_name calls of lines
    157-158 precede the empty-mesh return of lines 166-167).  The closing
    conjuncts show the observable consequence: after processing a faceless
    mesh named Cube, a later distinct mesh of the same name is assigned the
    disambiguated identifier ME_CUBE_001, while without the faceless mesh it
    would be assigned ME_CUBE. -/
theorem c10_faceless_frame (obj : Obj) (mesh : Mesh) (matrix : TRS)
    (world : Option World) (user_data : List (PyStr × NodeData)) (path_mode : PyStr)
    (st : ExpSt)
    (hf : mesh.tessfaces = []) (hp : mesh.polygons = [])
    (ho : alookup st.uuid_cache_object obj.key = none)
    (hm : alookup st.uuid_cache_mesh mesh.key = none) :
    (write_indexed_face_set obj mesh matrix world user_data path_mode st =
      ([], { st with
        uuid_cache_object := st.uuid_cache_object ++
          [(obj.key, freshName (("OB_").toList ++ obj.name) st.uuid_cache_object)],
        uuid_cache_mesh := st.uuid_cache_mesh ++
          [(mesh.key, freshName (("ME_").toList ++ mesh.name) st.uuid_cache_mesh)] })) ∧
    alookup (write_indexed_face_set objE meshCube6 trsId none [] (("AUTO")).toList
        (write_indexed_face_set objD meshFaceless trsId none [] (("AUTO")).toList
          expInit).2).2.uuid_cache_mesh 6 = some (("ME_CUBE_001").toList) ∧
    alookup (write_indexed_face_set objE meshCube6 trsId none [] (("AUTO")).toList
        expInit).2.uuid_cache_mesh 6 = some (("ME_CUBE").toList) := by
  refine ⟨?_, by decide, by decide⟩
  cases st with
  | mk co cm ci tm ti =>
    cases mesh with
    | mk mkey mname mtess mpoly mverts mmats muv msmooth mangle =>
      simp only at hf hp
      cases hf
      cases hp
      simp [write_indexed_face_set, unique_name, ho, hm]

/-- Witness for the C10 theorem: the faceless Cube mesh on fresh caches. -/
theorem c10_faceless_frame_witness :
    (write_indexed_face_set objD meshFaceless trsId none [] (("AUTO")).toList expInit =
      ([], { expInit with
        uuid_cache_object := expInit.uuid_cache_object ++
          [(objD.key, freshName (("OB_").toList ++ objD.name) expInit.uuid_cache_object)],
        uuid_cache_mesh := expInit.uuid_cache_mesh ++
          [(meshFaceless.key,
            freshName (("ME_").toList ++ meshFaceless.name) expInit.uuid_cache_mesh)] })) ∧
    alookup (write_indexed_face_set objE meshCube6 trsId none [] (("AUTO")).toList
        (write_indexed_face_set objD meshFaceless trsId none [] (("AUTO")).toList
          expInit).2).2.uuid_cache_mesh 6 = some (("ME_CUBE_001").toList) ∧
    alookup (write_indexed_face_set objE meshCube6 trsId none [] (("AUTO")).toList
        expInit).2.uuid_cache_mesh 6 = some (("ME_CUBE").toList) :=
  c10_faceless_frame objD meshFaceless trsId none [] (("AUTO")).toList expInit
    rfl rfl rfl rfl

/-- C4 (amended): write_transform_begin skips the wrapper exactly under the
    nearly_equal identity test of the code (a == b, or both values scaled
    by 10^5 truncate to the same integer), not under a distance bound of
    1e-5.  For a node with no override entry whose transform passes that
    test, no wrapper fragments are emitted, the skipped flag is returned
    true, and export_object still emits the derived meshes and all children,
    flattened one level (no wrapper and no closing fragments around them). -/
theorem c4_amended (node : SNode) (children : List HNode)
    (user_data : List (PyStr × NodeData)) (world : Option World)
    (path_mode : PyStr) (st : ExpSt)
    (hud : alookup user_data
      ((unique_name node.obj.key node.obj.name st.uuid_cache_object).1 ++
        ("_TRANSFORM").toList) = none)
    (hskip : skipCond node.trs = true) :
    write_transform_begin node.obj node.trs
      (some ((unique_name node.obj.key node.obj.name st.uuid_cache_object).1 ++
        ("_TRANSFORM").toList)) user_data = ([], true, false) ∧
    export_object user_data world path_mode st (HNode.mk node children) =
      (let r1 := unique_name node.obj.key node.obj.name st.uuid_cache_object
       let st1 := { st with uuid_cache_object := r1.2 }
       let der := export_derived user_data world path_mode st1 node.derived
       let childr := export_object_list user_data world path_mode der.2 children
       (der.1 ++ childr.1, childr.2)) := by
  have h1 : write_transform_begin node.obj node.trs
      (some ((unique_name node.obj.key node.obj.name st.uuid_cache_object).1 ++
        ("_TRANSFORM").toList)) user_data = ([], true, false) := by
    simp only [write_transform_begin, hud, Option.map_none', hskip, if_pos]
  refine ⟨h1, ?_⟩
  simp only [export_object, h1]
  simp

/-- Witness for the amended C4 theorem: a root node with the identity
    transform, one triangle mesh and no override. -/
theorem c4_amended_witness :
    write_transform_begin obj0 trsId
      (some ((unique_name obj0.key obj0.name expInit.uuid_cache_object).1 ++
        ("_TRANSFORM").toList)) [] = ([], true, false) ∧
    export_object [] none (("AUTO")).toList expInit
      (HNode.mk ⟨obj0, trsId, [⟨obj0, ("MESH").toList, some meshCube, trsId⟩]⟩ []) =
      (let r1 := unique_name obj0.key obj0.name expInit.uuid_cache_object
       let st1 := { expInit with uuid_cache_object := r1.2 }
       let der := export_derived [] none (("AUTO")).toList st1
         [⟨obj0, ("MESH").toList, some meshCube, trsId⟩]
       let childr := export_object_list [] none (("AUTO")).toList der.2 []
       (der.1 ++ childr.1, childr.2)) :=
  c4_amended ⟨obj0, trsId, [⟨obj0, ("MESH").toList, some meshCube, trsId⟩]⟩ []
    [] none (("AUTO")).toList expInit rfl (by decide)

theorem pyStrLt_trans : ∀ a b c : PyStr,
    pyStrLt a b = true → pyStrLt b c = true → pyStrLt a c = true := by
  intro a
  induction a with
  | nil =>
    intro b c hab hbc
    cases b with
    | nil => simp [pyStrLt] at hab
    | cons y bs =>
      cases c with
      | nil => simp [pyStrLt] at hbc
      | cons z cs => simp [pyStrLt]
  | cons x as ih =>
    intro b c hab hbc
    cases b with
    | nil => simp [pyStrLt] at hab
    | cons y bs =>
      cases c with
      | nil => simp [pyStrLt] at hbc
      | cons z cs =>
        simp only [pyStrLt] at hab hbc ⊢
        by_cases hxy : x = y
        · subst hxy
          rw [if_pos rfl] at hab
          by_cases hyz : x = z
          · subst hyz
            rw [if_pos rfl] at hbc
            rw [if_pos rfl]
            exact ih bs cs hab hbc
          · rw [if_neg hyz] at hbc
            rw [if_neg hyz]
            exact hbc
        · rw [if_neg hxy] at hab
          by_cases hyz : y = z
          · subst hyz
            rw [if_neg hxy]
            exact hab
          · rw [if_neg hyz] at hbc
            have hxz : x ≠ z := by
              intro h
              subst h
              have h1 : x < y := of_decide_eq_true hab
              have h2 : y < x := of_decide_eq_true hbc
              exact absurd (lt_trans h1 h2) (lt_irrefl x)
            rw [if_neg hxz]
            exact decide_eq_true (lt_trans (of_decide_eq_true hab) (of_decide_eq_true hbc))

theorem pyStrLt_trichotomy : ∀ a b : PyStr,
    pyStrLt a b = true ∨ pyStrLt b a = true ∨ a = b := by
  intro a
  induction a with
  | nil =>
    intro b
    cases b with
    | nil => right; right; rfl
    | cons y bs => left; simp [pyStrLt]
  | cons x as ih =>
    intro b
    cases b with
    | nil => right; left; simp [pyStrLt]
    | cons y bs =>
      by_cases hxy : x = y
      · subst hxy
        rcases ih bs with h | h | h
        · left; simp [pyStrLt, h]
        · right; left; simp [pyStrLt, h]
        · right; right; rw [h]
      · rcases lt_trichotomy x y with h | h | h
        · left; simp [pyStrLt, hxy, h]
        · exact absurd h hxy
        · right; left
          simp [pyStrLt, Ne.symm hxy, h]


theorem pyStrLt_irrefl : ∀ a : PyStr, pyStrLt a a = false := by
  intro a
  induction a with
  | nil => rfl
  | cons x as ih => simp [pyStrLt, ih]

theorem pyStrLt_asymm : ∀ a b : PyStr, pyStrLt a b = true → pyStrLt b a = false := by
  intro a b hab
  rcases Bool.eq_false_or_eq_true (pyStrLt b a) with h | h
  · have := pyStrLt_trans a b a hab h
    rw [pyStrLt_irrefl] at this
    exact absurd this (by simp)
  · exact h

/-- Transitivity of the non-strict string order used by the group sort. -/
theorem pyStrLe_trans (a b c : PyStr) (h1 : pyStrLt b a = false)
    (h2 : pyStrLt c b = false) : pyStrLt c a = false := by
  rcases Bool.eq_false_or_eq_true (pyStrLt c a) with h | h
  · rcases pyStrLt_trichotomy a b with h3 | h3 | h3
    · have := pyStrLt_trans c a b h h3
      rw [this] at h2
      exact absurd h2 (by simp)
    · rw [h3] at h1
      exact absurd h1 (by simp)
    · rw [h3] at h
      rw [h] at h2
      exact absurd h2 (by simp)
  · exact h

theorem groupKeyLE_total : ∀ a b : (Nat × Option Image) × List Nat,
    groupKeyLE a b = true ∨ groupKeyLE b a = true := by
  intro a b
  by_cases hk : a.1.1 = b.1.1
  · rcases Bool.eq_false_or_eq_true (pyStrLt (imgSortName b.1.2) (imgSortName a.1.2)) with
      h | h
    · right
      simp [groupKeyLE, if_pos (Eq.symm hk), pyStrLt_asymm _ _ h]
    · left; simp [groupKeyLE, if_pos hk, h]
  · rcases Nat.lt_or_ge a.1.1 b.1.1 with h | h
    · left; simp [groupKeyLE, hk, h]
    · right
      have h2 : b.1.1 < a.1.1 := lt_of_le_of_ne h (Ne.symm hk)
      simp [groupKeyLE, Ne.symm hk, h2]

theorem groupKeyLE_trans : ∀ a b c : (Nat × Option Image) × List Nat,
    groupKeyLE a b = true → groupKeyLE b c = true → groupKeyLE a c = true := by
  intro a b c hab hbc
  simp only [groupKeyLE] at hab hbc ⊢
  by_cases hab1 : a.1.1 = b.1.1 <;> by_cases hbc1 : b.1.1 = c.1.1
  · rw [if_pos hab1] at hab
    rw [if_pos hbc1] at hbc
    rw [if_pos (hab1.trans hbc1)]
    simp only [Bool.not_eq_true'] at hab hbc ⊢
    exact pyStrLe_trans _ _ _ hab hbc
  · rw [if_neg hbc1] at hbc
    rw [if_neg (fun h => hbc1 (hab1 ▸ h : b.1.1 = c.1.1))]
    rw [hab1]
    exact hbc
  · rw [if_neg hab1] at hab
    rw [if_neg (fun h => hab1 (hbc1 ▸ h : a.1.1 = b.1.1))]
    rw [← hbc1]
    exact hab
  · rw [if_neg hab1] at hab
    rw [if_neg hbc1] at hbc
    have h1 : a.1.1 < b.1.1 := of_decide_eq_true hab
    have h2 : b.1.1 < c.1.1 := of_decide_eq_true hbc
    rw [if_neg (by omega : ¬ a.1.1 = c.1.1)]
    exact decide_eq_true (by omega)

/-- Mutual non-strictness forces equal sort keys. -/
theorem groupKeyLE_antisymm_key (a b : (Nat × Option Image) × List Nat)
    (hab : groupKeyLE a b = true) (hba : groupKeyLE b a = true) :
    a.1.1 = b.1.1 ∧ imgSortName a.1.2 = imgSortName b.1.2 := by
  simp only [groupKeyLE] at hab hba
  by_cases hk : a.1.1 = b.1.1
  · refine ⟨hk, ?_⟩
    rw [if_pos hk] at hab
    rw [if_pos (Eq.symm hk)] at hba
    simp only [Bool.not_eq_true'] at hab hba
    rcases pyStrLt_trichotomy (imgSortName a.1.2) (imgSortName b.1.2) with h | h | h
    · rw [h] at hba
      exact absurd hba (by simp)
    · rw [h] at hab
      exact absurd hab (by simp)
    · exact h
  · rw [if_neg hk] at hab
    rw [if_neg (Ne.symm hk)] at hba
    have h1 : a.1.1 < b.1.1 := of_decide_eq_true hab
    have h2 : b.1.1 < a.1.1 := of_decide_eq_true hba
    omega

theorem insertSorted_perm (x : (Nat × Option Image) × List Nat)
    (l : List ((Nat × Option Image) × List Nat)) : (insertSorted x l).Perm (x :: l) := by
  induction l with
  | nil => exact List.Perm.refl _
  | cons y r ih =>
    simp only [insertSorted]
    by_cases h : groupKeyLE x y = true
    · rw [if_pos h]
    · rw [if_neg h]
      exact (ih.cons y).trans (List.Perm.swap x y r)

theorem sortGroups_perm (l : List ((Nat × Option Image) × List Nat)) :
    (sortGroups l).Perm l := by
  induction l with
  | nil => exact List.Perm.refl _
  | cons a l ih =>
    exact (insertSorted_perm a (sortGroups l)).trans (ih.cons a)

theorem insertSorted_pairwise (x : (Nat × Option Image) × List Nat)
    (l : List ((Nat × Option Image) × List Nat))
    (h : List.Pairwise (fun a b => groupKeyLE a b = true) l) :
    List.Pairwise (fun a b => groupKeyLE a b = true) (insertSorted x l) := by
  induction l with
  | nil => simp [insertSorted]
  | cons y r ih =>
    rcases List.pairwise_cons.mp h with ⟨hy, hr⟩
    simp only [insertSorted]
    by_cases hxy : groupKeyLE x y = true
    · rw [if_pos hxy]
      refine List.pairwise_cons.mpr ⟨?_, h⟩
      intro b hb
      rcases List.mem_cons.mp hb with hb | hb
      · rw [hb]; exact hxy
      · exact groupKeyLE_trans x y b hxy (hy b hb)
    · rw [if_neg hxy]
      have hyx : groupKeyLE y x = true := by
        rcases groupKeyLE_total x y with h2 | h2
        · exact absurd h2 hxy
        · exact h2
      refine List.pairwise_cons.mpr ⟨?_, ih hr⟩
      intro b hb
      have : b ∈ x :: r := (insertSorted_perm x r).mem_iff.mp hb
      rcases List.mem_cons.mp this with hb2 | hb2
      · rw [hb2]; exact hyx
      · exact hy b hb2

theorem sortGroups_pairwise (l : List ((Nat × Option Image) × List Nat)) :
    List.Pairwise (fun a b => groupKeyLE a b = true) (sortGroups l) := by
  induction l with
  | nil => simp [sortGroups]
  | cons a l ih => exact insertSorted_pairwise a (sortGroups l) ih

/-- The sort key of a group item: material index and image name. -/
def keyOfItem (x : (Nat × Option Image) × List Nat) : Nat × PyStr :=
  (x.1.1, imgSortName x.1.2)

/-- Two sorted lists that are permutations of each other and whose sort
    keys are injective on the elements are equal. -/
theorem sorted_perm_eq : ∀ l1 l2 : List ((Nat × Option Image) × List Nat),
    l1.Perm l2 →
    List.Pairwise (fun a b => groupKeyLE a b = true) l1 →
    List.Pairwise (fun a b => groupKeyLE a b = true) l2 →
    (∀ x ∈ l1, ∀ y ∈ l1, keyOfItem x = keyOfItem y → x = y) →
    l1 = l2 := by
  intro l1
  induction l1 with
  | nil =>
    intro l2 hp _ _ _
    exact hp.nil_eq
  | cons x r1 ih =>
    intro l2 hp h1 h2 hkeys
    cases l2 with
    | nil => exact absurd hp.symm.nil_eq (by simp)
    | cons y r2 =>
      have hxy : x = y := by
        by_contra hne
        have hx2 : x ∈ y :: r2 := hp.mem_iff.mp (List.mem_cons_self x r1)
        have hy1 : y ∈ x :: r1 := hp.mem_iff.mpr (List.mem_cons_self y r2)
        have hxr2 : x ∈ r2 := by
          rcases List.mem_cons.mp hx2 with h | h
          · exact absurd h hne
          · exact h
        have hyr1 : y ∈ r1 := by
          rcases List.mem_cons.mp hy1 with h | h
          · exact absurd h.symm hne
          · exact h
        have hle1 : groupKeyLE x y = true := (List.pairwise_cons.mp h1).1 y hyr1
        have hle2 : groupKeyLE y x = true := (List.pairwise_cons.mp h2).1 x hxr2
        have hk := groupKeyLE_antisymm_key x y hle1 hle2
        have : x = y := hkeys x (List.mem_cons_self x r1)
          y (List.mem_cons_of_mem x hyr1)
          (by simp [keyOfItem, hk.1, hk.2])
        exact hne this
      subst hxy
      have hr : r1.Perm r2 := hp.cons_inv
      have := ih r2 hr (List.pairwise_cons.mp h1).2 (List.pairwise_cons.mp h2).2
        (fun a ha b hb hk => hkeys a (List.mem_cons_of_mem x ha)
          b (List.mem_cons_of_mem x hb) hk)
      rw [this]

/-- The face indices belonging to one group key, in face order (what the
    appends of line 230 accumulate). -/
def groupIdxs (key : Nat × Option Image) (ps : List (Nat × (Nat × Option Image))) :
    List Nat :=
  (ps.filter (fun p => p.2 = key)).map Prod.fst

theorem appendToGroup_eq (key : Nat × Option Image) (i : Nat) :
    ∀ l : List ((Nat × Option Image) × List Nat), (l.map Prod.fst).Nodup →
    appendToGroup key i l =
      l.map (fun kv => if kv.1 = key then (kv.1, kv.2 ++ [i]) else kv) := by
  intro l
  induction l with
  | nil => intro _; rfl
  | cons kv r ih =>
    intro hn
    rcases kv with ⟨k, v⟩
    simp only [List.map_cons, List.nodup_cons] at hn
    have hunf : appendToGroup key i ((k, v) :: r) =
        if k = key then (k, v ++ [i]) :: r else (k, v) :: appendToGroup key i r := rfl
    rw [hunf, List.map_cons]
    by_cases hk : k = key
    · rw [if_pos hk]
      rw [if_pos (show (k, v).1 = key from hk)]
      have hne : ∀ kv2 ∈ r, kv2.1 ≠ key := by
        intro kv2 hkv2 he
        apply hn.1
        rw [hk, ← he]
        exact List.mem_map_of_mem Prod.fst hkv2
      have hmap : r.map (fun kv => if kv.1 = key then (kv.1, kv.2 ++ [i]) else kv) = r := by
        calc r.map (fun kv => if kv.1 = key then (kv.1, kv.2 ++ [i]) else kv)
            = r.map id := List.map_congr_left (fun a ha => by rw [if_neg (hne a ha)]; rfl)
          _ = r := List.map_id r
      rw [hmap]
    · rw [if_neg hk]
      rw [if_neg (show ¬ (k, v).1 = key from hk), ih hn.2]

theorem foldAppend_eq :
    ∀ (ps : List (Nat × (Nat × Option Image)))
      (l : List ((Nat × Option Image) × List Nat)), (l.map Prod.fst).Nodup →
    ps.foldl (fun gs p => appendToGroup p.2 p.1 gs) l =
      l.map (fun kv => (kv.1, kv.2 ++ groupIdxs kv.1 ps)) := by
  intro ps
  induction ps with
  | nil =>
    intro l _
    simp [groupIdxs]
  | cons p rest ih =>
    intro l hn
    simp only [List.foldl_cons]
    have hfst : ((appendToGroup p.2 p.1 l).map Prod.fst).Nodup := by
      rw [appendToGroup_eq p.2 p.1 l hn, List.map_map]
      have : (Prod.fst ∘ fun kv : (Nat × Option Image) × List Nat =>
          if kv.1 = p.2 then (kv.1, kv.2 ++ [p.1]) else kv) = Prod.fst := by
        funext kv
        by_cases h : kv.1 = p.2 <;> simp [h]
      rw [this]
      exact hn
    rw [ih _ hfst, appendToGroup_eq p.2 p.1 l hn, List.map_map]
    refine List.map_congr_left ?_
    intro kv _
    simp only [Function.comp_apply, groupIdxs, List.filter_cons]
    by_cases h : kv.1 = p.2
    · have hpe : (decide (p.2 = kv.1)) = true := by simp [h]
      rw [if_pos h]
      simp only [hpe, if_pos]
      simp [List.append_assoc]
    · have hpe : (decide (p.2 = kv.1)) = false := by
        simp only [decide_eq_false_iff_not]
        exact fun he => h he.symm
      rw [if_neg h]
      simp [hpe]

/-- The bucket keys of lines 223-226 in creation order. -/
def keysOf (nmat : Nat) (uniq : List (Option Image)) : List (Nat × Option Image) :=
  (List.range nmat).flatMap (fun mi => uniq.map (fun img => (mi, img)))

theorem keysOf_nodup (nmat : Nat) (uniq : List (Option Image)) (h : uniq.Nodup) :
    (keysOf nmat uniq).Nodup := by
  have he : keysOf nmat uniq = (List.range nmat) ×ˢ uniq := rfl
  rw [he]
  exact List.Nodup.product (List.nodup_range nmat) h

theorem flatMap_perm_of_perm {κ : Type} (L : List Nat) (f g : Nat → List κ)
    (h : ∀ a, (f a).Perm (g a)) : (L.flatMap f).Perm (L.flatMap g) := by
  induction L with
  | nil => exact List.Perm.refl _
  | cons a L ih => exact List.Perm.append (h a) ih

theorem keysOf_perm (nmat : Nat) (uniq1 uniq2 : List (Option Image))
    (h : uniq1.Perm uniq2) : (keysOf nmat uniq1).Perm (keysOf nmat uniq2) :=
  flatMap_perm_of_perm (List.range nmat) _ _ (fun mi => h.map (fun img => (mi, img)))

theorem buildFaceGroups_eq (nmat : Nat) (uniq : List (Option Image))
    (facePairs : List (Nat × Option Image)) (hn : uniq.Nodup) :
    buildFaceGroups nmat uniq facePairs =
      (keysOf nmat uniq).map (fun k => (k, groupIdxs k facePairs.enum)) := by
  have hinit : (List.range nmat).flatMap
      (fun mi => uniq.map (fun img => ((mi, img), ([] : List Nat)))) =
      (keysOf nmat uniq).map (fun k => (k, ([] : List Nat))) := by
    rw [keysOf, List.map_flatMap]
    refine congrArg _ ?_
    funext mi
    rw [List.map_map]
    rfl
  have hfst : (((keysOf nmat uniq).map (fun k => (k, ([] : List Nat)))).map Prod.fst).Nodup := by
    rw [List.map_map]
    have he2 : (Prod.fst ∘ fun k : Nat × Option Image => (k, ([] : List Nat))) = id := rfl
    rw [he2, List.map_id]
    exact keysOf_nodup nmat uniq hn
  rw [buildFaceGroups]
  rw [hinit, foldAppend_eq _ _ hfst, List.map_map]
  rfl

theorem mem_keysOf (nmat : Nat) (uniq : List (Option Image)) (mi : Nat)
    (img : Option Image) : (mi, img) ∈ keysOf nmat uniq ↔ mi < nmat ∧ img ∈ uniq := by
  simp only [keysOf, List.mem_flatMap, List.mem_map, List.mem_range]
  constructor
  · rintro ⟨a, ha, b, hb, he⟩
    cases he
    exact ⟨ha, hb⟩
  · rintro ⟨h1, h2⟩
    exact ⟨mi, h1, img, h2, rfl⟩

theorem alookup_map_mk {β : Type} (ks : List (Nat × Option Image))
    (f : Nat × Option Image → β) (k : Nat × Option Image)
    (hk : k ∈ ks) : alookup (ks.map (fun a => (a, f a))) k = some (f k) := by
  induction ks with
  | nil => simp at hk
  | cons a r ih =>
    simp only [List.map_cons, alookup]
    by_cases h : a = k
    · rw [if_pos h, h]
    · rw [if_neg h]
      rcases List.mem_cons.mp hk with h2 | h2
      · exact absurd h2.symm h
      · exact ih h2

/-- C8: face grouping and emission-order determinism.  facePairs is the per
    face list of (material index, resolved image) pairs of lines 203-220;
    uniq1 is the model's canonical first-occurrence enumeration of the
    unique face images and uniq2 any other enumeration of them (modelling
    CPython's unspecified set iteration order of line 214/217).  Provided
    image names are injective on the unique images (Blender data names are
    unique): (1) the sorted group items are identical for both enumerations,
    so the emitted shape blocks do not depend on the set order and
    re-running the export on identical input is byte-identical; (2) the
    items iterate in deterministic order: material index ascending, then
    image name ascending, the absent image carrying the empty name; (3)
    grouping is exactly by the pair (material index, resolved image): each
    bucket holds the indices of the faces with that pair, in ascending face
    order. -/
theorem c8_group_determinism (nmat : Nat) (uniq1 uniq2 : List (Option Image))
    (facePairs : List (Nat × Option Image))
    (hn : uniq1.Nodup) (hperm : uniq1.Perm uniq2)
    (hinj : ∀ a ∈ uniq1, ∀ b ∈ uniq1, imgSortName a = imgSortName b → a = b) :
    sortGroups (buildFaceGroups nmat uniq1 facePairs) =
      sortGroups (buildFaceGroups nmat uniq2 facePairs) ∧
    List.Pairwise (fun a b => groupKeyLE a b = true)
      (sortGroups (buildFaceGroups nmat uniq1 facePairs)) ∧
    (∀ mi img, mi < nmat → img ∈ uniq1 →
      alookup (buildFaceGroups nmat uniq1 facePairs) (mi, img) =
        some ((facePairs.enum.filter (fun p => p.2 = (mi, img))).map Prod.fst)) := by
  have hn2 : uniq2.Nodup := hperm.nodup_iff.mp hn
  have hb1 := buildFaceGroups_eq nmat uniq1 facePairs hn
  have hb2 := buildFaceGroups_eq nmat uniq2 facePairs hn2
  have hbperm : (buildFaceGroups nmat uniq1 facePairs).Perm
      (buildFaceGroups nmat uniq2 facePairs) := by
    rw [hb1, hb2]
    exact (keysOf_perm nmat uniq1 uniq2 hperm).map _
  have hkeys : ∀ x ∈ sortGroups (buildFaceGroups nmat uniq1 facePairs),
      ∀ y ∈ sortGroups (buildFaceGroups nmat uniq1 facePairs),
      keyOfItem x = keyOfItem y → x = y := by
    intro x hx y hy hk
    have hx1 : x ∈ buildFaceGroups nmat uniq1 facePairs :=
      (sortGroups_perm _).mem_iff.mp hx
    have hy1 : y ∈ buildFaceGroups nmat uniq1 facePairs :=
      (sortGroups_perm _).mem_iff.mp hy
    rw [hb1] at hx1 hy1
    rcases List.mem_map.mp hx1 with ⟨k1, hk1, he1⟩
    rcases List.mem_map.mp hy1 with ⟨k2, hk2, he2⟩
    rcases k1 with ⟨m1, i1⟩
    rcases k2 with ⟨m2, i2⟩
    rw [← he1, ← he2] at hk
    simp only [keyOfItem, Prod.mk.injEq] at hk
    have hm : m1 = m2 := hk.1
    have hi : i1 = i2 := by
      apply hinj
      · exact ((mem_keysOf nmat uniq1 m1 i1).mp hk1).2
      · exact ((mem_keysOf nmat uniq1 m2 i2).mp hk2).2
      · exact hk.2
    rw [← he1, ← he2, hm, hi]
  refine ⟨?_, sortGroups_pairwise _, ?_⟩
  · exact sorted_perm_eq _ _
      (((sortGroups_perm _).trans hbperm).trans (sortGroups_perm _).symm)
      (sortGroups_pairwise _) (sortGroups_pairwise _) hkeys
  · intro mi img hmi himg
    rw [hb1]
    exact alookup_map_mk (keysOf nmat uniq1) _ (mi, img)
      ((mem_keysOf nmat uniq1 mi img).mpr ⟨hmi, himg⟩)

/-- The image used by the C8 witness. -/
def img1 : Image := ⟨100, ("TEX").toList, ("tex.png").toList⟩

/-- Witness for C8 at a concrete two-material, two-image face list with the
    two enumeration orders of the unique images swapped. -/
theorem c8_group_determinism_witness :
    sortGroups (buildFaceGroups 2 [none, some img1] [(0, none), (1, some img1), (0, some img1)]) =
      sortGroups (buildFaceGroups 2 [some img1, none] [(0, none), (1, some img1), (0, some img1)]) ∧
    List.Pairwise (fun a b => groupKeyLE a b = true)
      (sortGroups (buildFaceGroups 2 [none, some img1] [(0, none), (1, some img1), (0, some img1)])) ∧
    (∀ mi img, mi < 2 → img ∈ [none, some img1] →
      alookup (buildFaceGroups 2 [none, some img1] [(0, none), (1, some img1), (0, some img1)]) (mi, img) =
        some ((([(0, none), (1, some img1), (0, some img1)] :
          List (Nat × Option Image)).enum.filter
            (fun p => p.2 = (mi, img))).map Prod.fst)) :=
  c8_group_determinism 2 [none, some img1] [some img1, none]
    [(0, none), (1, some img1), (0, some img1)]
    (by decide) (by decide) (by decide)

/-- The while loop of test_parent (lines 517-520): walk parent links upward
    until hitting a member of the candidate set or running out of parents.
    The loop in the source is unbounded; the fuel argument dominates the
    walk length for any acyclic parent relation (the rank hypotheses of the
    C9 theorem), and the fuel-exhausted fallback is never reached then. -/
def test_parent (parentOf : Nat → Option Nat) (objset : List Nat) :
    Nat → Option Nat → Option Nat
  | _, none => none
  | 0, some p => some p
  | fuel + 1, some p =>
    if p ∈ objset then some p else test_parent parentOf objset fuel (parentOf p)

/-- The resolved parent of a candidate: the par_lookup key of line 523. -/
def resolvedParent (parentOf : Nat → Option Nat) (objs : List Nat) (F : Nat)
    (o : Nat) : Option Nat :=
  test_parent parentOf objs F (parentOf o)

/-- One par_lookup bucket, in candidate order (setdefault and append of
    line 523 preserve insertion order, and filter preserves the order of
    objs). -/
def bucket (parentOf : Nat → Option Nat) (objs : List Nat) (F : Nat)
    (p : Option Nat) : List Nat :=
  objs.filter (fun o => resolvedParent parentOf objs F o == p)

/-- The forest entries (obj, children) produced by build_hierarchy. -/
inductive HTree : Type where
  | node : Nat → List HTree → HTree

def HTree.root : HTree → Nat
  | HTree.node o _ => o

def HTree.children : HTree → List HTree
  | HTree.node _ cs => cs

/-- The recursive attachment of children lists.  The mutation loop of lines
    525-527 assigns each entry's shared children list the bucket of that
    entry; under an acyclic parent relation the shared-list mutation
    produces exactly this recursive unfolding.  The fuel bounds the tree
    depth and is never exhausted for sufficient fuel (proved below). -/
def attach (parentOf : Nat → Option Nat) (objs : List Nat) (F : Nat) :
    Nat → Nat → HTree
  | 0, o => HTree.node o []
  | fuelA + 1, o =>
    HTree.node o ((bucket parentOf objs F (some o)).map (attach parentOf objs F fuelA))

/-- build_hierarchy (lines 512-529): the returned list is the bucket of the
    resolved parent None, each entry carrying its recursively attached
    children. -/
def build_hierarchy (parentOf : Nat → Option Nat) (objs : List Nat)
    (F fuelA : Nat) : List HTree :=
  (bucket parentOf objs F none).map (attach parentOf objs F fuelA)

mutual

/-- Number of nodes labelled k in a tree. -/
def countHT (k : Nat) : HTree → Nat
  | HTree.node o cs => (if o = k then 1 else 0) + countHTList k cs

def countHTList (k : Nat) : List HTree → Nat
  | [] => 0
  | t :: ts => countHT k t + countHTList k ts

end

mutual

/-- All subtrees of a tree, itself included. -/
def subtrees : HTree → List HTree
  | HTree.node o cs => HTree.node o cs :: subtreesList cs

def subtreesList : List HTree → List HTree
  | [] => []
  | t :: ts => subtrees t ++ subtreesList ts

end

/-- The chain of resolved parents of a node: the node, then the chain of
    its resolved parent. -/
def rchain (parentOf : Nat → Option Nat) (objs : List Nat) (F : Nat) :
    Nat → Nat → List Nat
  | 0, o => [o]
  | fuel + 1, o =>
    o :: (match resolvedParent parentOf objs F o with
          | some p => rchain parentOf objs F fuel p
          | none => [])

/-- The strict ancestor chain of a node along raw parent links, up to the
    fuel bound. -/
def ancChain (parentOf : Nat → Option Nat) : Nat → Option Nat → List Nat
  | _, none => []
  | 0, some p => [p]
  | fuel + 1, some p => p :: ancChain parentOf fuel (parentOf p)

theorem test_parent_none (parentOf : Nat → Option Nat) (objs : List Nat) :
    ∀ fuel, test_parent parentOf objs fuel none = none := by
  intro fuel
  cases fuel <;> rfl

theorem test_parent_spec (parentOf : Nat → Option Nat) (objs : List Nat)
    (rank : Nat → Nat) (hrank : ∀ k p, parentOf k = some p → rank p < rank k) :
    ∀ fuel p, rank p < fuel → ∀ q,
      test_parent parentOf objs fuel (some p) = some q → q ∈ objs ∧ rank q ≤ rank p := by
  intro fuel
  induction fuel with
  | zero => intro p hp; exact absurd hp (Nat.not_lt_zero _)
  | succ f ih =>
    intro p hp q hq
    simp only [test_parent] at hq
    by_cases hmem : p ∈ objs
    · rw [if_pos hmem] at hq
      injection hq with h
      subst h
      exact ⟨hmem, Nat.le_refl _⟩
    · rw [if_neg hmem] at hq
      cases hpar : parentOf p with
      | none =>
        rw [hpar, test_parent_none] at hq
        exact absurd hq (by simp)
      | some p2 =>
        rw [hpar] at hq
        have h2 : rank p2 < rank p := hrank p p2 hpar
        have h3 := ih p2 (by omega) q hq
        exact ⟨h3.1, Nat.le_trans h3.2 (Nat.le_of_lt h2)⟩

theorem resolvedParent_spec (parentOf : Nat → Option Nat) (objs : List Nat)
    (rank : Nat → Nat) (hrank : ∀ k p, parentOf k = some p → rank p < rank k)
    (N : Nat) : ∀ o q, rank o < N → resolvedParent parentOf objs N o = some q →
      q ∈ objs ∧ rank q < rank o := by
  intro o q ho hq
  rw [resolvedParent] at hq
  cases hpar : parentOf o with
  | none =>
    rw [hpar, test_parent_none] at hq
    exact absurd hq (by simp)
  | some p =>
    rw [hpar] at hq
    have hp : rank p < rank o := hrank o p hpar
    have h3 := test_parent_spec parentOf objs rank hrank N p (by omega) q hq
    exact ⟨h3.1, Nat.lt_of_le_of_lt h3.2 hp⟩

theorem rchain_stable (parentOf : Nat → Option Nat) (objs : List Nat)
    (rank : Nat → Nat) (hrank : ∀ k p, parentOf k = some p → rank p < rank k)
    (N : Nat) : ∀ f1 f2 k, rank k < f1 → rank k < f2 → rank k < N →
      rchain parentOf objs N f1 k = rchain parentOf objs N f2 k := by
  intro f1
  induction f1 with
  | zero => intro f2 k h1; exact absurd h1 (Nat.not_lt_zero _)
  | succ g1 ih =>
    intro f2 k h1 h2 hN
    cases f2 with
    | zero => exact absurd h2 (Nat.not_lt_zero _)
    | succ g2 =>
      simp only [rchain]
      cases hrp : resolvedParent parentOf objs N k with
      | none => rfl
      | some p =>
        have hp := resolvedParent_spec parentOf objs rank hrank N k p hN hrp
        show k :: rchain parentOf objs N g1 p = k :: rchain parentOf objs N g2 p
        rw [ih g2 p (by omega) (by omega) (by omega)]

theorem rchain_unfold (parentOf : Nat → Option Nat) (objs : List Nat)
    (rank : Nat → Nat) (hrank : ∀ k p, parentOf k = some p → rank p < rank k)
    (N : Nat) : ∀ k, rank k < N → rchain parentOf objs N N k =
      k :: (match resolvedParent parentOf objs N k with
            | some p => rchain parentOf objs N N p
            | none => []) := by
  intro k hk
  obtain ⟨n, hn⟩ : ∃ n, N = n + 1 := by
    cases N with
    | zero => exact absurd hk (Nat.not_lt_zero _)
    | succ n => exact ⟨n, rfl⟩
  subst hn
  simp only [rchain]
  cases hrp : resolvedParent parentOf objs (n + 1) k with
  | none => rfl
  | some p =>
    have hp := resolvedParent_spec parentOf objs rank hrank (n + 1) k p hk hrp
    show k :: rchain parentOf objs (n + 1) n p = k :: rchain parentOf objs (n + 1) (n + 1) p
    rw [rchain_stable parentOf objs rank hrank (n + 1) n (n + 1) p (by omega) (by omega)
      (by omega)]

theorem mem_rchain_self (parentOf : Nat → Option Nat) (objs : List Nat) (N : Nat) :
    ∀ fuel k, k ∈ rchain parentOf objs N fuel k := by
  intro fuel k
  cases fuel <;> simp [rchain]

theorem rchain_rank (parentOf : Nat → Option Nat) (objs : List Nat)
    (rank : Nat → Nat) (hrank : ∀ k p, parentOf k = some p → rank p < rank k)
    (N : Nat) : ∀ B k, rank k < B → rank k < N →
      ∀ x ∈ rchain parentOf objs N N k, rank x ≤ rank k ∧ (x = k ∨ x ∈ objs) := by
  intro B
  induction B with
  | zero => intro k h1; exact absurd h1 (Nat.not_lt_zero _)
  | succ B ih =>
    intro k h1 hN x hx
    rw [rchain_unfold parentOf objs rank hrank N k hN] at hx
    rcases List.mem_cons.mp hx with hx | hx
    · exact ⟨hx ▸ Nat.le_refl _, Or.inl hx⟩
    · cases hrp : resolvedParent parentOf objs N k with
      | none => rw [hrp] at hx; simp at hx
      | some p =>
        rw [hrp] at hx
        have hp := resolvedParent_spec parentOf objs rank hrank N k p hN hrp
        have h3 := ih p (by omega) (by omega) x hx
        refine ⟨Nat.le_trans h3.1 (Nat.le_of_lt hp.2), Or.inr ?_⟩
        rcases h3.2 with h | h
        · rw [h]; exact hp.1
        · exact h

theorem rchain_subset (parentOf : Nat → Option Nat) (objs : List Nat)
    (rank : Nat → Nat) (hrank : ∀ k p, parentOf k = some p → rank p < rank k)
    (N : Nat) : ∀ B k, rank k < B → rank k < N →
      ∀ x ∈ rchain parentOf objs N N k,
        rchain parentOf objs N N x ⊆ rchain parentOf objs N N k := by
  intro B
  induction B with
  | zero => intro k h1; exact absurd h1 (Nat.not_lt_zero _)
  | succ B ih =>
    intro k h1 hN x hx
    rw [rchain_unfold parentOf objs rank hrank N k hN] at hx
    rcases List.mem_cons.mp hx with hx | hx
    · rw [hx]
      exact fun a ha => ha
    · cases hrp : resolvedParent parentOf objs N k with
      | none => rw [hrp] at hx; simp at hx
      | some p =>
        rw [hrp] at hx
        have hp := resolvedParent_spec parentOf objs rank hrank N k p hN hrp
        have hsub := ih p (by omega) (by omega) x hx
        intro a ha
        rw [rchain_unfold parentOf objs rank hrank N k hN, hrp]
        exact List.mem_cons_of_mem k (hsub ha)

theorem rchain_compare (parentOf : Nat → Option Nat) (objs : List Nat)
    (rank : Nat → Nat) (hrank : ∀ k p, parentOf k = some p → rank p < rank k)
    (N : Nat) : ∀ B k, rank k < B → rank k < N →
      ∀ x ∈ rchain parentOf objs N N k, ∀ y ∈ rchain parentOf objs N N k,
        x ∈ rchain parentOf objs N N y ∨ y ∈ rchain parentOf objs N N x := by
  intro B
  induction B with
  | zero => intro k h1; exact absurd h1 (Nat.not_lt_zero _)
  | succ B ih =>
    intro k h1 hN x hx y hy
    rw [rchain_unfold parentOf objs rank hrank N k hN] at hx hy
    rcases List.mem_cons.mp hx with hx1 | hx1
    · right
      rw [hx1, rchain_unfold parentOf objs rank hrank N k hN]
      exact hy
    · rcases List.mem_cons.mp hy with hy1 | hy1
      · left
        rw [hy1, rchain_unfold parentOf objs rank hrank N k hN]
        exact hx
      · cases hrp : resolvedParent parentOf objs N k with
        | none => rw [hrp] at hx1; simp at hx1
        | some p =>
          rw [hrp] at hx1 hy1
          have hp := resolvedParent_spec parentOf objs rank hrank N k p hN hrp
          exact ih p (by omega) (by omega) x hx1 y hy1

theorem rchain_pred (parentOf : Nat → Option Nat) (objs : List Nat)
    (rank : Nat → Nat) (hrank : ∀ k p, parentOf k = some p → rank p < rank k)
    (N : Nat) : ∀ B k, rank k < B → rank k < N → k ∈ objs →
      ∀ o ∈ rchain parentOf objs N N k, o ≠ k →
      ∃ q, q ∈ objs ∧ q ∈ rchain parentOf objs N N k ∧
        resolvedParent parentOf objs N q = some o := by
  intro B
  induction B with
  | zero => intro k h1; exact absurd h1 (Nat.not_lt_zero _)
  | succ B ih =>
    intro k h1 hN hkobjs o ho hne
    rw [rchain_unfold parentOf objs rank hrank N k hN] at ho
    rcases List.mem_cons.mp ho with ho1 | ho1
    · exact absurd ho1 hne
    · cases hrp : resolvedParent parentOf objs N k with
      | none => rw [hrp] at ho1; simp at ho1
      | some p =>
        rw [hrp] at ho1
        have hp := resolvedParent_spec parentOf objs rank hrank N k p hN hrp
        by_cases hop : o = p
        · refine ⟨k, hkobjs, mem_rchain_self parentOf objs N N k, ?_⟩
          rw [hrp, hop]
        · obtain ⟨q, hq1, hq2, hq3⟩ :=
            ih p (by omega) (by omega) hp.1 o ho1 hop
          refine ⟨q, hq1, ?_, hq3⟩
          rw [rchain_unfold parentOf objs rank hrank N k hN, hrp]
          exact List.mem_cons_of_mem k hq2

theorem rchain_pred_unique (parentOf : Nat → Option Nat) (objs : List Nat)
    (rank : Nat → Nat) (hrank : ∀ k p, parentOf k = some p → rank p < rank k)
    (N : Nat) (k : Nat) (hkN : rank k < N) (o x y : Nat)
    (hx : x ∈ rchain parentOf objs N N k) (hy : y ∈ rchain parentOf objs N N k)
    (hrx : resolvedParent parentOf objs N x = some o)
    (hry : resolvedParent parentOf objs N y = some o) : x = y := by
  have hxr : rank x ≤ rank k :=
    (rchain_rank parentOf objs rank hrank N (rank k + 1) k (by omega) hkN x hx).1
  have hyr : rank y ≤ rank k :=
    (rchain_rank parentOf objs rank hrank N (rank k + 1) k (by omega) hkN y hy).1
  have hxN : rank x < N := by omega
  have hyN : rank y < N := by omega
  have hox := resolvedParent_spec parentOf objs rank hrank N x o hxN hrx
  have hoy := resolvedParent_spec parentOf objs rank hrank N y o hyN hry
  by_contra hne
  have hcmp := rchain_compare parentOf objs rank hrank N (rank k + 1) k (by omega) hkN
    x hx y hy
  have key : ∀ a b : Nat, a ≠ b → rank a < N → rank b < N →
      b ∈ rchain parentOf objs N N a → resolvedParent parentOf objs N a = some o →
      resolvedParent parentOf objs N b = some o → False := by
    intro a b hab haN hbN hba hra hrb
    rw [rchain_unfold parentOf objs rank hrank N a haN, hra] at hba
    rcases List.mem_cons.mp hba with h | h
    · exact hab h.symm
    · have hoN : rank o < N := by
        have := resolvedParent_spec parentOf objs rank hrank N a o haN hra
        omega
      have hbo : rank b ≤ rank o :=
        (rchain_rank parentOf objs rank hrank N (rank o + 1) o (by omega) hoN b h).1
      have := resolvedParent_spec parentOf objs rank hrank N b o hbN hrb
      omega
  rcases hcmp with h | h
  · exact key y x (fun he => hne he.symm) hyN hxN h hry hrx
  · exact key x y hne hxN hyN h hrx hry

theorem rchain_last (parentOf : Nat → Option Nat) (objs : List Nat)
    (rank : Nat → Nat) (hrank : ∀ k p, parentOf k = some p → rank p < rank k)
    (N : Nat) : ∀ B k, rank k < B → rank k < N → k ∈ objs →
      ∃ L, L ∈ objs ∧ L ∈ rchain parentOf objs N N k ∧
        resolvedParent parentOf objs N L = none := by
  intro B
  induction B with
  | zero => intro k h1; exact absurd h1 (Nat.not_lt_zero _)
  | succ B ih =>
    intro k h1 hN hkobjs
    cases hrp : resolvedParent parentOf objs N k with
    | none => exact ⟨k, hkobjs, mem_rchain_self parentOf objs N N k, hrp⟩
    | some p =>
      have hp := resolvedParent_spec parentOf objs rank hrank N k p hN hrp
      obtain ⟨L, hL1, hL2, hL3⟩ := ih p (by omega) (by omega) hp.1
      refine ⟨L, hL1, ?_, hL3⟩
      rw [rchain_unfold parentOf objs rank hrank N k hN, hrp]
      exact List.mem_cons_of_mem k hL2

theorem rchain_none_unique (parentOf : Nat → Option Nat) (objs : List Nat)
    (rank : Nat → Nat) (hrank : ∀ k p, parentOf k = some p → rank p < rank k)
    (N : Nat) (k : Nat) (hkN : rank k < N) (x y : Nat)
    (hx : x ∈ rchain parentOf objs N N k) (hy : y ∈ rchain parentOf objs N N k)
    (hrx : resolvedParent parentOf objs N x = none)
    (hry : resolvedParent parentOf objs N y = none) : x = y := by
  have hxr : rank x ≤ rank k :=
    (rchain_rank parentOf objs rank hrank N (rank k + 1) k (by omega) hkN x hx).1
  have hyr : rank y ≤ rank k :=
    (rchain_rank parentOf objs rank hrank N (rank k + 1) k (by omega) hkN y hy).1
  have hcmp := rchain_compare parentOf objs rank hrank N (rank k + 1) k (by omega) hkN
    x hx y hy
  have key : ∀ a b : Nat, rank a < N → b ∈ rchain parentOf objs N N a →
      resolvedParent parentOf objs N a = none → a = b := by
    intro a b haN hba hra
    rw [rchain_unfold parentOf objs rank hrank N a haN, hra] at hba
    rcases List.mem_cons.mp hba with h | h
    · exact h.symm
    · simp at h
  rcases hcmp with h | h
  · exact (key y x (by omega) h hry).symm
  · exact key x y (by omega) h hrx

theorem mem_bucket (parentOf : Nat → Option Nat) (objs : List Nat) (F : Nat)
    (p : Option Nat) (o : Nat) :
    o ∈ bucket parentOf objs F p ↔ o ∈ objs ∧ resolvedParent parentOf objs F o = p := by
  simp [bucket, List.mem_filter]

theorem countP_eq_one_of_unique {l : List Nat} {p : Nat → Bool} (hnd : l.Nodup)
    (q : Nat) (hq : q ∈ l) (hpq : p q = true)
    (huniq : ∀ x ∈ l, p x = true → x = q) : l.countP p = 1 := by
  induction l with
  | nil => simp at hq
  | cons a r ih =>
    rw [List.nodup_cons] at hnd
    rw [List.countP_cons]
    rcases List.mem_cons.mp hq with hqa | hqr
    · have hpa : p a = true := by rw [hqa] at hpq; exact hpq
      rw [hpa]
      have hz : r.countP p = 0 := by
        rw [List.countP_eq_zero]
        intro x hx hpx
        have := huniq x (List.mem_cons_of_mem a hx) hpx
        rw [this, hqa] at hx
        exact hnd.1 hx
      rw [hz]
      simp
    · have hpa : p a = false := by
        rcases Bool.eq_false_or_eq_true (p a) with h | h
        · have := huniq a (List.mem_cons_self a r) h
          rw [this] at hnd
          exact absurd hqr hnd.1
        · exact h
      rw [hpa]
      simp only [Bool.false_eq_true, if_false, Nat.add_zero]
      exact ih hnd.2 hqr (fun x hx hpx => huniq x (List.mem_cons_of_mem a hx) hpx)

theorem countHTList_map_countP (k : Nat) (f : Nat → HTree) (p : Nat → Bool) :
    ∀ l : List Nat, (∀ x ∈ l, countHT k (f x) = if p x = true then 1 else 0) →
    countHTList k (l.map f) = l.countP p := by
  intro l
  induction l with
  | nil => intro _; rfl
  | cons a r ih =>
    intro h
    simp only [List.map_cons, countHTList, List.countP_cons]
    rw [h a (List.mem_cons_self a r),
      ih (fun x hx => h x (List.mem_cons_of_mem a hx))]
    by_cases hp : p a = true
    · rw [hp]
      simp [Nat.add_comm]
    · rw [Bool.not_eq_true] at hp
      rw [hp]
      simp

theorem countHTList_map_zero (k : Nat) (f : Nat → HTree) :
    ∀ l : List Nat, (∀ x ∈ l, countHT k (f x) = 0) → countHTList k (l.map f) = 0 := by
  intro l
  induction l with
  | nil => intro _; rfl
  | cons a r ih =>
    intro h
    simp only [List.map_cons, countHTList]
    rw [h a (List.mem_cons_self a r), ih (fun x hx => h x (List.mem_cons_of_mem a hx))]

theorem countHT_attach (parentOf : Nat → Option Nat) (objs : List Nat)
    (rank : Nat → Nat) (N : Nat)
    (hrank : ∀ k p, parentOf k = some p → rank p < rank k)
    (hobjs : ∀ o ∈ objs, rank o < N) (hnd : objs.Nodup) :
    ∀ fuelA o, o ∈ objs → N ≤ fuelA + rank o → ∀ k, k ∈ objs →
    countHT k (attach parentOf objs N fuelA o) =
      if o ∈ rchain parentOf objs N N k then 1 else 0 := by
  intro fuelA
  induction fuelA with
  | zero =>
    intro o ho hfuel
    have := hobjs o ho
    omega
  | succ fA ih =>
    intro o ho hfuel k hk
    have hoN : rank o < N := hobjs o ho
    have hkN : rank k < N := hobjs k hk
    simp only [attach, countHT]
    have hsum : countHTList k ((bucket parentOf objs N (some o)).map
        (attach parentOf objs N fA)) =
        (bucket parentOf objs N (some o)).countP
          (fun x => decide (x ∈ rchain parentOf objs N N k)) := by
      apply countHTList_map_countP
      intro x hx
      rcases (mem_bucket parentOf objs N (some o) x).mp hx with ⟨hx1, hx2⟩
      have hxrank := resolvedParent_spec parentOf objs rank hrank N x o (hobjs x hx1) hx2
      rw [ih x hx1 (by omega) k hk]
      by_cases hmem : x ∈ rchain parentOf objs N N k
      · simp [hmem]
      · simp [hmem]
    rw [hsum]
    by_cases hok : o = k
    · subst hok
      have hz : (bucket parentOf objs N (some o)).countP
          (fun x => decide (x ∈ rchain parentOf objs N N o)) = 0 := by
        rw [List.countP_eq_zero]
        intro x hxb
        rcases (mem_bucket parentOf objs N (some o) x).mp hxb with ⟨hx1, hx2⟩
        simp only [decide_eq_true_eq]
        intro hxc
        have h1 : rank x ≤ rank o :=
          (rchain_rank parentOf objs rank hrank N (rank o + 1) o (by omega) hoN x hxc).1
        have h2 := resolvedParent_spec parentOf objs rank hrank N x o (hobjs x hx1) hx2
        omega
      rw [hz, if_pos rfl, if_pos (mem_rchain_self parentOf objs N N o)]
    · rw [if_neg hok, Nat.zero_add]
      by_cases hoc : o ∈ rchain parentOf objs N N k
      · rw [if_pos hoc]
        obtain ⟨q, hq1, hq2, hq3⟩ := rchain_pred parentOf objs rank hrank N
          (rank k + 1) k (by omega) hkN hk o hoc hok
        have hone : (bucket parentOf objs N (some o)).countP
            (fun x => decide (x ∈ rchain parentOf objs N N k)) = 1 := by
          apply countP_eq_one_of_unique (hnd.filter _) q
          · exact (mem_bucket parentOf objs N (some o) q).mpr ⟨hq1, hq3⟩
          · simp [hq2]
          · intro x hxb hxp
            rcases (mem_bucket parentOf objs N (some o) x).mp hxb with ⟨hx1, hx2⟩
            simp only [decide_eq_true_eq] at hxp
            exact rchain_pred_unique parentOf objs rank hrank N k hkN o x q hxp hq2 hx2 hq3
        rw [hone]
      · rw [if_neg hoc]
        rw [List.countP_eq_zero]
        intro x hxb
        rcases (mem_bucket parentOf objs N (some o) x).mp hxb with ⟨hx1, hx2⟩
        simp only [decide_eq_true_eq]
        intro hxc
        have hxN : rank x < N := hobjs x hx1
        have hsub := rchain_subset parentOf objs rank hrank N (rank k + 1) k
          (by omega) hkN x hxc
        have hoin : o ∈ rchain parentOf objs N N x := by
          rw [rchain_unfold parentOf objs rank hrank N x hxN, hx2]
          exact List.mem_cons_of_mem x (mem_rchain_self parentOf objs N N o)
        exact hoc (hsub hoin)

theorem countHT_attach_zero (parentOf : Nat → Option Nat) (objs : List Nat) (N : Nat) :
    ∀ fuelA o, o ∈ objs → ∀ k, k ∉ objs →
      countHT k (attach parentOf objs N fuelA o) = 0 := by
  intro fuelA
  induction fuelA with
  | zero =>
    intro o ho k hkn
    simp only [attach, countHT, countHTList]
    rw [if_neg (fun he => hkn (by rw [← he]; exact ho))]
  | succ fA ih =>
    intro o ho k hkn
    simp only [attach, countHT]
    rw [if_neg (fun he => hkn (by rw [← he]; exact ho))]
    rw [countHTList_map_zero k _ _ (fun x hx =>
      ih x ((mem_bucket parentOf objs N (some o) x).mp hx).1 k hkn)]

theorem attach_root (parentOf : Nat → Option Nat) (objs : List Nat) (F : Nat) :
    ∀ fuelA o, (attach parentOf objs F fuelA o).root = o := by
  intro fuelA o
  cases fuelA <;> rfl

theorem test_parent_eq_find (parentOf : Nat → Option Nat) (objs : List Nat)
    (rank : Nat → Nat) (hrank : ∀ k p, parentOf k = some p → rank p < rank k) :
    ∀ fuel (op : Option Nat), (∀ q, op = some q → rank q < fuel) →
      test_parent parentOf objs fuel op =
        (ancChain parentOf fuel op).find? (fun a => decide (a ∈ objs)) := by
  intro fuel
  induction fuel with
  | zero =>
    intro op h
    cases op with
    | none => rfl
    | some p => exact absurd (h p rfl) (Nat.not_lt_zero _)
  | succ f ih =>
    intro op h
    cases op with
    | none => rfl
    | some p =>
      simp only [test_parent, ancChain]
      by_cases hmem : p ∈ objs
      · rw [if_pos hmem, List.find?_cons_of_pos _ (by simp [hmem])]
      · rw [if_neg hmem, List.find?_cons_of_neg _ (by simp [hmem])]
        apply ih
        intro q hq
        have h1 := hrank p q hq
        have h2 := h p rfl
        omega

theorem mem_subtreesList_map (t : HTree) (f : Nat → HTree) :
    ∀ l : List Nat, t ∈ subtreesList (l.map f) → ∃ x ∈ l, t ∈ subtrees (f x) := by
  intro l
  induction l with
  | nil => intro ht; simp [subtreesList] at ht
  | cons a r ih =>
    intro ht
    simp only [List.map_cons, subtreesList] at ht
    rcases List.mem_append.mp ht with h | h
    · exact ⟨a, List.mem_cons_self a r, h⟩
    · obtain ⟨x, hx, h2⟩ := ih h
      exact ⟨x, List.mem_cons_of_mem a hx, h2⟩

theorem subtree_children_attach (parentOf : Nat → Option Nat) (objs : List Nat)
    (rank : Nat → Nat) (N : Nat)
    (hrank : ∀ k p, parentOf k = some p → rank p < rank k)
    (hobjs : ∀ o ∈ objs, rank o < N) :
    ∀ fuelA o, o ∈ objs → N ≤ fuelA + rank o →
      ∀ t ∈ subtrees (attach parentOf objs N fuelA o),
        t.children.map HTree.root = bucket parentOf objs N (some t.root) := by
  intro fuelA
  induction fuelA with
  | zero =>
    intro o ho hfuel
    have := hobjs o ho
    omega
  | succ fA ih =>
    intro o ho hfuel t ht
    simp only [attach, subtrees] at ht
    rcases List.mem_cons.mp ht with ht1 | ht1
    · rw [ht1]
      simp only [HTree.children, HTree.root]
      rw [List.map_map]
      calc ((bucket parentOf objs N (some o)).map
            (HTree.root ∘ attach parentOf objs N fA))
          = (bucket parentOf objs N (some o)).map id :=
            List.map_congr_left (fun a _ => attach_root parentOf objs N fA a)
        _ = bucket parentOf objs N (some o) := List.map_id _
    · obtain ⟨x, hx, ht2⟩ := mem_subtreesList_map t _ _ ht1
      rcases (mem_bucket parentOf objs N (some o) x).mp hx with ⟨hx1, hx2⟩
      have hxo := resolvedParent_spec parentOf objs rank hrank N x o (hobjs x hx1) hx2
      exact ih x hx1 (by omega) t ht2

/-- C9: build_hierarchy is correct on every finite candidate list with an
    acyclic parent relation (acyclicity given by a rank function that
    strictly decreases along parent links, candidate ranks below the fuel
    N).  (1) every candidate appears exactly once in the forest and
    (2) nothing else appears; (3) the roots are exactly the candidates whose
    resolved parent is None, in candidate order; (4) the resolved parent of
    a candidate is the first member of the candidate set on its strict
    ancestor chain (excluded intermediate ancestors are skipped), so None
    means no ancestor lies in the candidate set; (5) the children of every
    entry in the forest are exactly the candidates whose resolved parent is
    that entry, in candidate order. -/
theorem c9_build_hierarchy (parentOf : Nat → Option Nat) (objs : List Nat)
    (rank : Nat → Nat) (N : Nat)
    (hrank : ∀ k p, parentOf k = some p → rank p < rank k)
    (hobjs : ∀ o ∈ objs, rank o < N) (hnd : objs.Nodup) :
    (∀ k ∈ objs, countHTList k (build_hierarchy parentOf objs N N) = 1) ∧
    (∀ k, k ∉ objs → countHTList k (build_hierarchy parentOf objs N N) = 0) ∧
    ((build_hierarchy parentOf objs N N).map HTree.root =
      objs.filter (fun o => resolvedParent parentOf objs N o == none)) ∧
    (∀ o ∈ objs, resolvedParent parentOf objs N o =
      (ancChain parentOf N (parentOf o)).find? (fun a => decide (a ∈ objs))) ∧
    (∀ t ∈ subtreesList (build_hierarchy parentOf objs N N),
      t.children.map HTree.root =
        objs.filter (fun o => resolvedParent parentOf objs N o == some t.root)) := by
  refine ⟨?_, ?_, ?_, ?_, ?_⟩
  · intro k hk
    have hkN : rank k < N := hobjs k hk
    rw [build_hierarchy]
    rw [countHTList_map_countP k _ (fun x => decide (x ∈ rchain parentOf objs N N k)) _
      (fun x hx => by
        rcases (mem_bucket parentOf objs N none x).mp hx with ⟨hx1, _⟩
        rw [countHT_attach parentOf objs rank N hrank hobjs hnd N x hx1 (by omega) k hk]
        by_cases hmem : x ∈ rchain parentOf objs N N k
        · simp [hmem]
        · simp [hmem])]
    obtain ⟨L, hL1, hL2, hL3⟩ := rchain_last parentOf objs rank hrank N
      (rank k + 1) k (by omega) hkN hk
    apply countP_eq_one_of_unique (hnd.filter _) L
    · exact (mem_bucket parentOf objs N none L).mpr ⟨hL1, hL3⟩
    · simp [hL2]
    · intro x hxb hxp
      rcases (mem_bucket parentOf objs N none x).mp hxb with ⟨hx1, hx2⟩
      simp only [decide_eq_true_eq] at hxp
      exact rchain_none_unique parentOf objs rank hrank N k hkN x L hxp hL2 hx2 hL3
  · intro k hk
    rw [build_hierarchy]
    exact countHTList_map_zero k _ _ (fun x hx =>
      countHT_attach_zero parentOf objs N N x
        ((mem_bucket parentOf objs N none x).mp hx).1 k hk)
  · rw [build_hierarchy, List.map_map]
    calc ((bucket parentOf objs N none).map
          (HTree.root ∘ attach parentOf objs N N))
        = (bucket parentOf objs N none).map id :=
          List.map_congr_left (fun a _ => attach_root parentOf objs N N a)
      _ = bucket parentOf objs N none := List.map_id _
      _ = objs.filter (fun o => resolvedParent parentOf objs N o == none) := rfl
  · intro o ho
    rw [resolvedParent]
    apply test_parent_eq_find parentOf objs rank hrank
    intro q hq
    have h1 := hrank o q hq
    have h2 := hobjs o ho
    omega
  · intro t ht
    rw [build_hierarchy] at ht
    obtain ⟨x, hx, ht2⟩ := mem_subtreesList_map t _ _ ht
    rcases (mem_bucket parentOf objs N none x).mp hx with ⟨hx1, _⟩
    have := subtree_children_attach parentOf objs rank N hrank hobjs N x hx1
      (by have := hobjs x hx1; omega) t ht2
    rw [this]
    rfl

/-- The parent links of the C9 witness scene: 1 is a child of 2, 2 a child
    of 3, all else root-level; the candidate set excludes 2, so 1 must be
    attached under 3 transparently. -/
def pfW : Nat → Option Nat :=
  fun k => if k = 1 then some 2 else if k = 2 then some 3 else none

def rankW : Nat → Nat := fun k => if k = 1 then 2 else if k = 2 then 1 else 0

/-- Witness for C9 at the concrete candidate list [1, 3, 4] with the
    excluded intermediate ancestor 2. -/
theorem c9_build_hierarchy_witness :
    (∀ k ∈ [1, 3, 4], countHTList k (build_hierarchy pfW [1, 3, 4] 3 3) = 1) ∧
    (∀ k, k ∉ [1, 3, 4] → countHTList k (build_hierarchy pfW [1, 3, 4] 3 3) = 0) ∧
    ((build_hierarchy pfW [1, 3, 4] 3 3).map HTree.root =
      [1, 3, 4].filter (fun o => resolvedParent pfW [1, 3, 4] 3 o == none)) ∧
    (∀ o ∈ [1, 3, 4], resolvedParent pfW [1, 3, 4] 3 o =
      (ancChain pfW 3 (pfW o)).find? (fun a => decide (a ∈ [1, 3, 4]))) ∧
    (∀ t ∈ subtreesList (build_hierarchy pfW [1, 3, 4] 3 3),
      t.children.map HTree.root =
        [1, 3, 4].filter (fun o => resolvedParent pfW [1, 3, 4] 3 o == some t.root)) :=
  c9_build_hierarchy pfW [1, 3, 4] rankW 3
    (by
      intro k p h
      simp only [pfW] at h
      by_cases h1 : k = 1
      · rw [if_pos h1] at h
        injection h with h2
        subst h2
        subst h1
        decide
      · rw [if_neg h1] at h
        by_cases h2 : k = 2
        · rw [if_pos h2] at h
          injection h with h3
          subst h3
          subst h2
          decide
        · rw [if_neg h2] at h
          exact absurd h (by simp))
    (by decide) (by decide)

/-! ### C6: depth accounting of the text emitter -/

/-- The pre-decrement that fw applies before a fragment (lines 58-59): one
    when the stripped fragment starts with a closing bracket. -/
def preN (f : PyStr) : ℤ :=
  if pyStartsWith (pyStrip f) [rbrace] || pyStartsWith (pyStrip f) [']'] then 1 else 0

/-- The post-increment that fw applies after a fragment (lines 63-64): one
    when the stripped fragment ends with an opening bracket. -/
def postN (f : PyStr) : ℤ :=
  if pyEndsWith (pyStrip f) [lbrace] || pyEndsWith (pyStrip f) ['['] then 1 else 0

/-- Total indentation change over a fragment list. -/
def deltaFW : List PyStr → ℤ
  | [] => 0
  | f :: fs => (postN f - preN f) + deltaFW fs

/-- The lowest writing depth reached over a fragment list, relative to the
    starting depth: the minimum over all fragments of the depth at which
    that fragment is written (after its pre-decrement); zero for the empty
    list. -/
def dipFW : List PyStr → ℤ
  | [] => 0
  | f :: fs => min (-preN f) (-preN f + postN f + dipFW fs)

/-- Every fragment of the list is written at a non-negative depth when the
    emitter starts from depth d. -/
def nonnegFW : ℤ → List PyStr → Bool
  | _, [] => true
  | d, f :: fs => decide (0 ≤ d - preN f) && nonnegFW (d - preN f + postN f) fs

theorem preN_nonneg (f : PyStr) : 0 ≤ preN f := by
  unfold preN; split <;> decide

theorem preN_le_one (f : PyStr) : preN f ≤ 1 := by
  unfold preN; split <;> decide

theorem postN_nonneg (f : PyStr) : 0 ≤ postN f := by
  unfold postN; split <;> decide

theorem postN_le_one (f : PyStr) : postN f ≤ 1 := by
  unfold postN; split <;> decide

/-- fw changes the indentation by the post-increment minus the
    pre-decrement of the fragment. -/
theorem fwStep_indentation (st : FWState) (f : PyStr) :
    (fwStep st f).indentation = st.indentation - preN f + postN f := by
  unfold fwStep preN postN
  rcases Bool.eq_false_or_eq_true
      (pyStartsWith (pyStrip f) [rbrace] || pyStartsWith (pyStrip f) [']']) with h1 | h1 <;>
    rcases Bool.eq_false_or_eq_true
      (pyEndsWith (pyStrip f) [lbrace] || pyEndsWith (pyStrip f) ['[']) with h2 | h2 <;>
    simp [h1, h2]

/-- fw writes two blanks per level of the pre-decremented depth in front of
    a fragment that starts a new physical line, then the fragment itself. -/
theorem fwStep_out (st : FWState) (f : PyStr) :
    (fwStep st f).out = st.out ++
      (if st.isLastCharacterACariageReturn
       then List.replicate (2 * (st.indentation - preN f)).toNat ' ' else []) ++ f := by
  unfold fwStep preN
  rcases Bool.eq_false_or_eq_true
      (pyStartsWith (pyStrip f) [rbrace] || pyStartsWith (pyStrip f) [']']) with h1 | h1 <;>
    rcases Bool.eq_false_or_eq_true st.isLastCharacterACariageReturn with h2 | h2 <;>
    simp [h1, h2, List.append_assoc]

theorem runFW_cons (st : FWState) (f : PyStr) (fs : List PyStr) :
    runFW st (f :: fs) = runFW (fwStep st f) fs := rfl

theorem runFW_indentation (fs : List PyStr) : ∀ st : FWState,
    (runFW st fs).indentation = st.indentation + deltaFW fs := by
  induction fs with
  | nil => intro st; simp [runFW, deltaFW]
  | cons f fs ih =>
    intro st
    rw [runFW_cons, ih, fwStep_indentation, deltaFW]
    ring

theorem deltaFW_append : ∀ xs ys : List PyStr,
    deltaFW (xs ++ ys) = deltaFW xs + deltaFW ys
  | [], ys => by simp [deltaFW]
  | x :: xs, ys => by
    have ih := deltaFW_append xs ys
    simp only [List.cons_append, deltaFW, List.append_eq]
    rw [ih]
    ring

theorem dipFW_nonpos : ∀ fs : List PyStr, dipFW fs ≤ 0
  | [] => le_refl 0
  | f :: fs => by
    have hp := preN_nonneg f
    simp only [dipFW]
    omega

theorem dipFW_le_delta : ∀ fs : List PyStr, dipFW fs ≤ deltaFW fs
  | [] => le_refl 0
  | f :: fs => by
    have := dipFW_le_delta fs
    simp only [dipFW, deltaFW]
    omega

theorem dipFW_append : ∀ xs ys : List PyStr,
    dipFW (xs ++ ys) = min (dipFW xs) (deltaFW xs + dipFW ys)
  | [], ys => by
    have := dipFW_nonpos ys
    simp only [List.nil_append, dipFW, deltaFW]
    omega
  | x :: xs, ys => by
    have ih := dipFW_append xs ys
    simp only [List.cons_append, dipFW, deltaFW, List.append_eq]
    rw [ih]
    simp only [min_def]
    split_ifs <;> omega

/-- A non-negative starting depth plus the lowest relative depth staying
    non-negative makes every write depth non-negative. -/
theorem nonnegFW_of_dip : ∀ (fs : List PyStr) (d : ℤ), 0 ≤ d + dipFW fs →
    nonnegFW d fs = true
  | [], _, _ => rfl
  | f :: fs, d, h => by
    simp only [dipFW] at h
    have h1 : 0 ≤ d - preN f := by omega
    have h2 : 0 ≤ (d - preN f + postN f) + dipFW fs := by omega
    simp [nonnegFW, h1, nonnegFW_of_dip fs _ h2]

/-- The depth at which any one fragment of a run is written (after its
    pre-decrement) is non-negative when every write depth of the run is. -/
theorem nonnegFW_split : ∀ (xs : List PyStr) (d : ℤ) (f : PyStr) (ys : List PyStr),
    nonnegFW d (xs ++ f :: ys) = true → 0 ≤ d + deltaFW xs - preN f
  | [], d, f, ys, h => by
    simp only [List.nil_append, nonnegFW, Bool.and_eq_true, decide_eq_true_eq] at h
    simpa [deltaFW] using h.1
  | x :: xs, d, f, ys, h => by
    simp only [List.cons_append, nonnegFW, Bool.and_eq_true, decide_eq_true_eq] at h
    have := nonnegFW_split xs (d - preN x + postN x) f ys h.2
    simp only [deltaFW]
    omega

theorem dropWS_cons (c : Char) (l : PyStr) :
    dropWS (c :: l) = if pyIsSpace c = true then dropWS l else c :: l := by
  simp [dropWS, List.dropWhile_cons]

theorem mem_dropWS (c : Char) (s : PyStr) (h : c ∈ dropWS s) : c ∈ s :=
  (List.dropWhile_sublist pyIsSpace).subset h

theorem mem_pyStrip (c : Char) (s : PyStr) (h : c ∈ pyStrip s) : c ∈ s := by
  unfold pyStrip at h
  have h1 := mem_dropWS _ _ h
  rw [List.mem_reverse] at h1
  have h2 := mem_dropWS _ _ h1
  rwa [List.mem_reverse] at h2

/-- The first character surviving leading-whitespace removal is not
    whitespace. -/
theorem dropWS_head_nonspace : ∀ (s : PyStr) (c : Char) (u : PyStr),
    dropWS s = c :: u → pyIsSpace c = false
  | [], c, u, h => by simp [dropWS] at h
  | a :: s, c, u, h => by
    rw [dropWS_cons] at h
    rcases Bool.eq_false_or_eq_true (pyIsSpace a) with ha | ha
    · rw [if_pos ha] at h
      exact dropWS_head_nonspace s c u h
    · rw [if_neg (by simp [ha])] at h
      cases h
      exact ha

theorem dropWS_append_nonspace (c : Char) (hc : pyIsSpace c = false) :
    ∀ l : PyStr, dropWS (l ++ [c]) = dropWS l ++ [c]
  | [] => by simp [dropWS, List.dropWhile_cons, hc]
  | a :: l => by
    rw [List.cons_append, dropWS_cons, dropWS_cons]
    rcases Bool.eq_false_or_eq_true (pyIsSpace a) with ha | ha
    · rw [if_pos ha, if_pos ha]
      exact dropWS_append_nonspace c hc l
    · rw [if_neg (by simp [ha]), if_neg (by simp [ha]), List.cons_append]

theorem dropWS_append_space_nil (c : Char) (hc : pyIsSpace c = true) :
    ∀ l : PyStr, dropWS l = [] → dropWS (l ++ [c]) = []
  | [], _ => by simp [dropWS, List.dropWhile_cons, hc]
  | a :: l, h => by
    rw [dropWS_cons] at h
    rcases Bool.eq_false_or_eq_true (pyIsSpace a) with ha | ha
    · rw [if_pos ha] at h
      rw [List.cons_append, dropWS_cons, if_pos ha]
      exact dropWS_append_space_nil c hc l h
    · rw [if_neg (by simp [ha])] at h
      exact absurd h (by simp)

theorem dropWS_append_of_ne : ∀ (l t : PyStr), dropWS l ≠ [] →
    dropWS (l ++ t) = dropWS l ++ t
  | [], t, h => absurd rfl h
  | a :: l, t, h => by
    rw [dropWS_cons] at h
    rw [List.cons_append, dropWS_cons, dropWS_cons]
    rcases Bool.eq_false_or_eq_true (pyIsSpace a) with ha | ha
    · rw [if_pos ha] at h
      rw [if_pos ha, if_pos ha]
      exact dropWS_append_of_ne l t h
    · rw [if_neg (by simp [ha]), if_neg (by simp [ha]), List.cons_append]

theorem pyStrip_cons_space (c : Char) (l : PyStr) (hc : pyIsSpace c = true) :
    pyStrip (c :: l) = pyStrip l := by
  unfold pyStrip
  rw [List.reverse_cons]
  rcases e : dropWS l.reverse with _ | ⟨y, ys⟩
  · rw [dropWS_append_space_nil c hc l.reverse e]
  · rw [dropWS_append_of_ne l.reverse [c] (by rw [e]; simp), e]
    rw [List.reverse_append, List.reverse_singleton, List.singleton_append]
    rw [dropWS_cons, if_pos hc]

theorem pyStrip_append_space (l : PyStr) (c : Char) (hc : pyIsSpace c = true) :
    pyStrip (l ++ [c]) = pyStrip l := by
  unfold pyStrip
  rw [List.reverse_append, List.reverse_singleton, List.singleton_append]
  rw [dropWS_cons, if_pos hc]

theorem pyStrip_append_nonspace (l : PyStr) (c : Char) (hc : pyIsSpace c = false) :
    pyStrip (l ++ [c]) = dropWS l ++ [c] := by
  unfold pyStrip
  rw [List.reverse_append, List.reverse_singleton, List.singleton_append]
  rw [dropWS_cons, if_neg (by simp [hc])]
  rw [List.reverse_cons, List.reverse_reverse]
  exact dropWS_append_nonspace c hc l

theorem pyStrip_cons_nonspace (c : Char) (l : PyStr) (hc : pyIsSpace c = false) :
    pyStrip (c :: l) = c :: (dropWS l.reverse).reverse := by
  unfold pyStrip
  rw [List.reverse_cons, dropWS_append_nonspace c hc l.reverse]
  rw [List.reverse_append, List.reverse_singleton, List.singleton_append]
  rw [dropWS_cons, if_neg (by simp [hc])]

/-- Stripping keeps the first character surviving leading-whitespace
    removal in front. -/
theorem pyStrip_head : ∀ (s : PyStr) (c : Char) (u : PyStr), dropWS s = c :: u →
    ∃ v, pyStrip s = c :: v
  | [], c, u, h => by simp [dropWS] at h
  | a :: s, c, u, h => by
    rw [dropWS_cons] at h
    rcases Bool.eq_false_or_eq_true (pyIsSpace a) with ha | ha
    · rw [if_pos ha] at h
      rw [pyStrip_cons_space a s ha]
      exact pyStrip_head s c u h
    · rw [if_neg (by simp [ha])] at h
      cases h
      exact ⟨(dropWS s.reverse).reverse, pyStrip_cons_nonspace a s ha⟩

theorem pyStartsWith_single (c : Char) (r : PyStr) (x : Char) :
    pyStartsWith (c :: r) [x] = (c == x) := by
  simp [pyStartsWith]

theorem preN_strip_nil (f : PyStr) (h : pyStrip f = []) : preN f = 0 := by
  simp [preN, h, pyStartsWith]

theorem postN_strip_nil (f : PyStr) (h : pyStrip f = []) : postN f = 0 := by
  simp [postN, pyEndsWith, h, pyStartsWith]

/-- The pre-decrement is decided by the first character surviving
    leading-whitespace removal. -/
theorem preN_head_char (s : PyStr) (c : Char) (u : PyStr) (h : dropWS s = c :: u) :
    preN s = if (c == rbrace || c == ']') = true then 1 else 0 := by
  obtain ⟨v, hv⟩ := pyStrip_head s c u h
  simp only [preN, hv, pyStartsWith_single]

theorem preN_append_left (l t : PyStr) (c : Char) (u : PyStr) (h : dropWS l = c :: u) :
    preN (l ++ t) = preN l := by
  rw [preN_head_char l c u h,
    preN_head_char (l ++ t) c (u ++ t)
      (by rw [dropWS_append_of_ne l t (by rw [h]; simp), h]; rfl)]

/-- A fragment headed by a literal with no leading closing bracket has no
    pre-decrement, whatever follows the literal. -/
theorem preN_lit2 (lit x y : PyStr) (c : Char) (u : PyStr) (h : dropWS lit = c :: u)
    (h0 : preN lit = 0) : preN (lit ++ x ++ y) = 0 := by
  have h1 : dropWS (lit ++ x) = c :: (u ++ x) := by
    rw [dropWS_append_of_ne lit x (by rw [h]; simp), h]
    rfl
  rw [preN_append_left (lit ++ x) y c (u ++ x) h1]
  rw [preN_append_left lit x c u h]
  exact h0

/-- The post-increment is decided by the last character surviving
    trailing-whitespace removal. -/
theorem postN_rev_char (s : PyStr) (c : Char) (u : PyStr)
    (h : (pyStrip s).reverse = c :: u) :
    postN s = if (c == lbrace || c == '[') = true then 1 else 0 := by
  simp only [postN, pyEndsWith, List.reverse_singleton, h, pyStartsWith_single]

theorem postN_append_char (l : PyStr) (c : Char) (hc : pyIsSpace c = false) :
    postN (l ++ [c]) = if (c == lbrace || c == '[') = true then 1 else 0 := by
  refine postN_rev_char (l ++ [c]) c (dropWS l).reverse ?_
  rw [pyStrip_append_nonspace l c hc, List.reverse_append, List.reverse_singleton,
    List.singleton_append]

theorem postN_append_space (l : PyStr) (c : Char) (hc : pyIsSpace c = true) :
    postN (l ++ [c]) = postN l := by
  unfold postN
  rw [pyStrip_append_space l c hc]

theorem preN_append_space (l : PyStr) (c : Char) (hc : pyIsSpace c = true) :
    preN (l ++ [c]) = preN l := by
  unfold preN
  rw [pyStrip_append_space l c hc]

/-- The post-increment of an appended fragment is decided by its tail when
    the tail holds a non-whitespace character. -/
theorem postN_append_right (l t : PyStr) (c : Char) (u : PyStr)
    (h : dropWS t.reverse = c :: u) : postN (l ++ t) = postN t := by
  have hc : pyIsSpace c = false := dropWS_head_nonspace t.reverse c u h
  have h1 : (pyStrip (l ++ t)).reverse =
      c :: (dropWS ((u ++ l.reverse).reverse)).reverse := by
    unfold pyStrip
    rw [List.reverse_append, dropWS_append_of_ne t.reverse l.reverse (by rw [h]; simp), h]
    rw [List.cons_append, List.reverse_cons, dropWS_append_nonspace c hc,
      List.reverse_append, List.reverse_singleton, List.singleton_append]
  have h2 : (pyStrip t).reverse = c :: (dropWS u.reverse).reverse := by
    unfold pyStrip
    rw [h, List.reverse_cons, dropWS_append_nonspace c hc,
      List.reverse_append, List.reverse_singleton, List.singleton_append]
  rw [postN_rev_char (l ++ t) c _ h1, postN_rev_char t c _ h2]

theorem preN_zero_of_not_mem (f : PyStr) (h1 : rbrace ∉ f) (h2 : ']' ∉ f) :
    preN f = 0 := by
  rcases e : pyStrip f with _ | ⟨c, r⟩
  · exact preN_strip_nil f e
  · have hc : c ∈ f := mem_pyStrip c f (by rw [e]; exact List.mem_cons_self c r)
    simp only [preN, e, pyStartsWith_single]
    have hb1 : (c == rbrace) = false := by
      rcases Bool.eq_false_or_eq_true (c == rbrace) with hb | hb
      · exact absurd ((eq_of_beq hb) ▸ hc) h1
      · exact hb
    have hb2 : (c == ']') = false := by
      rcases Bool.eq_false_or_eq_true (c == ']') with hb | hb
      · exact absurd ((eq_of_beq hb) ▸ hc) h2
      · exact hb
    rw [hb1, hb2]
    simp

theorem postN_zero_of_not_mem (f : PyStr) (h1 : lbrace ∉ f) (h2 : '[' ∉ f) :
    postN f = 0 := by
  rcases e : (pyStrip f).reverse with _ | ⟨c, r⟩
  · have h0 : pyStrip f = [] := by
      have := congrArg List.reverse e
      simpa using this
    exact postN_strip_nil f h0
  · have hc : c ∈ f := by
      apply mem_pyStrip
      rw [← List.mem_reverse, e]
      exact List.mem_cons_self c r
    rw [postN_rev_char f c r e]
    have hb1 : (c == lbrace) = false := by
      rcases Bool.eq_false_or_eq_true (c == lbrace) with hb | hb
      · exact absurd ((eq_of_beq hb) ▸ hc) h1
      · exact hb
    have hb2 : (c == '[') = false := by
      rcases Bool.eq_false_or_eq_true (c == '[') with hb | hb
      · exact absurd ((eq_of_beq hb) ▸ hc) h2
      · exact hb
    rw [hb1, hb2]
    simp

/-- The character class of sanitized identifiers: upper-case letters,
    digits and underscores. -/
def idChar (c : Char) : Bool := isAZ c || isDigitCh c || c == '_'

/-- The character class of formatted numbers: digits, minus, point, blank. -/
def numChar (c : Char) : Bool := isDigitCh c || c == '-' || c == '.' || c == ' '

/-- A string made of identifier characters only. -/
def IdOK (s : PyStr) : Prop := ∀ c ∈ s, idChar c = true

theorem idChar_ne (c : Char) (h : idChar c = true) :
    c ≠ rbrace ∧ c ≠ ']' ∧ c ≠ lbrace ∧ c ≠ '[' :=
  ⟨fun e => by rw [e] at h; exact absurd h (by decide),
   fun e => by rw [e] at h; exact absurd h (by decide),
   fun e => by rw [e] at h; exact absurd h (by decide),
   fun e => by rw [e] at h; exact absurd h (by decide)⟩

theorem numChar_ne (c : Char) (h : numChar c = true) :
    c ≠ rbrace ∧ c ≠ ']' ∧ c ≠ lbrace ∧ c ≠ '[' :=
  ⟨fun e => by rw [e] at h; exact absurd h (by decide),
   fun e => by rw [e] at h; exact absurd h (by decide),
   fun e => by rw [e] at h; exact absurd h (by decide),
   fun e => by rw [e] at h; exact absurd h (by decide)⟩

theorem preN_zero_of_idChars (f : PyStr) (h : IdOK f) : preN f = 0 :=
  preN_zero_of_not_mem f (fun hm => (idChar_ne _ (h _ hm)).1 rfl)
    (fun hm => (idChar_ne _ (h _ hm)).2.1 rfl)

theorem postN_zero_of_idChars (f : PyStr) (h : IdOK f) : postN f = 0 :=
  postN_zero_of_not_mem f (fun hm => (idChar_ne _ (h _ hm)).2.2.1 rfl)
    (fun hm => (idChar_ne _ (h _ hm)).2.2.2 rfl)

theorem preN_zero_of_numChars (f : PyStr) (h : ∀ c ∈ f, numChar c = true) :
    preN f = 0 :=
  preN_zero_of_not_mem f (fun hm => (numChar_ne _ (h _ hm)).1 rfl)
    (fun hm => (numChar_ne _ (h _ hm)).2.1 rfl)

theorem postN_zero_of_numChars (f : PyStr) (h : ∀ c ∈ f, numChar c = true) :
    postN f = 0 :=
  postN_zero_of_not_mem f (fun hm => (numChar_ne _ (h _ hm)).2.2.1 rfl)
    (fun hm => (numChar_ne _ (h _ hm)).2.2.2 rfl)

/-- Pointwise character conditions from a decided List.all check. -/
theorem chars_of_all {P : Char → Bool} (s : PyStr) (h : s.all P = true) :
    ∀ c ∈ s, P c = true := by
  simpa [List.all_eq_true] using h

theorem chars_append {P : Char → Bool} {a b : PyStr} (ha : ∀ c ∈ a, P c = true)
    (hb : ∀ c ∈ b, P c = true) : ∀ c ∈ a ++ b, P c = true := by
  intro c hc
  rcases List.mem_append.1 hc with h | h
  · exact ha c h
  · exact hb c h

theorem chars_cons {P : Char → Bool} {a : Char} {b : PyStr} (ha : P a = true)
    (hb : ∀ c ∈ b, P c = true) : ∀ c ∈ a :: b, P c = true := by
  intro c hc
  rcases List.mem_cons.1 hc with h | h
  · subst h; exact ha
  · exact hb c h

theorem digitChar_digit (n : Nat) (h : n < 10) : isDigitCh (digitChar n) = true := by
  interval_cases n <;> decide

theorem natDigitsAux_chars : ∀ (f n : Nat), ∀ c ∈ natDigitsAux f n, isDigitCh c = true
  | 0, n => by simp [natDigitsAux]
  | f + 1, n => by
    intro c hc
    rw [natDigitsAux] at hc
    by_cases h : n < 10
    · rw [if_pos h] at hc
      rw [List.mem_singleton] at hc
      subst hc
      exact digitChar_digit n h
    · rw [if_neg h] at hc
      rcases List.mem_append.1 hc with hc | hc
      · exact natDigitsAux_chars f (n / 10) c hc
      · rw [List.mem_singleton] at hc
        subst hc
        exact digitChar_digit _ (Nat.mod_lt n (by norm_num))

theorem natDigits_chars (n : Nat) : ∀ c ∈ natDigits n, isDigitCh c = true :=
  natDigitsAux_chars (n + 1) n

theorem natDigits_numChars (n : Nat) : ∀ c ∈ natDigits n, numChar c = true :=
  fun c hc => by simp [numChar, natDigits_chars n c hc]

theorem padZeros_chars (w : Nat) (s : PyStr) (hs : ∀ c ∈ s, isDigitCh c = true) :
    ∀ c ∈ padZeros w s, isDigitCh c = true := by
  intro c hc
  rcases List.mem_append.1 hc with hc | hc
  · rw [List.eq_of_mem_replicate hc]; decide
  · exact hs c hc

theorem fmtF_chars (q : Q) (p : Nat) : ∀ c ∈ fmtF q p, numChar c = true := by
  intro c hc
  simp only [fmtF] at hc
  rcases List.mem_append.1 hc with hc | hc
  · rcases List.mem_append.1 hc with hc | hc
    · by_cases h : Q.round (q * Q.ofInt (10 ^ p)) < 0
      · rw [if_pos h, List.mem_singleton] at hc
        subst hc; decide
      · rw [if_neg h] at hc
        exact absurd hc (by simp)
    · exact natDigits_numChars _ c hc
  · by_cases h : p = 0
    · rw [if_pos h] at hc
      exact absurd hc (by simp)
    · rw [if_neg h] at hc
      rcases List.mem_cons.1 hc with hc | hc
      · subst hc; decide
      · have := padZeros_chars p _ (natDigits_chars _) c hc
        simp [numChar, this]

theorem fmt3_chars (v : Q × Q × Q) (p : Nat) : ∀ c ∈ fmt3 v p, numChar c = true := by
  unfold fmt3
  exact chars_append
    (chars_append (fmtF_chars _ _) (chars_cons (by decide) (fmtF_chars _ _)))
    (chars_cons (by decide) (fmtF_chars _ _))

theorem fmt4_chars (v : Q × Q × Q × Q) (p : Nat) : ∀ c ∈ fmt4 v p, numChar c = true := by
  unfold fmt4
  exact chars_append
    (chars_append
      (chars_append (fmtF_chars _ _) (chars_cons (by decide) (fmtF_chars _ _)))
      (chars_cons (by decide) (fmtF_chars _ _)))
    (chars_cons (by decide) (fmtF_chars _ _))

theorem coordIndexFrag_chars (fv : List Nat) :
    ∀ c ∈ coordIndexFrag fv, numChar c = true := by
  unfold coordIndexFrag
  by_cases h : fv.length = 3
  · rw [if_pos h]
    exact chars_append
      (chars_append
        (chars_append (natDigits_numChars _) (chars_cons (by decide) (natDigits_numChars _)))
        (chars_cons (by decide) (natDigits_numChars _)))
      (chars_of_all _ (by decide))
  · rw [if_neg h]
    exact chars_append
      (chars_append
        (chars_append
          (chars_append (natDigits_numChars _) (chars_cons (by decide) (natDigits_numChars _)))
          (chars_cons (by decide) (natDigits_numChars _)))
        (chars_cons (by decide) (natDigits_numChars _)))
      (chars_of_all _ (by decide))

theorem texCoordIndexFrags_chars (mfv : List (List Nat)) :
    ∀ (l : List Nat) (j : Nat), ∀ f ∈ texCoordIndexFrags mfv l j,
      ∀ c ∈ f, numChar c = true
  | [], _ => by simp [texCoordIndexFrags]
  | i :: rest, j => by
    intro f hf
    rw [texCoordIndexFrags] at hf
    by_cases h : (mfv.getD i []).length = 4
    · rw [if_pos h] at hf
      rcases List.mem_cons.1 hf with hf | hf
      · subst hf
        exact chars_append
          (chars_append
            (chars_append
              (chars_append (natDigits_numChars _)
                (chars_cons (by decide) (natDigits_numChars _)))
              (chars_cons (by decide) (natDigits_numChars _)))
            (chars_cons (by decide) (natDigits_numChars _)))
          (chars_of_all _ (by decide))
      · exact texCoordIndexFrags_chars mfv rest (j + 4) f hf
    · rw [if_neg h] at hf
      rcases List.mem_cons.1 hf with hf | hf
      · subst hf
        exact chars_append
          (chars_append
            (chars_append (natDigits_numChars _)
              (chars_cons (by decide) (natDigits_numChars _)))
            (chars_cons (by decide) (natDigits_numChars _)))
          (chars_of_all _ (by decide))
      · exact texCoordIndexFrags_chars mfv rest (j + 3) f hf

/-- Every character of a sanitized identifier is an upper-case letter or an
    underscore. -/
theorem slugify_chars (s : PyStr) : ∀ c ∈ slugify s, isAZ c = true ∨ c = '_' := by
  intro c hc
  have hpipe : slugify s =
      (let s1 := if s = [] then ("none").toList else s
       let s2 := s1.map Char.toUpper
       let s3 := s2.map (fun c => if isAZ c then c else '_')
       let s4 := if isAZ (s3.headD ' ') then s3 else '_' :: s3
       let s5 := collapseLoop s4.length s4
       if s5.getLastD ' ' = '_' then s5.dropLast else s5) := rfl
  set s1 := if s = [] then ("none").toList else s with hs1
  set s2 := s1.map Char.toUpper with hs2
  set s3 := s2.map (fun c => if isAZ c then c else '_') with hs3
  set s4 := if isAZ (s3.headD ' ') then s3 else '_' :: s3 with hs4
  set s5 := collapseLoop s4.length s4 with hs5
  have hres : slugify s = if s5.getLastD ' ' = '_' then s5.dropLast else s5 := hpipe
  have h3 : ∀ c ∈ s3, isAZ c = true ∨ c = '_' := by
    intro c hc
    rw [hs3] at hc
    rcases List.mem_map.mp hc with ⟨d, _, hd⟩
    by_cases hAZ : isAZ d = true
    · left; rw [← hd]; simp [hAZ]
    · right; rw [← hd]; simp [hAZ]
  have h4 : ∀ c ∈ s4, isAZ c = true ∨ c = '_' := by
    intro c hc
    rw [hs4] at hc
    by_cases hh : isAZ (s3.headD ' ') = true
    · rw [if_pos hh] at hc; exact h3 c hc
    · rw [if_neg hh] at hc
      rcases List.mem_cons.mp hc with hc | hc
      · right; exact hc
      · exact h3 c hc
  have h5 : ∀ c ∈ s5, isAZ c = true ∨ c = '_' := fun c hc =>
    h4 c (mem_collapseLoop _ _ c hc)
  have hsub : slugify s ⊆ s5 := by
    rw [hres]
    by_cases hl : s5.getLastD ' ' = '_'
    · rw [if_pos hl]; exact (List.dropLast_sublist s5).subset
    · rw [if_neg hl]; exact fun a ha => ha
  exact h5 c (hsub hc)

theorem slugify_IdOK (s : PyStr) : IdOK (slugify s) := by
  intro c hc
  rcases slugify_chars s c hc with h | h
  · simp [idChar, h]
  · subst h; decide

theorem fmt03_IdOK (n : Nat) : IdOK (fmt03 n) := by
  intro c hc
  have := padZeros_chars 3 (natDigits n) (natDigits_chars n) c hc
  simp [idChar, this]

theorem disambigLoop_IdOK (base : PyStr) (vals : List PyStr) (hb : IdOK base) :
    ∀ (f cnt : Nat), IdOK (disambigLoop base vals f cnt)
  | 0, cnt => by
    intro c hc
    rw [disambigLoop] at hc
    rcases List.mem_append.1 hc with hc | hc
    · exact hb c hc
    · rcases List.mem_cons.1 hc with hc | hc
      · subst hc; decide
      · exact fmt03_IdOK cnt c hc
  | f + 1, cnt => by
    intro c hc
    simp only [disambigLoop] at hc
    by_cases h : (base ++ '_' :: fmt03 cnt) ∈ vals
    · rw [if_pos h] at hc
      exact disambigLoop_IdOK base vals hb f (cnt + 1) c hc
    · rw [if_neg h] at hc
      rcases List.mem_append.1 hc with hc | hc
      · exact hb c hc
      · rcases List.mem_cons.1 hc with hc | hc
        · subst hc; decide
        · exact fmt03_IdOK cnt c hc

theorem freshName_IdOK (name : PyStr) (cache : List (Nat × PyStr)) :
    IdOK (freshName name cache) := by
  simp only [freshName]
  by_cases h : slugify name ∈ cache.map (fun e => e.2)
  · rw [if_pos h]
    exact disambigLoop_IdOK _ _ (slugify_IdOK name) _ _
  · rw [if_neg h]
    exact slugify_IdOK name

theorem alookup_mem {α β : Type} [DecidableEq α] :
    ∀ (l : List (α × β)) (k : α) (v : β), alookup l k = some v → (k, v) ∈ l
  | [], k, v, h => by simp [alookup] at h
  | (a, b) :: r, k, v, h => by
    rw [alookup] at h
    by_cases e : a = k
    · rw [if_pos e] at h
      cases h
      subst e
      exact List.mem_cons_self _ _
    · rw [if_neg e] at h
      exact List.mem_cons_of_mem _ (alookup_mem r k v h)

/-- Every cached identifier value is made of identifier characters. -/
def cacheOK (cache : List (Nat × PyStr)) : Prop := ∀ e ∈ cache, IdOK e.2

theorem unique_name_IdOK (key : Nat) (name : PyStr) (cache : List (Nat × PyStr))
    (h : cacheOK cache) :
    IdOK (unique_name key name cache).1 ∧ cacheOK (unique_name key name cache).2 := by
  unfold unique_name
  rcases e : alookup cache key with _ | v
  · refine ⟨freshName_IdOK name cache, ?_⟩
    intro x hx
    rcases List.mem_append.1 hx with hx | hx
    · exact h x hx
    · rcases List.mem_cons.1 hx with hx | hx
      · subst hx; exact freshName_IdOK name cache
      · exact absurd hx (by simp)
  · exact ⟨h (key, v) (alookup_mem cache key v e), h⟩

/-- The caches of an export state hold identifier-character values only. -/
def StOK (st : ExpSt) : Prop :=
  cacheOK st.uuid_cache_object ∧ cacheOK st.uuid_cache_mesh ∧ cacheOK st.uuid_cache_image

theorem expInit_StOK : StOK expInit :=
  ⟨fun e he => absurd he (by simp [expInit]), fun e he => absurd he (by simp [expInit]),
   fun e he => absurd he (by simp [expInit])⟩

/-- Override entries whose free-form strings cannot break the bracket
    discipline: the declared node type does not begin with a closing
    bracket after stripping, and the axis value does not end with an
    opening one.  Every table using the documented alphanumeric type and
    axis spellings satisfies both conditions. -/
def SafeUD (user_data : List (PyStr × NodeData)) : Prop :=
  ∀ e ∈ user_data,
    preN (e.2.webotsType ++ (" \x7b\n").toList) = 0 ∧
    postN (("axis ").toList ++ e.2.axis ++ ['\n']) = 0

instance (user_data : List (PyStr × NodeData)) : Decidable (SafeUD user_data) :=
  List.decidableBAll _ user_data

/-- A list of fragments that neither open nor close anything is balanced
    and has no dip. -/
theorem balanced_of_flat : ∀ fs : List PyStr, (∀ f ∈ fs, preN f = 0 ∧ postN f = 0) →
    deltaFW fs = 0 ∧ dipFW fs = 0
  | [], _ => ⟨rfl, rfl⟩
  | f :: fs, h => by
    have h0 := h f (List.mem_cons_self f fs)
    have ih := balanced_of_flat fs (fun g hg => h g (List.mem_cons_of_mem f hg))
    rw [deltaFW, dipFW, h0.1, h0.2, ih.1, ih.2]
    constructor <;> omega

theorem not_mem_lit_id {x : Char} (lit d : PyStr) (hd : IdOK d) (hx : x ∉ lit)
    (hxi : idChar x = false) : x ∉ lit ++ d := by
  intro hm
  rcases List.mem_append.1 hm with hm | hm
  · exact hx hm
  · rw [hd x hm] at hxi
    exact absurd hxi (by simp)

theorem not_mem_lit_num {x : Char} (lit n : PyStr) (hn : ∀ c ∈ n, numChar c = true)
    (hx : x ∉ lit) (hxi : numChar x = false) : x ∉ lit ++ n := by
  intro hm
  rcases List.mem_append.1 hm with hm | hm
  · exact hx hm
  · rw [hn x hm] at hxi
    exact absurd hxi (by simp)

/-- A fragment made of a bracket-free literal head, an identifier and a
    trailing whitespace character neither closes nor opens. -/
theorem frag_lit_id (lit d : PyStr) (tc c : Char) (u : PyStr)
    (hl : dropWS lit = c :: u) (h0 : preN lit = 0) (hd : IdOK d)
    (hsp : pyIsSpace tc = true) (hm1 : lbrace ∉ lit) (hm2 : '[' ∉ lit) :
    preN (lit ++ d ++ [tc]) = 0 ∧ postN (lit ++ d ++ [tc]) = 0 := by
  constructor
  · exact preN_lit2 lit d [tc] c u hl h0
  · rw [postN_append_space (lit ++ d) tc hsp]
    exact postN_zero_of_not_mem _ (not_mem_lit_id lit d hd hm1 (by decide))
      (not_mem_lit_id lit d hd hm2 (by decide))

/-- A fragment made of a bracket-free literal head, a formatted number and
    a trailing whitespace character neither closes nor opens. -/
theorem frag_lit_num (lit n : PyStr) (tc c : Char) (u : PyStr)
    (hl : dropWS lit = c :: u) (h0 : preN lit = 0)
    (hn : ∀ x ∈ n, numChar x = true) (hsp : pyIsSpace tc = true)
    (hm1 : lbrace ∉ lit) (hm2 : '[' ∉ lit) :
    preN (lit ++ n ++ [tc]) = 0 ∧ postN (lit ++ n ++ [tc]) = 0 := by
  constructor
  · exact preN_lit2 lit n [tc] c u hl h0
  · rw [postN_append_space (lit ++ n) tc hsp]
    exact postN_zero_of_not_mem _ (not_mem_lit_num lit n hn hm1 (by decide))
      (not_mem_lit_num lit n hn hm2 (by decide))

/-- A quoted-name fragment ends in a quote and a newline, whatever the
    quoted text holds. -/
theorem frag_quoted (lit m : PyStr) (c : Char) (u : PyStr)
    (hl : dropWS lit = c :: u) (h0 : preN lit = 0) :
    preN (lit ++ m ++ ['"', '\n']) = 0 ∧ postN (lit ++ m ++ ['"', '\n']) = 0 := by
  constructor
  · exact preN_lit2 lit m ['"', '\n'] c u hl h0
  · rw [postN_append_right (lit ++ m) ['"', '\n'] '"' [] (by decide)]
    decide

/-- The node-type header fragment always opens one block. -/
theorem frag_type_post (wt : PyStr) : postN (wt ++ (" \x7b\n").toList) = 1 := by
  rw [postN_append_right wt ((" \x7b\n").toList) lbrace [' '] (by decide)]
  decide

theorem frag_axis_pre (ax : PyStr) : preN (("axis ").toList ++ ax ++ ['\n']) = 0 :=
  preN_lit2 _ _ _ 'a' _ rfl (by decide)

/-- The url line of write_image_texture ends in quote-blank-bracket-newline
    and neither closes nor opens, whatever paths it quotes. -/
theorem frag_url (mid : PyStr) :
    preN (("url [ \"").toList ++ mid ++ ("\" ]\n").toList) = 0 ∧
    postN (("url [ \"").toList ++ mid ++ ("\" ]\n").toList) = 0 := by
  constructor
  · exact preN_lit2 _ _ _ 'u' _ rfl (by decide)
  · rw [postN_append_right (("url [ \"").toList ++ mid) (("\" ]\n").toList) ']'
      [' ', '"'] (by decide)]
    decide

theorem preN_translation (v : Q × Q × Q) :
    preN (("translation ").toList ++ fmt3 v 6 ++ ['\n']) = 0 :=
  (frag_lit_num (("translation ").toList) _ '\n' 't' _ rfl (by decide) (fmt3_chars v 6) (by decide)
    (by decide) (by decide)).1

theorem postN_translation (v : Q × Q × Q) :
    postN (("translation ").toList ++ fmt3 v 6 ++ ['\n']) = 0 :=
  (frag_lit_num (("translation ").toList) _ '\n' 't' _ rfl (by decide) (fmt3_chars v 6) (by decide)
    (by decide) (by decide)).2

theorem preN_scale (v : Q × Q × Q) :
    preN (("scale ").toList ++ fmt3 v 6 ++ ['\n']) = 0 :=
  (frag_lit_num (("scale ").toList) _ '\n' 's' _ rfl (by decide) (fmt3_chars v 6) (by decide)
    (by decide) (by decide)).1

theorem postN_scale (v : Q × Q × Q) :
    postN (("scale ").toList ++ fmt3 v 6 ++ ['\n']) = 0 :=
  (frag_lit_num (("scale ").toList) _ '\n' 's' _ rfl (by decide) (fmt3_chars v 6) (by decide)
    (by decide) (by decide)).2

theorem preN_rotation (v : Q × Q × Q × Q) :
    preN (("rotation ").toList ++ fmt4 v 6 ++ ['\n']) = 0 :=
  (frag_lit_num (("rotation ").toList) _ '\n' 'r' _ rfl (by decide) (fmt4_chars v 6) (by decide)
    (by decide) (by decide)).1

theorem postN_rotation (v : Q × Q × Q × Q) :
    postN (("rotation ").toList ++ fmt4 v 6 ++ ['\n']) = 0 :=
  (frag_lit_num (("rotation ").toList) _ '\n' 'r' _ rfl (by decide) (fmt4_chars v 6) (by decide)
    (by decide) (by decide)).2

theorem preN_size (v : Q × Q × Q) :
    preN (("size ").toList ++ fmt3 v 6 ++ ['\n']) = 0 :=
  (frag_lit_num (("size ").toList) _ '\n' 's' _ rfl (by decide) (fmt3_chars v 6) (by decide)
    (by decide) (by decide)).1

theorem postN_size (v : Q × Q × Q) :
    postN (("size ").toList ++ fmt3 v 6 ++ ['\n']) = 0 :=
  (frag_lit_num (("size ").toList) _ '\n' 's' _ rfl (by decide) (fmt3_chars v 6) (by decide)
    (by decide) (by decide)).2

theorem preN_anchor (v : Q × Q × Q) :
    preN (("anchor ").toList ++ fmt3 v 6 ++ ['\n']) = 0 :=
  (frag_lit_num (("anchor ").toList) _ '\n' 'a' _ rfl (by decide) (fmt3_chars v 6) (by decide)
    (by decide) (by decide)).1

theorem postN_anchor (v : Q × Q × Q) :
    postN (("anchor ").toList ++ fmt3 v 6 ++ ['\n']) = 0 :=
  (frag_lit_num (("anchor ").toList) _ '\n' 'a' _ rfl (by decide) (fmt3_chars v 6) (by decide)
    (by decide) (by decide)).2

theorem preN_crease (q : Q) :
    preN (("creaseAngle ").toList ++ fmtF q 4 ++ ['\n']) = 0 :=
  (frag_lit_num (("creaseAngle ").toList) _ '\n' 'c' _ rfl (by decide) (fmtF_chars q 4) (by decide)
    (by decide) (by decide)).1

theorem postN_crease (q : Q) :
    postN (("creaseAngle ").toList ++ fmtF q 4 ++ ['\n']) = 0 :=
  (frag_lit_num (("creaseAngle ").toList) _ '\n' 'c' _ rfl (by decide) (fmtF_chars q 4) (by decide)
    (by decide) (by decide)).2

theorem preN_baseColor (v : Q × Q × Q) :
    preN (("baseColor ").toList ++ fmt3 v 3 ++ ['\n']) = 0 :=
  (frag_lit_num (("baseColor ").toList) _ '\n' 'b' _ rfl (by decide) (fmt3_chars v 3) (by decide)
    (by decide) (by decide)).1

theorem postN_baseColor (v : Q × Q × Q) :
    postN (("baseColor ").toList ++ fmt3 v 3 ++ ['\n']) = 0 :=
  (frag_lit_num (("baseColor ").toList) _ '\n' 'b' _ rfl (by decide) (fmt3_chars v 3) (by decide)
    (by decide) (by decide)).2

theorem preN_emissive (v : Q × Q × Q) :
    preN (("emissiveColor ").toList ++ fmt3 v 3 ++ ['\n']) = 0 :=
  (frag_lit_num (("emissiveColor ").toList) _ '\n' 'e' _ rfl (by decide) (fmt3_chars v 3) (by decide)
    (by decide) (by decide)).1

theorem postN_emissive (v : Q × Q × Q) :
    postN (("emissiveColor ").toList ++ fmt3 v 3 ++ ['\n']) = 0 :=
  (frag_lit_num (("emissiveColor ").toList) _ '\n' 'e' _ rfl (by decide) (fmt3_chars v 3) (by decide)
    (by decide) (by decide)).2

theorem preN_name (m : PyStr) : preN (("name \"").toList ++ m ++ ['"', '\n']) = 0 :=
  (frag_quoted (("name \"").toList) m 'n' _ rfl (by decide)).1

theorem postN_name (m : PyStr) : postN (("name \"").toList ++ m ++ ['"', '\n']) = 0 :=
  (frag_quoted (("name \"").toList) m 'n' _ rfl (by decide)).2

theorem texCoordIndexFrags_balanced (mfv : List (List Nat)) (l : List Nat) (j : Nat) :
    deltaFW (texCoordIndexFrags mfv l j) = 0 ∧ dipFW (texCoordIndexFrags mfv l j) = 0 :=
  balanced_of_flat _ (fun f hf =>
    ⟨preN_zero_of_numChars f (texCoordIndexFrags_chars mfv l j f hf),
     postN_zero_of_numChars f (texCoordIndexFrags_chars mfv l j f hf)⟩)

theorem mapCoordIdx_balanced (mfv : List (List Nat)) (fg : List Nat) :
    deltaFW (fg.map (fun i => coordIndexFrag (mfv.getD i []))) = 0 ∧
    dipFW (fg.map (fun i => coordIndexFrag (mfv.getD i []))) = 0 :=
  balanced_of_flat _ (fun f hf => by
    rcases List.mem_map.1 hf with ⟨i, _, hi⟩
    subst hi
    exact ⟨preN_zero_of_numChars _ (coordIndexFrag_chars _),
      postN_zero_of_numChars _ (coordIndexFrag_chars _)⟩)

theorem mapVerts_balanced (vs : List (Q × Q × Q)) :
    deltaFW (vs.map (fun v => fmt3 v 6 ++ [' '])) = 0 ∧
    dipFW (vs.map (fun v => fmt3 v 6 ++ [' '])) = 0 :=
  balanced_of_flat _ (fun f hf => by
    rcases List.mem_map.1 hf with ⟨v, _, hv⟩
    subst hv
    have hch : ∀ c ∈ fmt3 v 6 ++ [' '], numChar c = true :=
      chars_append (fmt3_chars v 6) (chars_of_all _ (by decide))
    exact ⟨preN_zero_of_numChars _ hch, postN_zero_of_numChars _ hch⟩)

theorem uvPts_balanced (uvData : List FaceUV) (fg : List Nat) :
    deltaFW (fg.flatMap (fun i => ((uvData.getD i ⟨none, []⟩).uv).map
      (fun uv => fmtF uv.1 4 ++ ' ' :: fmtF uv.2 4 ++ [' ']))) = 0 ∧
    dipFW (fg.flatMap (fun i => ((uvData.getD i ⟨none, []⟩).uv).map
      (fun uv => fmtF uv.1 4 ++ ' ' :: fmtF uv.2 4 ++ [' ']))) = 0 :=
  balanced_of_flat _ (fun f hf => by
    rcases List.mem_flatMap.1 hf with ⟨i, _, hfi⟩
    rcases List.mem_map.1 hfi with ⟨uv, _, huv⟩
    subst huv
    have hch : ∀ c ∈ fmtF uv.1 4 ++ ' ' :: fmtF uv.2 4 ++ [' '], numChar c = true :=
      chars_append (chars_append (fmtF_chars _ 4)
        (chars_cons (by decide) (fmtF_chars _ 4))) (chars_of_all _ (by decide))
    exact ⟨preN_zero_of_numChars _ hch, postN_zero_of_numChars _ hch⟩)

/-- The boundingObject block opens and closes evenly and never dips below
    its entry depth. -/
theorem boundingFrags_balanced (obj : Obj) :
    deltaFW (boundingFrags obj) = 0 ∧ dipFW (boundingFrags obj) = 0 := by
  simp only [boundingFrags]
  simp only [deltaFW, dipFW, preN_translation, postN_translation, preN_size, postN_size]
  constructor <;> decide

/-- The HingeJoint block opens one block net (the endPoint Solid brace
    closed later by the supplementary bracket) and never dips below its
    entry depth. -/
theorem hingeFrags_balanced (nd : NodeData) (loc : Q × Q × Q)
    (hax : postN (("axis ").toList ++ nd.axis ++ ['\n']) = 0) :
    deltaFW (hingeFrags nd loc) = 1 ∧ dipFW (hingeFrags nd loc) = 0 := by
  have hna : preN (("axis ").toList ++ nd.axis ++ ['\n']) = 0 := frag_axis_pre nd.axis
  rcases e1 : nd.motorName with _ | m <;>
    rcases e2 : nd.positionSensorName with _ | p2 <;>
    simp only [hingeFrags, e1, e2] <;>
    simp only [deltaFW_append, dipFW_append, deltaFW, dipFW, preN_anchor, postN_anchor,
      preN_name, postN_name, hna, hax] <;>
    exact ⟨by decide, by decide⟩

theorem wte_balanced : ∀ s : Bool,
    deltaFW (write_transform_end s) = -2 - (if s = true then 1 else 0) ∧
    dipFW (write_transform_end s) = -2 - (if s = true then 1 else 0)
  | false => ⟨by decide, by decide⟩
  | true => ⟨by decide, by decide⟩

/-- write_image_texture emits a balanced fragment block with no dip and
    keeps the cache invariant. -/
theorem wit_balanced (image : Image) (path_mode : PyStr) (st : ExpSt) (h : StOK st) :
    deltaFW (write_image_texture image path_mode st).1 = 0 ∧
    dipFW (write_image_texture image path_mode st).1 = 0 ∧
    StOK (write_image_texture image path_mode st).2 := by
  obtain ⟨hid, hcache⟩ := unique_name_IdOK image.key (("IM_").toList ++ image.name)
    st.uuid_cache_image h.2.2
  cases st with
  | mk co cm ci tm ti =>
    simp only [write_image_texture]
    by_cases ht : image.key ∈ ti
    · rw [if_pos ht]
      have hu := frag_lit_id (("texture USE ").toList) _ '\n' 't' _ rfl (by decide)
        hid (by decide) (by decide) (by decide)
      refine ⟨?_, ?_, h.1, h.2.1, hcache⟩
      · simp only [deltaFW, dipFW, hu.1, hu.2]
        decide
      · simp only [deltaFW, dipFW, hu.1, hu.2]
        decide
    · rw [if_neg ht]
      have hd := frag_lit_id (("DEF ").toList) _ ' ' 'D' _ rfl (by decide)
        hid (by decide) (by decide) (by decide)
      have hu := frag_url (joinBlank ((dedupKeepFirst (([path_reference
        (path_reference image.filepath), pyBasename (path_reference image.filepath)] ++
        (if path_mode ≠ ("RELATIVE").toList then [path_reference image.filepath]
         else [])).map slashify)).map (fun f => '"' :: (pyEscape f ++ ['"']))))
      refine ⟨?_, ?_, h.1, h.2.1, hcache⟩
      · simp only [deltaFW, dipFW, hd.1, hd.2, hu.1, hu.2]
        decide
      · simp only [deltaFW, dipFW, hd.1, hd.2, hu.1, hu.2]
        decide

set_option maxHeartbeats 2000000 in
/-- One pass of the shape loop appends a balanced, dip-free block and keeps
    the cache invariant. -/
theorem shapeStep_balanced (world : Option World) (path_mode : PyStr) (mesh : Mesh)
    (mesh_materials : List (Option Material)) (mesh_faces : List Face)
    (mesh_faces_vertices : List (List Nat)) (uvData : List FaceUV)
    (is_uv : Bool) (mesh_id_coords : PyStr) (hco : IdOK mesh_id_coords)
    (acc : List PyStr × Bool × ExpSt) (g : (Nat × Option Image) × List Nat)
    (hd : deltaFW acc.1 = 0) (hdip : dipFW acc.1 = 0) (hst : StOK acc.2.2) :
    deltaFW (shapeStep world path_mode mesh mesh_materials mesh_faces
      mesh_faces_vertices uvData is_uv mesh_id_coords acc g).1 = 0 ∧
    dipFW (shapeStep world path_mode mesh mesh_materials mesh_faces
      mesh_faces_vertices uvData is_uv mesh_id_coords acc g).1 = 0 ∧
    StOK (shapeStep world path_mode mesh mesh_materials mesh_faces
      mesh_faces_vertices uvData is_uv mesh_id_coords acc g).2.2 := by
  have hcu := frag_lit_id (("coord USE ").toList) mesh_id_coords '\n' 'c' _ rfl
    (by decide) hco (by decide) (by decide) (by decide)
  have hcd := frag_lit_id (("DEF ").toList) mesh_id_coords ' ' 'D' _ rfl
    (by decide) hco (by decide) (by decide) (by decide)
  have htci := texCoordIndexFrags_balanced mesh_faces_vertices g.2 0
  have hmci := mapCoordIdx_balanced mesh_faces_vertices g.2
  have hmv := mapVerts_balanced mesh.vertices
  have huv := uvPts_balanced uvData g.2
  rcases Bool.eq_false_or_eq_true g.2.isEmpty with hg | hg
  · simp only [shapeStep, hg, Bool.not_true, Bool.false_eq_true, if_false]
    exact ⟨hd, hdip, hst⟩
  · rcases e : g.1.2 with _ | im
    · simp only [shapeStep, hg, Bool.not_false, if_true, e]
      rcases em : mesh_materials.getD g.1.1 none with _ | mat <;>
        simp only [em] <;>
        split_ifs <;>
        refine ⟨?_, ?_, hst⟩ <;>
        simp only [List.append_eq, List.nil_append, deltaFW_append, dipFW_append,
          deltaFW, dipFW, hd, hdip,
          hcu.1, hcu.2, hcd.1, hcd.2, htci.1, htci.2, hmci.1, hmci.2,
          hmv.1, hmv.2, huv.1, huv.2, preN_baseColor, postN_baseColor,
          preN_emissive, postN_emissive, preN_crease, postN_crease] <;>
        decide
    · have hw := wit_balanced im path_mode acc.2.2 hst
      simp only [shapeStep, hg, Bool.not_false, if_true, e]
      rcases em : mesh_materials.getD g.1.1 none with _ | mat <;>
        simp only [em] <;>
        split_ifs <;>
        refine ⟨?_, ?_, hw.2.2⟩ <;>
        simp only [List.append_eq, List.nil_append, deltaFW_append, dipFW_append,
          deltaFW, dipFW, hd, hdip,
          hw.1, hw.2.1, hcu.1, hcu.2, hcd.1, hcd.2, htci.1, htci.2,
          hmci.1, hmci.2, hmv.1, hmv.2, huv.1, huv.2, preN_baseColor,
          postN_baseColor, preN_emissive, postN_emissive, preN_crease,
          postN_crease] <;>
        decide

/-- Folding the shape loop over any group list from a balanced accumulator
    stays balanced and dip-free and keeps the cache invariant. -/
theorem shapeFold_balanced (world : Option World) (path_mode : PyStr) (mesh : Mesh)
    (mesh_materials : List (Option Material)) (mesh_faces : List Face)
    (mesh_faces_vertices : List (List Nat)) (uvData : List FaceUV)
    (is_uv : Bool) (mesh_id_coords : PyStr) (hco : IdOK mesh_id_coords) :
    ∀ (items : List ((Nat × Option Image) × List Nat)) (acc : List PyStr × Bool × ExpSt),
      deltaFW acc.1 = 0 → dipFW acc.1 = 0 → StOK acc.2.2 →
      deltaFW (items.foldl (shapeStep world path_mode mesh mesh_materials mesh_faces
        mesh_faces_vertices uvData is_uv mesh_id_coords) acc).1 = 0 ∧
      dipFW (items.foldl (shapeStep world path_mode mesh mesh_materials mesh_faces
        mesh_faces_vertices uvData is_uv mesh_id_coords) acc).1 = 0 ∧
      StOK (items.foldl (shapeStep world path_mode mesh mesh_materials mesh_faces
        mesh_faces_vertices uvData is_uv mesh_id_coords) acc).2.2
  | [], acc, hd, hdip, hst => ⟨hd, hdip, hst⟩
  | g :: items, acc, hd, hdip, hst => by
    rw [List.foldl_cons]
    obtain ⟨h1, h2, h3⟩ := shapeStep_balanced world path_mode mesh mesh_materials
      mesh_faces mesh_faces_vertices uvData is_uv mesh_id_coords hco acc g hd hdip hst
    exact shapeFold_balanced world path_mode mesh mesh_materials mesh_faces
      mesh_faces_vertices uvData is_uv mesh_id_coords hco items _ h1 h2 h3

/-- write_transform_begin: an empty block when it skips, otherwise a
    dip-free block opening net two blocks, three when the override is a
    HingeJoint (the supplementary bracket closes the third). -/
theorem wtb_balanced (obj : Obj) (trs : TRS) (def_id : Option PyStr)
    (user_data : List (PyStr × NodeData)) (hud : SafeUD user_data)
    (hid : ∀ d, def_id = some d → IdOK d) :
    deltaFW (write_transform_begin obj trs def_id user_data).1 =
      (if (write_transform_begin obj trs def_id user_data).2.1 then 0
       else 2 + (if (write_transform_begin obj trs def_id user_data).2.2 then 1 else 0)) ∧
    dipFW (write_transform_begin obj trs def_id user_data).1 = 0 := by
  rcases def_id with _ | d
  · simp only [write_transform_begin]
    by_cases hs : skipCond trs = true
    · rw [if_pos hs]
      exact ⟨by decide, by decide⟩
    · rw [if_neg hs]
      refine ⟨?_, ?_⟩ <;>
        simp only [List.nil_append, List.append_eq, deltaFW_append, dipFW_append,
          deltaFW, dipFW, preN_translation, postN_translation, preN_scale, postN_scale,
          preN_rotation, postN_rotation, Bool.false_eq_true, eq_self_iff_true,
          if_true, if_false] <;>
        decide
  · have hdef := frag_lit_id (("DEF ").toList) d ' ' 'D' _ rfl (by decide)
      (hid d rfl) (by decide) (by decide) (by decide)
    rcases ea : alookup user_data d with _ | nd
    · simp only [write_transform_begin, ea, Option.map_none']
      by_cases hs : skipCond trs = true
      · rw [if_pos hs]
        exact ⟨by decide, by decide⟩
      · rw [if_neg hs]
        refine ⟨?_, ?_⟩ <;>
          simp only [List.append_eq, List.nil_append, List.cons_append,
            deltaFW_append, dipFW_append, deltaFW, dipFW, hdef.1, hdef.2,
            preN_translation, postN_translation, preN_scale, postN_scale,
            preN_rotation, postN_rotation, Bool.false_eq_true, eq_self_iff_true,
            if_true, if_false] <;>
          decide
    · obtain ⟨hty, hax⟩ := hud (d, nd) (alookup_mem user_data d nd ea)
      have hb := boundingFrags_balanced obj
      have hty1 : postN (nd.webotsType ++ (" \x7b\n").toList) = 1 :=
        frag_type_post nd.webotsType
      have hh := hingeFrags_balanced nd trs.loc hax
      simp only [write_transform_begin, ea, Option.map_some']
      rcases Bool.eq_false_or_eq_true (nd.webotsType == ("HingeJoint").toList)
          with hj | hj <;>
        rcases Bool.eq_false_or_eq_true (nd.webotsType != ("Robot").toList)
          with hp | hp <;>
        simp only [hj, hp, Bool.false_eq_true, eq_self_iff_true, if_true, if_false] <;>
        refine ⟨?_, ?_⟩ <;>
        simp only [deltaFW_append, dipFW_append] <;>
        simp only [hh.1, hh.2, hb.1, hb.2] <;>
        simp only [List.append_eq, List.nil_append, deltaFW_append, dipFW_append,
          deltaFW, dipFW, hdef.1, hdef.2, hty, hty1, hb.1, hb.2,
          preN_translation, postN_translation, preN_scale,
          postN_scale, preN_rotation, postN_rotation] <;>
        decide



/-- Combining a transform wrapper, a balanced body and the matching closing
    fragments yields a balanced, dip-free block. -/
theorem wifs_combine (w : List PyStr × Bool × Bool) (bodyF : List PyStr) (st2 : ExpSt)
    (hw1 : deltaFW w.1 = (if w.2.1 then 0 else 2 + (if w.2.2 then 1 else 0)))
    (hw2 : dipFW w.1 = 0)
    (hb1 : deltaFW bodyF = 0) (hb2 : dipFW bodyF = 0) (hst : StOK st2) :
    deltaFW (w.1 ++ bodyF ++ (if !w.2.1 then write_transform_end w.2.2 else [])) = 0 ∧
    dipFW (w.1 ++ bodyF ++ (if !w.2.1 then write_transform_end w.2.2 else [])) = 0 ∧
    StOK st2 := by
  obtain ⟨hq1, hq2⟩ := wte_balanced w.2.2
  rcases Bool.eq_false_or_eq_true w.2.1 with hsk | hsk <;>
    rcases Bool.eq_false_or_eq_true w.2.2 with hsb | hsb <;>
    simp only [hsk, hsb, Bool.not_true, Bool.not_false, Bool.false_eq_true,
      eq_self_iff_true, if_true, if_false] at hw1 hq1 hq2 ⊢ <;>
    refine ⟨?_, ?_, hst⟩ <;>
    simp only [deltaFW_append, dipFW_append, hw1, hw2, hb1, hb2, hq1, hq2] <;>
    (try simp only [deltaFW, dipFW]) <;>
    omega

set_option maxHeartbeats 2000000 in
/-- write_indexed_face_set emits a balanced, dip-free fragment block and
    keeps the cache invariant. -/
theorem wifs_balanced (obj : Obj) (mesh : Mesh) (matrix : TRS)
    (world : Option World) (user_data : List (PyStr × NodeData))
    (path_mode : PyStr) (st : ExpSt) (hud : SafeUD user_data) (h : StOK st) :
    deltaFW (write_indexed_face_set obj mesh matrix world user_data path_mode st).1 = 0 ∧
    dipFW (write_indexed_face_set obj mesh matrix world user_data path_mode st).1 = 0 ∧
    StOK (write_indexed_face_set obj mesh matrix world user_data path_mode st).2 := by
  cases st with
  | mk co cm ci tm ti =>
    obtain ⟨ho1, ho2⟩ := unique_name_IdOK obj.key (("OB_").toList ++ obj.name) co h.1
    obtain ⟨hm1, hm2⟩ := unique_name_IdOK mesh.key (("ME_").toList ++ mesh.name) cm h.2.1
    have hgid : IdOK (("GROUP_").toList ++
        (unique_name mesh.key (("ME_").toList ++ mesh.name) cm).1) :=
      chars_append (chars_of_all _ (by decide)) hm1
    have hcid : IdOK (("COORDS_").toList ++
        (unique_name mesh.key (("ME_").toList ++ mesh.name) cm).1) :=
      chars_append (chars_of_all _ (by decide)) hm1
    have hdid : IdOK ((unique_name obj.key (("OB_").toList ++ obj.name) co).1 ++
        ("_IFS_TRANSFORM").toList) :=
      chars_append ho1 (chars_of_all _ (by decide))
    have hwtb := wtb_balanced obj matrix
      (some ((unique_name obj.key (("OB_").toList ++ obj.name) co).1 ++
        ("_IFS_TRANSFORM").toList)) user_data hud
      (fun d hd => by cases hd; exact hdid)
    have huse := frag_lit_id (("USE ").toList) (("GROUP_").toList ++
      (unique_name mesh.key (("ME_").toList ++ mesh.name) cm).1) '\n' 'U' _ rfl
      (by decide) hgid (by decide) (by decide) (by decide)
    simp only [write_indexed_face_set]
    set M := (if mesh.tessfaces.isEmpty && !mesh.polygons.isEmpty then
      { mesh with tessfaces := mesh.polygons } else mesh) with hM
    split
    · exact ⟨rfl, rfl, ho2, hm2, h.2.2⟩
    · split
      · refine wifs_combine _ _ _ hwtb.1 hwtb.2 ?_ ?_ ⟨ho2, hm2, h.2.2⟩ <;>
          simp only [deltaFW, dipFW, huse.1, huse.2] <;> decide
      · refine wifs_combine _ _ _ hwtb.1 hwtb.2 ?_ ?_ ?_
        · exact (shapeFold_balanced world path_mode _ _ _ _ _ _ _ hcid _
            (([], false, (⟨(unique_name obj.key (("OB_").toList ++ obj.name) co).2,
              (unique_name mesh.key (("ME_").toList ++ mesh.name) cm).2, ci,
              tm ++ [M.key], ti⟩ : ExpSt))) rfl rfl ⟨ho2, hm2, h.2.2⟩).1
        · exact (shapeFold_balanced world path_mode _ _ _ _ _ _ _ hcid _
            (([], false, (⟨(unique_name obj.key (("OB_").toList ++ obj.name) co).2,
              (unique_name mesh.key (("ME_").toList ++ mesh.name) cm).2, ci,
              tm ++ [M.key], ti⟩ : ExpSt))) rfl rfl ⟨ho2, hm2, h.2.2⟩).2.1
        · exact (shapeFold_balanced world path_mode _ _ _ _ _ _ _ hcid _
            (([], false, (⟨(unique_name obj.key (("OB_").toList ++ obj.name) co).2,
              (unique_name mesh.key (("ME_").toList ++ mesh.name) cm).2, ci,
              tm ++ [M.key], ti⟩ : ExpSt))) rfl rfl ⟨ho2, hm2, h.2.2⟩).2.2

/-- The derived-objects loop: balanced, dip-free, cache invariant kept. -/
theorem export_derived_balanced (user_data : List (PyStr × NodeData))
    (world : Option World) (path_mode : PyStr) (hud : SafeUD user_data) :
    ∀ (ds : List DerivedEntry) (st : ExpSt), StOK st →
      deltaFW (export_derived user_data world path_mode st ds).1 = 0 ∧
      dipFW (export_derived user_data world path_mode st ds).1 = 0 ∧
      StOK (export_derived user_data world path_mode st ds).2
  | [], _, h => ⟨rfl, rfl, h⟩
  | d :: rest, st, h => by
    simp only [export_derived]
    by_cases hot : d.otype ∈ [("MESH").toList, ("CURVE").toList, ("SURFACE").toList,
      ("FONT").toList]
    · rw [if_pos hot]
      rcases e : d.mesh with _ | me
      · obtain ⟨h4, h5, h6⟩ :=
          export_derived_balanced user_data world path_mode hud rest st h
        exact ⟨by simpa using h4, by simpa using h5, h6⟩
      · obtain ⟨h1, h2, h3⟩ :=
          wifs_balanced d.obj me d.trs world user_data path_mode st hud h
        obtain ⟨h4, h5, h6⟩ :=
          export_derived_balanced user_data world path_mode hud rest _ h3
        refine ⟨?_, ?_, h6⟩ <;>
          simp only [deltaFW_append, dipFW_append, h1, h2, h4, h5] <;> omega
    · rw [if_neg hot]
      obtain ⟨h4, h5, h6⟩ :=
        export_derived_balanced user_data world path_mode hud rest st h
      exact ⟨by simpa using h4, by simpa using h5, h6⟩

/-- Combining the transform wrapper, the derived block, the children block
    and the matching closing fragments of export_object. -/
theorem wobj_combine (w : List PyStr × Bool × Bool) (derF childF : List PyStr)
    (st2 : ExpSt)
    (hw1 : deltaFW w.1 = (if w.2.1 then 0 else 2 + (if w.2.2 then 1 else 0)))
    (hw2 : dipFW w.1 = 0)
    (hd1 : deltaFW derF = 0) (hd2 : dipFW derF = 0)
    (hc1 : deltaFW childF = 0) (hc2 : dipFW childF = 0) (hst : StOK st2) :
    deltaFW (w.1 ++ derF ++ childF ++
      (if !w.2.1 then write_transform_end w.2.2 else [])) = 0 ∧
    dipFW (w.1 ++ derF ++ childF ++
      (if !w.2.1 then write_transform_end w.2.2 else [])) = 0 ∧
    StOK st2 := by
  obtain ⟨hq1, hq2⟩ := wte_balanced w.2.2
  rcases Bool.eq_false_or_eq_true w.2.1 with hsk | hsk <;>
    rcases Bool.eq_false_or_eq_true w.2.2 with hsb | hsb <;>
    simp only [hsk, hsb, Bool.not_true, Bool.not_false, Bool.false_eq_true,
      eq_self_iff_true, if_true, if_false] at hw1 hq1 hq2 ⊢ <;>
    refine ⟨?_, ?_, hst⟩ <;>
    simp only [deltaFW_append, dipFW_append, hw1, hw2, hd1, hd2, hc1, hc2, hq1, hq2] <;>
    (try simp only [deltaFW, dipFW]) <;>
    omega

mutual

/-- export_object: balanced, dip-free, cache invariant kept. -/
theorem export_object_balanced (user_data : List (PyStr × NodeData))
    (world : Option World) (path_mode : PyStr) (hud : SafeUD user_data) :
    ∀ (hn : HNode) (st : ExpSt), StOK st →
      deltaFW (export_object user_data world path_mode st hn).1 = 0 ∧
      dipFW (export_object user_data world path_mode st hn).1 = 0 ∧
      StOK (export_object user_data world path_mode st hn).2
  | HNode.mk node children, st, h => by
    obtain ⟨ho1, ho2⟩ :=
      unique_name_IdOK node.obj.key node.obj.name st.uuid_cache_object h.1
    have hdid : IdOK ((unique_name node.obj.key node.obj.name st.uuid_cache_object).1 ++
        ("_TRANSFORM").toList) :=
      chars_append ho1 (chars_of_all _ (by decide))
    have hwtb := wtb_balanced node.obj node.trs
      (some ((unique_name node.obj.key node.obj.name st.uuid_cache_object).1 ++
        ("_TRANSFORM").toList)) user_data hud
      (fun d hd => by cases hd; exact hdid)
    have hst1 : StOK { st with
        uuid_cache_object :=
          (unique_name node.obj.key node.obj.name st.uuid_cache_object).2 } :=
      ⟨ho2, h.2.1, h.2.2⟩
    obtain ⟨h1, h2, h3⟩ :=
      export_derived_balanced user_data world path_mode hud node.derived _ hst1
    obtain ⟨h4, h5, h6⟩ :=
      export_object_list_balanced user_data world path_mode hud children _ h3
    simp only [export_object]
    exact wobj_combine _ _ _ _ hwtb.1 hwtb.2 h1 h2 h4 h5 h6

/-- The children recursion: balanced, dip-free, cache invariant kept. -/
theorem export_object_list_balanced (user_data : List (PyStr × NodeData))
    (world : Option World) (path_mode : PyStr) (hud : SafeUD user_data) :
    ∀ (l : List HNode) (st : ExpSt), StOK st →
      deltaFW (export_object_list user_data world path_mode st l).1 = 0 ∧
      dipFW (export_object_list user_data world path_mode st l).1 = 0 ∧
      StOK (export_object_list user_data world path_mode st l).2
  | [], _, h => ⟨rfl, rfl, h⟩
  | hn :: rest, st, h => by
    obtain ⟨h1, h2, h3⟩ := export_object_balanced user_data world path_mode hud hn st h
    obtain ⟨h4, h5, h6⟩ :=
      export_object_list_balanced user_data world path_mode hud rest _ h3
    simp only [export_object_list]
    refine ⟨?_, ?_, h6⟩ <;>
      simp only [deltaFW_append, dipFW_append, h1, h2, h4, h5] <;> omega

end

theorem write_header_balanced : deltaFW write_header = 0 ∧ dipFW write_header = 0 :=
  ⟨by decide, by decide⟩

/-- A full export run is balanced with no dip. -/
theorem export_main_balanced (user_data : List (PyStr × NodeData))
    (world : Option World) (path_mode : PyStr) (forest : List HNode)
    (hud : SafeUD user_data) :
    deltaFW (export_main user_data world path_mode forest).1 = 0 ∧
    dipFW (export_main user_data world path_mode forest).1 = 0 := by
  obtain ⟨h1, h2, _⟩ :=
    export_object_list_balanced user_data world path_mode hud forest expInit expInit_StOK
  have hh := write_header_balanced
  simp only [export_main]
  refine ⟨?_, ?_⟩ <;>
    simp only [deltaFW_append, dipFW_append, h1, h2, hh.1, hh.2] <;> omega

/-- C6: the text emitter writes 2*depth blanks before every fragment that
    begins a new physical line (the depth taken after the pre-decrement),
    decrements the depth before a fragment whose stripped content starts
    with a closing bracket and increments it after a fragment whose
    stripped content ends with an opening one; and over any complete export
    run (any forest, any world, any override table whose free-form type and
    axis strings are bracket-safe) the depth at which every fragment is
    written is non-negative and the final depth is zero: total opens equal
    total closes. -/
theorem c6_emitter_balance (user_data : List (PyStr × NodeData)) (world : Option World)
    (path_mode : PyStr) (forest : List HNode) (hud : SafeUD user_data) :
    (∀ (st : FWState) (f : PyStr),
      (fwStep st f).out = st.out ++
        (if st.isLastCharacterACariageReturn
         then List.replicate (2 * (st.indentation - preN f)).toNat ' ' else []) ++ f ∧
      (fwStep st f).indentation = st.indentation - preN f + postN f) ∧
    (∀ (xs : List PyStr) (f : PyStr) (ys : List PyStr),
      (export_main user_data world path_mode forest).1 = xs ++ f :: ys →
      0 ≤ (runFW fwInit xs).indentation - preN f) ∧
    (runFW fwInit (export_main user_data world path_mode forest).1).indentation = 0 := by
  obtain ⟨hd, hdip⟩ := export_main_balanced user_data world path_mode forest hud
  refine ⟨fun st f => ⟨fwStep_out st f, fwStep_indentation st f⟩, ?_, ?_⟩
  · intro xs f ys hsplit
    have hnn : nonnegFW 0 (export_main user_data world path_mode forest).1 = true :=
      nonnegFW_of_dip _ 0 (by rw [hdip]; decide)
    rw [hsplit] at hnn
    have hs := nonnegFW_split xs 0 f ys hnn
    rw [runFW_indentation]
    simp only [fwInit]
    omega
  · rw [runFW_indentation, hd]
    simp [fwInit]

/-- The override table of the C6 witness scene: the body is a HingeJoint
    with a motor and a position sensor. -/
def udHinge : List (PyStr × NodeData) :=
  [(("BODY_TRANSFORM").toList,
    ⟨("HingeJoint").toList, ("0 1 0").toList, some (("M1").toList),
     some (("P1").toList)⟩)]

/-- Witness for the C6 theorem: the hinge-override cube scene satisfies the
    bracket-safety condition, and its export run ends at depth zero. -/
theorem c6_emitter_balance_witness :
    SafeUD udHinge ∧
    (runFW fwInit (export_main udHinge none (("AUTO")).toList sceneBody).1).indentation
      = 0 :=
  ⟨by decide,
   (c6_emitter_balance udHinge none (("AUTO")).toList sceneBody (by decide)).2.2⟩
